import Mathlib

/-!
# Verification of a tree-based ORAM client/server (Python sources in `ex1/`)

Shallow embedding of `ex1/utils.py` (`Block`, `Bucket`, crypto wrappers),
`ex1/tree.py` (`BinaryTree`), `ex1/server.py` (`Server`) and
`ex1/client.py` (`Client`).

Modelling conventions:
* Python `str` values are modelled as `List Char` (`PyStr`).
* Python dynamic values that can sit in a `Block` field are `PyVal`
  (`str`/`int`/`bytes`), mirroring the plaintext/ciphertext swing of
  `Block.data` and `Block.leaf_id`.
* RSA-OAEP encryption and RSASSA-PSS signatures are modelled symbolically:
  `Bytes.enc k v` is the ciphertext of value `v` under key pair `k`;
  decryption with a different key, or of a tampered ciphertext, raises
  `ValueError`, exactly as the `cryptography` library does.  `Bytes.sig k m`
  is a signature over message `m`; `verify` succeeds exactly on the matching
  signature.  Python `str(some_bytes)` produces a `repr` string that never
  parses as an integer; it is modelled by the `BVal.brepr` payload.
* Exceptions are modelled with `Except Err`; every stateful operation returns
  `Except Err α × St`, the state component being the state at the moment of
  the raise (Python mutations performed before an exception persist).
* Randomness (leaf draws of `_assign_to_leaf`, node/block choices of `flush`)
  is supplied through explicit choice streams (`draws`, `fc`); the bounded
  choices of `flush` are mapped into range with `%`, so every stream denotes
  a genuine run of the Python program and every Python run is denoted.
* The ghost fields `trace` (server calls issued) and `ovf` (some
  `Bucket.write_data` call found no vacant block and overwrote a block)
  instrument the model; they influence no computation.
-/

namespace Oram

/-- Python `str`, as a list of characters. -/
abbrev PyStr := List Char

/-- `EMPTY_DATA = '0;0'` from `ex1/utils.py`. -/
def EMPTY_DATA : PyStr := ['0', ';', '0']

/-- Exception kinds raised by the Python sources. -/
inductive Err where
  | valueError      -- generic ValueError (decrypt failure, bad format, bad path)
  | typeError       -- TypeError (e.g. str method applied to bytes / iterating None)
  | attrError       -- AttributeError (`.encode()` on bytes)
  | keyError        -- KeyError (missing dict entry)
  | authFail        -- ValueError('CLIENT: file found, but authentication failed')
  | notFoundClient  -- ValueError('filename "..." does not exist on the client side')
  | fileNotFound    -- FileNotFoundError('CLIENT: deleting ... failed')
  | assertionError  -- assert False in _push_down / flush
deriving DecidableEq, Repr

instance {ε α : Type} [DecidableEq ε] [DecidableEq α] : DecidableEq (Except ε α) := fun a b =>
  match a, b with
  | .error e1, .error e2 =>
    if h : e1 = e2 then .isTrue (by rw [h]) else .isFalse (fun hc => h (by cases hc; rfl))
  | .ok v1, .ok v2 =>
    if h : v1 = v2 then .isTrue (by rw [h]) else .isFalse (fun hc => h (by cases hc; rfl))
  | .error _, .ok _ => .isFalse (fun hc => by cases hc)
  | .ok _, .error _ => .isFalse (fun hc => by cases hc)

/-- Payload carried inside a symbolic ciphertext: the plaintext behind
`encrypt(pub, message.encode())`.  `BVal.n m` stands for the decimal string
of `m` (as produced by `str(block.leaf_id)` for an `int` leaf id);
`BVal.brepr` stands for the `repr` string of a `bytes` object, which never
parses back as an integer. -/
inductive BVal where
  | s (v : PyStr)
  | n (v : Nat)
  | brepr
deriving DecidableEq, Repr

/-- Python `bytes` values occurring in the program: ciphertexts, signatures,
and tampered ciphertexts. -/
inductive Bytes where
  | enc (k : Nat) (v : BVal)
  | sig (k : Nat) (m : PyStr)
  | tampered (k : Nat) (v : BVal)
deriving DecidableEq, Repr

/-- A dynamic Python value as stored in `Block.data` / `Block.leaf_id`. -/
inductive PyVal where
  | str (s : PyStr)
  | int (n : Nat)
  | bytes (b : Bytes)
deriving DecidableEq, Repr

instance : Inhabited PyVal := ⟨.str []⟩

/-- `Block` from `ex1/utils.py`. -/
structure Block where
  bid : Nat
  leafId : PyVal
  data : PyVal
deriving DecidableEq, Repr

instance : Inhabited Block := ⟨⟨0, .int 0, .str EMPTY_DATA⟩⟩

/-- `Bucket` from `ex1/utils.py`. -/
structure Bucket where
  size : Nat
  key : Nat
  idxPt : Nat
  array : List Block
deriving DecidableEq, Repr

instance : Inhabited Bucket := ⟨⟨0, 0, 0, []⟩⟩

/-- Ghost record of a server interaction (`Server.oread` / `Server.owrite`). -/
inductive Ev where
  | oreadE (k : Nat)
  | owriteE
deriving DecidableEq, Repr

/-- Combined server + client state.

`buckets` is the server's ORAM tree (indexed by node key); `fileToLeaf` and
`fileToSig` are the client's position map and signature table; `trace`,
`rng`, `fcnt` and `ovf` are ghost instrumentation (server-call trace, count
of `_assign_to_leaf` draws consumed, count of flush level-choices consumed,
and whether some `write_data` call overwrote a non-vacant block). -/
structure St where
  buckets : List Bucket
  fileToLeaf : PyStr → Option Nat
  fileToSig : PyStr → Option Bytes
  trace : List Ev
  rng : Nat
  fcnt : Nat
  ovf : Bool

/-- Functional update of an association function (Python dict assignment). -/
def updF {α : Type} (m : PyStr → Option α) (k : PyStr) (v : α) : PyStr → Option α :=
  fun x => if x = k then some v else m x

/-- In-place update of the `i`-th element of a list (mutating a Python list
element through an object reference); out-of-range indices are untouched
(such calls never occur in the modelled flows). -/
def modifyIdx {α : Type} : List α → Nat → (α → α) → List α
  | [], _, _ => []
  | a :: as, 0, f => f a :: as
  | a :: as, n + 1, f => a :: modifyIdx as n f

/-! ## Binary tree arithmetic (`ex1/tree.py`)

`BinaryTree.build(list(range(num_nodes)))` wires node `k` to left child
`2k+1`, right child `2k+2` and parent `(k-1)//2`.  The server builds the
tree on `num_nodes = 2^(h+1) - 1` keys, where `2^h` is the number of
leaves. -/

/-- Number of nodes of the server's tree of height `h` (`Server.__init__`). -/
def numNodes (h : Nat) : Nat := 2 ^ (h + 1) - 1

/-- Bucket size `Z = expo + 1` (`Server.__init__: self.bucket_size`). -/
def Zsize (h : Nat) : Nat := h + 1

/-- `Client.min_leaf = min(server.oram.leaf_keys)`. -/
def minLeaf (h : Nat) : Nat := 2 ^ h - 1

/-- `Client.max_leaf = min_leaf + server.num_leaf - 1`. -/
def maxLeaf (h : Nat) : Nat := 2 ^ (h + 1) - 2

/-- A node key is a leaf exactly when it has no children in the tree built
by `BinaryTree.build` (the `IndexError` branch): `2k+1` is out of range. -/
def isLeafKey (h k : Nat) : Prop := numNodes h ≤ 2 * k + 1 ∧ k < numNodes h

instance (h k : Nat) : Decidable (isLeafKey h k) := by
  unfold isLeafKey; infer_instance

/-- Fuel-driven helper for `rootPath` (structural recursion so that the
kernel can evaluate it); `fuel ≥ k` always suffices since parents strictly
decrease. -/
def rootPathAux : Nat → Nat → List Nat
  | _, 0 => [0]
  | 0, _ + 1 => []
  | fuel + 1, k + 1 => rootPathAux fuel (k / 2) ++ [k + 1]

/-- The root-to-node path computed by `BinaryTree._init_root_leaf_paths`:
walk the `parent` pointers from the node and prepend.  `parent (k+1) = k/2`. -/
def rootPath (k : Nat) : List Nat := rootPathAux k k

/-- `BinaryTree.get_root_path`: the dict `leaf_to_path` has an entry exactly
for each leaf key. -/
def getRootPath (h k : Nat) : Option (List Nat) :=
  if isLeafKey h k then some (rootPath k) else none

/-- `get_root_path` applied to `file_to_leaf.get(filename)` (which may be
`None`; `dict.get(None)` then returns `None`). -/
def getRootPathO (h : Nat) : Option Nat → Option (List Nat)
  | none => none
  | some k => getRootPath h k

/-- `get_root_path(lid)` where `lid` is the dynamic `block.leaf_id`: only an
`int` that is a leaf key hits an entry of `leaf_to_path`. -/
def getRootPathP (h : Nat) : PyVal → Option (List Nat)
  | .int n => getRootPath h n
  | _ => none

/-- Leaf keys of the tree, in key order (`BinaryTree.leaves`, as keys). -/
def leafKeysL (h : Nat) : List Nat :=
  (List.range (numNodes h)).filter (fun k => decide (numNodes h ≤ 2 * k + 1))

/-- `BinaryTree._assign_node_to_reachable_leaves`: `node_to_leaves[k]` lists
the leaves whose root path contains `k`. -/
def nodeToLeaves (h k : Nat) : List Nat :=
  (leafKeysL h).filter (fun l => decide (k ∈ rootPath l))

/-! ## Crypto wrappers (`ex1/utils.py`) -/

/-- `decrypt(private_key, message)` followed by `.decode('utf-8')` /
`int(...)` happens at call sites; here: raw RSA-OAEP decryption.
Non-`bytes` input raises `TypeError`; a ciphertext under another key, a
tampered ciphertext, or a non-ciphertext `bytes` raises `ValueError`. -/
def pyDecrypt (ck : Nat) : PyVal → Except Err BVal
  | .bytes (.enc k v) => if k = ck then .ok v else .error .valueError
  | .bytes _ => .error .valueError
  | _ => .error .typeError

/-- `str(x)` for the values that can appear in `Block.leaf_id`, as consumed
by `_encrypt_bucket` (`str(block.leaf_id).encode()`). -/
def bvalOfLeafId : PyVal → BVal
  | .int n => .n n
  | .str s => .s s
  | .bytes _ => .brepr

/-- `int(string)`: parse a decrypted leaf-id payload back to an `int`.
`BVal.n m` is the decimal string of `m`; anything else raises `ValueError`. -/
def pyIntOfBVal : BVal → Except Err Nat
  | .n m => .ok m
  | _ => .error .valueError

/-- `verify(pb_key, message, signature)` from `ex1/utils.py`: true exactly
for the matching RSASSA-PSS signature. -/
def verifySig (ck : Nat) (msg : PyStr) (sg : Bytes) : Bool :=
  sg = Bytes.sig ck msg

/-! ## `Bucket` operations (`ex1/utils.py`) -/

/-- `Block.is_empty`: `self.data == EMPTY_DATA` (a `bytes` payload never
equals the `str` constant). -/
def blockIsEmpty (b : Block) : Bool := b.data = PyVal.str EMPTY_DATA

/-- `Bucket.get_available_blocks`: indices of empty blocks, ascending. -/
def availIdxs (bs : List Block) : List Nat :=
  (List.range bs.length).filter (fun i => blockIsEmpty (bs.getD i default))

/-- `Bucket.write_data(data, leaf_id)`: reset `idx_pt` if it exceeded the
size, then write into the lowest-index vacant block if one exists, else
overwrite the block at `idx_pt` and advance the pointer. -/
def writeData (bk : Bucket) (d lid : PyVal) : Bucket :=
  let pt0 := if bk.size ≤ bk.idxPt then 0 else bk.idxPt
  match availIdxs bk.array with
  | [] =>
      { bk with
        array := modifyIdx bk.array pt0 (fun b => { b with data := d, leafId := lid })
        idxPt := pt0 + 1 }
  | i :: _ =>
      { bk with
        array := modifyIdx bk.array i (fun b => { b with data := d, leafId := lid })
        idxPt := pt0 }

/-! ## Bucket-level client crypto sweeps (`Client._decrypt_bucket`,
`Client._encrypt_bucket`) -/

/-- `.decode('utf-8')` on a decrypted payload: the string the plaintext
bytes stood for (`BVal.n m` was `str(m)`; `BVal.brepr` was the `repr` of a
`bytes` object, whose exact text never matters downstream). -/
def strOfBVal : BVal → PyStr
  | .s s => s
  | .n m => (toString m).toList
  | .brepr => ['b']

/-- One block of `Client._decrypt_bucket`'s loop: decrypt `leaf_id`, parse it
as `int` and store it, then decrypt `data`, decode it and store it; on any
`ValueError`/`TypeError` the block is left as it stands at that point
(`except ... continue`). -/
def decryptBlock (ck : Nat) (bl : Block) : Block :=
  match pyDecrypt ck bl.leafId with
  | .error _ => bl
  | .ok v =>
    match pyIntOfBVal v with
    | .error _ => bl
    | .ok m =>
      let bl1 := { bl with leafId := PyVal.int m }
      match pyDecrypt ck bl1.data with
      | .error _ => bl1
      | .ok w => { bl1 with data := PyVal.str (strOfBVal w) }

/-- `Client._encrypt_bucket`'s loop, which mutates blocks one at a time and
raises `AttributeError` at the first block whose `data` is not a `str`
(`block.data.encode()`); earlier blocks stay encrypted.  Returns the
processed list and whether the error was raised. -/
def encBlocks (ck : Nat) : List Block → List Block × Bool
  | [] => ([], false)
  | b :: bs =>
    match b.data with
    | .str s =>
        let r := encBlocks ck bs
        ({ b with
            data := PyVal.bytes (Bytes.enc ck (BVal.s s))
            leafId := PyVal.bytes (Bytes.enc ck (bvalOfLeafId b.leafId)) } :: r.1,
         r.2)
    | _ => (b :: bs, true)

/-! ## State access helpers -/

/-- The bucket at node key `k` (callers guarantee `k` is a valid key). -/
def getBucket (st : St) (k : Nat) : Bucket := st.buckets.getD k default

/-- Replace the bucket at node key `k` in place. -/
def modBucket (st : St) (k : Nat) (f : Bucket → Bucket) : St :=
  { st with buckets := modifyIdx st.buckets k f }

/-- `Client._decrypt_bucket` applied to the bucket at node `k` (total). -/
def decryptAt (ck : Nat) (k : Nat) (st : St) : St :=
  modBucket st k (fun bk => { bk with array := bk.array.map (decryptBlock ck) })

/-- `Client._encrypt_bucket` applied to the bucket at node `k`; raises
`AttributeError` when some block's `data` is not a `str`, with the earlier
blocks already re-encrypted. -/
def encryptAt (ck : Nat) (k : Nat) (st : St) : Except Err Unit × St :=
  let r := encBlocks ck (getBucket st k).array
  ((if r.2 then .error .attrError else .ok ()),
   modBucket st k (fun bk => { bk with array := r.1 }))

/-- `Server.oread(key)`: raises on an unknown node key, otherwise hands the
client a reference to the bucket (the model keeps working through the key).
Records the ghost trace event. -/
def oread (h : Nat) (k : Nat) (st : St) : Except Err Unit × St :=
  if k < numNodes h then
    (.ok (), { st with trace := st.trace ++ [Ev.oreadE k] })
  else
    (.error .valueError, st)

/-- `Server.owrite(file, leaf_id)`: `write_data` into the root bucket.
Sets the ghost overflow flag when no vacant block exists, and records the
ghost trace event. -/
def owrite (file lid : PyVal) (st : St) : St :=
  let full := availIdxs (getBucket st 0).array = []
  { modBucket st 0 (fun bk => writeData bk file lid) with
    trace := st.trace ++ [Ev.owriteE]
    ovf := st.ovf || full }

/-- `Client._extract_file(file)`: index of the first `';'`. -/
def findSemi : PyStr → Option Nat
  | [] => none
  | c :: cs => if c = ';' then some 0 else (findSemi cs).map (· + 1)

/-- `Client._extract_file`: split at the first `';'`; raises `ValueError` on
a `str` without `';'`, `TypeError` on `bytes` (`bytes.find(str)`), and
`AttributeError` on `int` (no `.find`). -/
def extractFile : PyVal → Except Err (PyStr × PyStr)
  | .str s =>
    match findSemi s with
    | none => .error .valueError
    | some i => .ok (s.take i, s.drop (i + 1))
  | .bytes _ => .error .typeError
  | .int _ => .error .attrError

/-- `Block.clear()`: reset the payload to `EMPTY_DATA` (the leaf id is left
alone; the `UNASSIGNED` line is commented out in the source). -/
def clearData (b : Block) : Block := { b with data := PyVal.str EMPTY_DATA }

/-- Clear block `i` of a bucket in place. -/
def clearIdx (bk : Bucket) (i : Nat) : Bucket :=
  { bk with array := modifyIdx bk.array i clearData }

/-! ## Sequencing of fallible stateful steps -/

/-- Sequence two stateful steps: on an exception the state at the raise is
kept and the exception propagates (Python try-free control flow). -/
def andThen {α β : Type} (p : Except Err α × St) (f : α → St → Except Err β × St) :
    Except Err β × St :=
  match p with
  | (.error e, st) => (.error e, st)
  | (.ok a, st) => f a st

/-! ## `Client._push_down` -/

/-- The non-empty branch of `_push_down`: decrypt the chosen child, write the
block's payload and leaf id into it, re-encrypt it.  The ghost `ovf` flag
records a `write_data` call that found no vacancy. -/
def pushChild (ck c : Nat) (bl : Block) (st1 : St) : Except Err (Option PyVal) × St :=
  let st2 := decryptAt ck c st1
  let full := availIdxs (getBucket st2 c).array = []
  let st3 := { modBucket st2 c (fun bk => writeData bk bl.data bl.leafId) with
               ovf := st2.ovf || full }
  andThen (encryptAt ck c st3) (fun _ st4 => (.ok none, st4))

/-- `Client._push_down(block, node, server)`, with the block referred to by
its node key `k` and array index `i` (blocks never move between lists, so
the pair is a faithful stand-in for the Python object reference).

* at a leaf node: the block's `data` is returned (and nothing is mutated);
* an `EMPTY_DATA` block: decrypt and re-encrypt both children;
* otherwise: clear the block, look up the path of its `leaf_id`, and
  `write_data` it into the child lying on that path (decrypting and
  re-encrypting only that child); a missing path raises `ValueError` and an
  off-path situation trips the `assert False`. -/
def pushDown (h ck : Nat) (k i : Nat) (st : St) : Except Err (Option PyVal) × St :=
  if numNodes h ≤ 2 * k + 1 then
    (.ok (some ((getBucket st k).array.getD i default).data), st)
  else
    if ((getBucket st k).array.getD i default).data = PyVal.str EMPTY_DATA then
      andThen (encryptAt ck (2 * k + 1) (decryptAt ck (2 * k + 2) (decryptAt ck (2 * k + 1) st)))
        (fun _ st3 =>
          andThen (encryptAt ck (2 * k + 2) st3) (fun _ st4 => (.ok none, st4)))
    else
      match getRootPathP h ((getBucket st k).array.getD i default).leafId with
      | none => (.error .valueError, modBucket st k (fun bk => clearIdx bk i))
      | some path =>
        if 2 * k + 1 ∈ path then
          pushChild ck (2 * k + 1) ((getBucket st k).array.getD i default)
            (modBucket st k (fun bk => clearIdx bk i))
        else if 2 * k + 2 ∈ path then
          pushChild ck (2 * k + 2) ((getBucket st k).array.getD i default)
            (modBucket st k (fun bk => clearIdx bk i))
        else (.error .assertionError, modBucket st k (fun bk => clearIdx bk i))

/-! ## `Client.flush` -/

/-- The four random draws `flush` makes per tree level: two node choices
(`random.choices(level, k=2)`) and one block choice per sampled bucket.
Raw naturals, mapped into range with `%` at use sites. -/
structure FlushChoice where
  n1 : Nat
  n2 : Nat
  b1 : Nat
  b2 : Nat

/-- One iteration of `Client.flush`'s level loop: sample two nodes of level
`i` (keys `2^i - 1 .. 2^(i+1) - 2`), decrypt each distinct sampled bucket,
sample one block from each, push the first down, push the second down unless
it is the very same block (asserting distinct `bid`s first), then re-encrypt
each distinct sampled bucket.  Returns the payloads reported as deleted. -/
def flushLevel (h ck : Nat) (c : FlushChoice) (i : Nat) (st : St) :
    Except Err (List PyVal) × St :=
  let base := 2 ^ i - 1
  let cnt := 2 ^ i
  let k1 := base + c.n1 % cnt
  let k2 := base + c.n2 % cnt
  let st1 := decryptAt ck k1 st
  let st2 := if k1 = k2 then st1 else decryptAt ck k2 st1
  let i1 := c.b1 % (getBucket st2 k1).array.length
  let i2 := c.b2 % (getBucket st2 k2).array.length
  andThen (pushDown h ck k1 i1 st2) (fun r1 st3 =>
    let acc1 := match r1 with | none => [] | some d => [d]
    if k1 = k2 ∧ i1 = i2 then
      andThen (encryptAt ck k1 st3) (fun _ st4 => (.ok acc1, st4))
    else if ((getBucket st3 k1).array.getD i1 default).bid
        = ((getBucket st3 k2).array.getD i2 default).bid then
      (.error .assertionError, st3)
    else
      andThen (pushDown h ck k2 i2 st3) (fun r2 st4 =>
        let acc2 := acc1 ++ (match r2 with | none => [] | some d => [d])
        andThen (encryptAt ck k1 st4) (fun _ st5 =>
          if k1 = k2 then (.ok acc2, st5)
          else andThen (encryptAt ck k2 st5) (fun _ st6 => (.ok acc2, st6)))))

/-- `Client.flush`'s loop over `server.oram.levels`, consuming one
`FlushChoice` (ghost-counted by `fcnt`) per level. -/
def flushGo (h ck : Nat) (fc : Nat → FlushChoice) : List Nat → St → Except Err (List PyVal) × St
  | [], st => (.ok [], st)
  | i :: rest, st =>
    andThen (flushLevel h ck (fc st.fcnt) i { st with fcnt := st.fcnt + 1 }) (fun l1 st1 =>
      andThen (flushGo h ck fc rest st1) (fun l2 st2 => (.ok (l1 ++ l2), st2)))

/-- `Client.flush`: run every level, return the removed payloads, or `None`
when nothing was reported. -/
def flush (h ck : Nat) (fc : Nat → FlushChoice) (st : St) :
    Except Err (Option (List PyVal)) × St :=
  andThen (flushGo h ck fc (List.range (h + 1)) st) (fun l st1 =>
    (.ok (if l = [] then none else some l), st1))

/-! ## Client API: `write`, `read`, `delete` -/

/-- `Client._assign_to_leaf`: draw the next leaf id from the stream and
record it in the position map. -/
def assignToLeaf (draws : Nat → Nat) (f : PyStr) (st : St) : Nat × St :=
  let l := draws st.rng
  (l, { st with rng := st.rng + 1, fileToLeaf := updF st.fileToLeaf f l })

/-- `Client._sign_file`. -/
def signFile (ck : Nat) (f msg : PyStr) (st : St) : St :=
  { st with fileToSig := updF st.fileToSig f (Bytes.sig ck msg) }

/-- The body of `Client.read`'s inner block loop for block `j` of the bucket
at node `k`: extract `<name>;<data>`, and on a filename match verify the
signature (raising the authentication failure on mismatch), capture the
data, clear the block, re-sign (unless deleting), draw a fresh leaf and
re-insert at the root via `Server.owrite`. -/
def scanStep (ck : Nat) (draws : Nat → Nat) (f : PyStr) (del : Bool) (k j : Nat)
    (req : Option PyStr) (st : St) : Except Err (Option PyStr) × St :=
  let bl := (getBucket st k).array.getD j default
  match extractFile bl.data with
  | .error e => (.error e, st)
  | .ok (name, d) =>
    if name = f then
      match st.fileToSig f with
      | none => (.error .keyError, st)
      | some sg =>
        let filePlain := name ++ ';' :: d
        if verifySig ck filePlain sg then
          let st1 := modBucket st k (fun bk => clearIdx bk j)
          let fp2 := if del then EMPTY_DATA else filePlain
          let st2 := if del then st1 else signFile ck f filePlain st1
          let p := assignToLeaf draws f st2
          (.ok (some d), owrite (PyVal.str fp2) (PyVal.int p.1) p.2)
        else (.error .authFail, st)
    else (.ok req, st)

/-- `for block in bucket.get_array()` of `Client.read`: iterate the block
indices (the list's length never changes; blocks are mutated in place, so
later iterations observe earlier mutations of the same bucket). -/
def scanLoop (ck : Nat) (draws : Nat → Nat) (f : PyStr) (del : Bool) (k : Nat) :
    Nat → Nat → Option PyStr → St → Except Err (Option PyStr) × St
  | 0, _, req, st => (.ok req, st)
  | rem + 1, j, req, st =>
    andThen (scanStep ck draws f del k j req st) (fun req1 st1 =>
      scanLoop ck draws f del k rem (j + 1) req1 st1)

/-- `Client.read`'s sweep over the root-to-leaf path: `oread`, decrypt,
scan every block, re-encrypt, continue. -/
def readSweep (h ck : Nat) (draws : Nat → Nat) (f : PyStr) (del : Bool) :
    List Nat → Option PyStr → St → Except Err (Option PyStr) × St
  | [], req, st => (.ok req, st)
  | k :: ks, req, st =>
    andThen (oread h k st) (fun _ st1 =>
      let st2 := decryptAt ck k st1
      andThen (scanLoop ck draws f del k (getBucket st2 k).array.length 0 req st2)
        (fun req1 st3 =>
          andThen (encryptAt ck k st3) (fun _ st4 =>
            readSweep h ck draws f del ks req1 st4)))

/-- `Client.read(server, filename, delete)`: look the filename up in the
position map (raising when its path cannot be derived), sweep the path,
flush, and return the captured data. -/
def readOp (h ck : Nat) (draws : Nat → Nat) (fc : Nat → FlushChoice)
    (f : PyStr) (del : Bool) (st : St) : Except Err (Option PyStr) × St :=
  match getRootPathO h (st.fileToLeaf f) with
  | none => (.error .notFoundClient, st)
  | some path =>
    andThen (readSweep h ck draws f del path none st) (fun req st1 =>
      andThen (flush h ck fc st1) (fun _ st2 => (.ok req, st2)))

/-- `Client.write`'s dummy path sweep: `oread`, decrypt, immediately
re-encrypt. -/
def writeSweep (h ck : Nat) : List Nat → St → Except Err Unit × St
  | [], st => (.ok (), st)
  | k :: ks, st =>
    andThen (oread h k st) (fun _ st1 =>
      let st2 := decryptAt ck k st1
      andThen (encryptAt ck k st2) (fun _ st3 => writeSweep h ck ks st3))

/-- `Client.write(server, filename, data)`: assign a fresh leaf, sweep its
path, flush, insert `<filename>;<data>` at the root and re-encrypt it, then
sign the plain file. -/
def writeOp (h ck : Nat) (draws : Nat → Nat) (fc : Nat → FlushChoice)
    (f d : PyStr) (st : St) : Except Err Unit × St :=
  let file := f ++ ';' :: d
  let p := assignToLeaf draws f st
  match getRootPath h p.1 with
  | none => (.error .typeError, p.2)
  | some path =>
    andThen (writeSweep h ck path p.2) (fun _ st2 =>
      andThen (flush h ck fc st2) (fun _ st3 =>
        andThen (oread h 0 st3) (fun _ st4 =>
          let st5 := decryptAt ck 0 st4
          let st6 := owrite (PyVal.str file) (PyVal.int p.1) st5
          andThen (encryptAt ck 0 st6) (fun _ st7 => (.ok (), signFile ck f file st7)))))

/-- Python truthiness of `Client.read`'s return value (`None` and the empty
string are falsy). -/
def truthy : Option PyStr → Bool
  | none => false
  | some s => !s.isEmpty

/-- `Client.delete(server, filename)`: a delete-flavoured read whose result
is tested for truthiness; a falsy result raises `FileNotFoundError`. -/
def deleteOp (h ck : Nat) (draws : Nat → Nat) (fc : Nat → FlushChoice)
    (f : PyStr) (st : St) : Except Err Unit × St :=
  andThen (readOp h ck draws fc f true st) (fun r st1 =>
    if truthy r then (.ok (), st1) else (.error .fileNotFound, st1))

/-! ## Fresh server state (`Server.__init__` plus a fresh `Client`) -/

/-- A freshly constructed bucket: `Z` empty plaintext blocks, block `i` of
node `k` having `bid = k*Z + i` and a leaf id drawn from the node's
reachable leaves (the draw is abstracted by `init`). -/
def freshBucket (h k : Nat) (init : Nat → Nat → Nat) : Bucket :=
  { size := Zsize h
    key := k
    idxPt := 0
    array := (List.range (Zsize h)).map (fun i =>
      { bid := k * Zsize h + i, leafId := PyVal.int (init k i), data := PyVal.str EMPTY_DATA }) }

/-- The state right after `Server(num_leaves)` and `Client(server)`:
every node holds a fresh bucket and the client's maps are empty. -/
def freshSt (h : Nat) (init : Nat → Nat → Nat) : St :=
  { buckets := (List.range (numNodes h)).map (fun k => freshBucket h k init)
    fileToLeaf := fun _ => none
    fileToSig := fun _ => none
    trace := []
    rng := 0
    fcnt := 0
    ovf := false }

/-- Adversarial at-rest tampering of a ciphertext payload: the tampered
`bytes` no longer decrypt (RSA-OAEP decryption of a modified ciphertext
raises `ValueError`). -/
def tamperData : PyVal → PyVal
  | .bytes (.enc k v) => .bytes (.tampered k v)
  | x => x

/-- Tamper with the payload of block `i` of the bucket at node `k`. -/
def tamperAt (k i : Nat) (st : St) : St :=
  modBucket st k (fun bk =>
    { bk with array := modifyIdx bk.array i (fun b => { b with data := tamperData b.data }) })

/-- Run `write(fᵢ, dᵢ)` immediately followed by `read(fᵢ)` for each pair in
turn, collecting the values the reads return. -/
def runPairs (h ck : Nat) (draws : Nat → Nat) (fc : Nat → FlushChoice) :
    List (PyStr × PyStr) → St → Except Err (List (Option PyStr)) × St
  | [], st => (.ok [], st)
  | (f, d) :: rest, st =>
    andThen (writeOp h ck draws fc f d st) (fun _ st1 =>
      andThen (readOp h ck draws fc f false st1) (fun r st2 =>
        andThen (runPairs h ck draws fc rest st2) (fun rs st3 => (.ok (r :: rs), st3))))

end Oram

namespace Oram

/-- Node keys of the `oread` calls in a ghost trace, in order. -/
def oreadKeys : List Ev → List Nat
  | [] => []
  | Ev.oreadE k :: t => k :: oreadKeys t
  | Ev.owriteE :: t => oreadKeys t

/-! ## Logical views and the main invariant

The round-trip proof tracks, for each live file, the unique block holding
it.  `vData`/`vLid` read a block's payload and leaf id through the
client's encryption (a block at rest is `enc`-wrapped, a block inside an
operation is plaintext); `Good` states that the tree consists of exactly
the live entries plus empty blocks, all coherently encrypted, each entry
sitting on the root path of its assigned leaf with consistent position-map
and signature-table rows. -/

/-- The payload of a block as the client sees it after decryption. -/
def vData (ck : Nat) (b : Block) : Option PyStr :=
  match b.data with
  | .str s => some s
  | .bytes (.enc k (.s s)) => if k = ck then some s else none
  | _ => none

/-- The leaf id of a block as the client sees it after decryption. -/
def vLid (ck : Nat) (b : Block) : Option Nat :=
  match b.leafId with
  | .int n => some n
  | .bytes (.enc k (.n n)) => if k = ck then some n else none
  | _ => none

/-- A coherent block: wholly plaintext (`str` payload, `int` leaf id) or
wholly the client's ciphertext. -/
def blockOK (ck : Nat) (b : Block) : Prop :=
  (∃ s n, b.data = PyVal.str s ∧ b.leafId = PyVal.int n) ∨
  (∃ s n, b.data = PyVal.bytes (Bytes.enc ck (BVal.s s)) ∧
          b.leafId = PyVal.bytes (Bytes.enc ck (BVal.n n)))

/-- A wholly plaintext block. -/
def blockPlain (b : Block) : Prop :=
  ∃ s n, b.data = PyVal.str s ∧ b.leafId = PyVal.int n

/-- The (pure) effect of `_encrypt_bucket` on one plaintext block. -/
def encBlockP (ck : Nat) (b : Block) : Block :=
  match b.data with
  | .str s => { b with data := PyVal.bytes (Bytes.enc ck (BVal.s s))
                       leafId := PyVal.bytes (Bytes.enc ck (bvalOfLeafId b.leafId)) }
  | _ => b

/-- A live file: its name, data, assigned leaf, and the tree position of
the unique block holding it. -/
structure Entry where
  name : PyStr
  dat : PyStr
  leaf : Nat
  node : Nat
  idx : Nat

/-- The `"<name>;<data>"` payload of an entry. -/
def fileStr (e : Entry) : PyStr := e.name ++ ';' :: e.dat

/-- Name of an entry is well-formed for the round trip: no separator, and
not the `EMPTY_DATA` name `"0"`. -/
def nameOK (f : PyStr) : Prop := ';' ∉ f ∧ f ≠ ['0']

/-- Two entry lists describe the same files (same names and data, up to
order); the block positions and assigned leaves may differ. -/
def entriesMatch (E1 E2 : List Entry) : Prop :=
  (E1.map (fun e => (e.name, e.dat))).Perm (E2.map (fun e => (e.name, e.dat)))

/-- The main invariant tying a state to its list of live entries:
the tree has its `2^(h+1)-1` buckets of `Z` coherently-encrypted blocks
with their construction-time block ids; the blocks are exactly the live
entries (each on the root path of its assigned leaf, with matching
position-map and signature-table rows) plus `EMPTY_DATA` blocks; names and
positions of entries are pairwise distinct. -/
structure Good (h ck : Nat) (E : List Entry) (st : St) : Prop where
  blen : st.buckets.length = numNodes h
  alen : ∀ k, k < numNodes h → (getBucket st k).array.length = Zsize h
  bok : ∀ k, k < numNodes h → ∀ j, j < Zsize h →
    blockOK ck ((getBucket st k).array.getD j default)
  bidv : ∀ k, k < numNodes h → ∀ j, j < Zsize h →
    ((getBucket st k).array.getD j default).bid = k * Zsize h + j
  ent : ∀ e, e ∈ E → e.node < numNodes h ∧ e.idx < Zsize h ∧ isLeafKey h e.leaf ∧
    e.node ∈ rootPath e.leaf ∧ nameOK e.name ∧
    vData ck ((getBucket st e.node).array.getD e.idx default) = some (fileStr e) ∧
    vLid ck ((getBucket st e.node).array.getD e.idx default) = some e.leaf ∧
    st.fileToLeaf e.name = some e.leaf ∧
    st.fileToSig e.name = some (Bytes.sig ck (fileStr e))
  emp : ∀ k, k < numNodes h → ∀ j, j < Zsize h →
    (∀ e, e ∈ E → ¬ (e.node = k ∧ e.idx = j)) →
    vData ck ((getBucket st k).array.getD j default) = some EMPTY_DATA
  nmd : E.Pairwise (fun e1 e2 => e1.name ≠ e2.name)
  posd : E.Pairwise (fun e1 e2 => (e1.node, e1.idx) ≠ (e2.node, e2.idx))

/-- Bucket `k` is entirely plaintext (as it is right after a decryption
sweep). -/
def PlainAt (h : Nat) (st : St) (k : Nat) : Prop :=
  ∀ j, j < Zsize h → blockPlain ((getBucket st k).array.getD j default)

/-! # Theorems -/

theorem rootPathAux_congr : ∀ f1 : Nat, ∀ k f2 : Nat, k ≤ f1 → k ≤ f2 →
    rootPathAux f1 k = rootPathAux f2 k := by
  intro f1
  induction f1 with
  | zero =>
    intro k f2 hk _
    interval_cases k
    cases f2 <;> rfl
  | succ g1 ih =>
    intro k f2 hk hk2
    cases k with
    | zero => cases f2 <;> rfl
    | succ m =>
      cases f2 with
      | zero => omega
      | succ g2 =>
        show rootPathAux g1 (m / 2) ++ [m + 1] = rootPathAux g2 (m / 2) ++ [m + 1]
        rw [ih (m / 2) g2 (by omega) (by omega)]

/-- The defining recursion of `rootPath`. -/
theorem rootPath_succ (k : Nat) : rootPath (k + 1) = rootPath (k / 2) ++ [k + 1] := by
  show rootPathAux (k + 1) (k + 1) = rootPath (k / 2) ++ [k + 1]
  show rootPathAux k (k / 2) ++ [k + 1] = rootPath (k / 2) ++ [k + 1]
  rw [rootPathAux_congr k (k / 2) (k / 2) (by omega) (le_refl _)]
  rfl

@[simp] theorem rootPath_zero : rootPath 0 = [0] := rfl

/-! ## Tree lemmas -/

theorem rootPath_ne_nil (k : Nat) : rootPath k ≠ [] := by
  cases k with
  | zero => simp
  | succ m => rw [rootPath_succ]; simp

theorem rootPath_head (k : Nat) : (rootPath k).head? = some 0 := by
  induction k using Nat.strong_induction_on with
  | _ k ih =>
    match k with
    | 0 => rfl
    | m + 1 =>
      rw [rootPath_succ]
      have h1 := ih (m / 2) (by omega)
      cases hp : rootPath (m / 2) with
      | nil => exact absurd hp (rootPath_ne_nil _)
      | cons a t =>
        rw [hp] at h1
        simp only [List.head?_cons, Option.some.injEq] at h1
        subst h1
        simp

theorem mem_rootPath_le {x k : Nat} (hx : x ∈ rootPath k) : x ≤ k := by
  induction k using Nat.strong_induction_on with
  | _ k ih =>
    match k with
    | 0 =>
      simp only [rootPath_zero, List.mem_singleton] at hx
      omega
    | m + 1 =>
      rw [rootPath_succ, List.mem_append, List.mem_singleton] at hx
      rcases hx with hx | hx
      · have := ih (m / 2) (by omega) hx
        omega
      · omega

theorem self_mem_rootPath (k : Nat) : k ∈ rootPath k := by
  cases k with
  | zero => simp
  | succ m => rw [rootPath_succ]; simp

theorem zero_mem_rootPath (k : Nat) : 0 ∈ rootPath k := by
  have h1 := rootPath_head k
  cases hp : rootPath k with
  | nil => exact absurd hp (rootPath_ne_nil _)
  | cons a t =>
    rw [hp] at h1
    simp only [List.head?_cons, Option.some.injEq] at h1
    subst h1
    simp

/-- If `x` is a proper ancestor of `k`, one of `x`'s children is on the
root path of `k` as well. -/
theorem child_mem_rootPath {x k : Nat} (hx : x ∈ rootPath k) (hne : x ≠ k) :
    2 * x + 1 ∈ rootPath k ∨ 2 * x + 2 ∈ rootPath k := by
  induction k using Nat.strong_induction_on with
  | _ k ih =>
    match k with
    | 0 =>
      simp only [rootPath_zero, List.mem_singleton] at hx
      omega
    | m + 1 =>
      rw [rootPath_succ, List.mem_append, List.mem_singleton] at hx
      rcases hx with hx | hx
      · by_cases hxp : x = m / 2
        · subst hxp
          have : m + 1 = 2 * (m / 2) + 1 ∨ m + 1 = 2 * (m / 2) + 2 := by omega
          rcases this with he | he
          · left; rw [← he]; exact self_mem_rootPath _
          · right; rw [← he]; exact self_mem_rootPath _
        · rcases ih (m / 2) (by omega) hx hxp with hc | hc
          · left; rw [rootPath_succ, List.mem_append]; exact Or.inl hc
          · right; rw [rootPath_succ, List.mem_append]; exact Or.inl hc
      · omega

/-- The two children of a node are never both on the same root path. -/
theorem not_both_children_mem {x k : Nat}
    (h1 : 2 * x + 1 ∈ rootPath k) (h2 : 2 * x + 2 ∈ rootPath k) : False := by
  induction k using Nat.strong_induction_on with
  | _ k ih =>
    match k with
    | 0 =>
      simp only [rootPath_zero, List.mem_singleton] at h1
      omega
    | m + 1 =>
      rw [rootPath_succ, List.mem_append, List.mem_singleton] at h1 h2
      rcases h1 with h1 | h1 <;> rcases h2 with h2 | h2
      · exact ih (m / 2) (by omega) h1 h2
      · have := mem_rootPath_le h1
        omega
      · have := mem_rootPath_le h2
        omega
      · omega

/-- A proper ancestor of `l` satisfies `2x+1 ≤ l` (so it is an internal
node whenever `l` is a valid key). -/
theorem ancestor_internal {x l : Nat} (hx : x ∈ rootPath l) (hne : x ≠ l) :
    2 * x + 1 ≤ l := by
  match l with
  | 0 =>
    simp only [rootPath_zero, List.mem_singleton] at hx
    omega
  | m + 1 =>
    rw [rootPath_succ, List.mem_append, List.mem_singleton] at hx
    rcases hx with hx | hx
    · have := mem_rootPath_le hx
      omega
    · omega

theorem isLeafKey_iff (h k : Nat) : isLeafKey h k ↔ minLeaf h ≤ k ∧ k ≤ maxLeaf h := by
  unfold isLeafKey numNodes minLeaf maxLeaf
  have e1 : 2 ^ (h + 1) = 2 * 2 ^ h := by ring
  have e2 : 1 ≤ 2 ^ h := Nat.one_le_two_pow
  omega

theorem rootPath_length {h k : Nat} (h1 : minLeaf h ≤ k) (h2 : k ≤ maxLeaf h) :
    (rootPath k).length = h + 1 := by
  unfold minLeaf at h1
  unfold maxLeaf at h2
  induction h generalizing k with
  | zero =>
    simp only [pow_zero, pow_one] at h1 h2
    have : k = 0 := by omega
    subst this
    rfl
  | succ g ih =>
    have e1 : 2 ^ (g + 1) = 2 * 2 ^ g := by ring
    have e2 : 2 ^ (g + 2) = 4 * 2 ^ g := by ring
    have e3 : 1 ≤ 2 ^ g := Nat.one_le_two_pow
    match k, (by omega : 1 ≤ k) with
    | m + 1, _ =>
      rw [rootPath_succ, List.length_append, List.length_singleton]
      have := ih (k := m / 2) (by omega) (by omega)
      omega

/-- Membership in the leaf-key list coincides with `isLeafKey`. -/
theorem mem_leafKeysL (h l : Nat) : l ∈ leafKeysL h ↔ isLeafKey h l := by
  unfold leafKeysL isLeafKey
  simp [List.mem_filter, List.mem_range]
  tauto

/-! ## List helper lemmas -/

@[simp] theorem modifyIdx_length {α : Type} (l : List α) (i : Nat) (f : α → α) :
    (modifyIdx l i f).length = l.length := by
  induction l generalizing i with
  | nil => rfl
  | cons a t ih =>
    cases i with
    | zero => rfl
    | succ j => simp [modifyIdx, ih]

theorem modifyIdx_getD_same {α : Type} [Inhabited α] (l : List α) (i : Nat) (f : α → α)
    (hi : i < l.length) : (modifyIdx l i f).getD i default = f (l.getD i default) := by
  induction l generalizing i with
  | nil => simp at hi
  | cons a t ih =>
    cases i with
    | zero => rfl
    | succ j =>
      simp only [List.length_cons] at hi
      simpa [modifyIdx] using ih j (by omega)

theorem modifyIdx_getD_other {α : Type} [Inhabited α] (l : List α) (i j : Nat) (f : α → α)
    (hij : i ≠ j) : (modifyIdx l i f).getD j default = l.getD j default := by
  induction l generalizing i j with
  | nil => cases i <;> rfl
  | cons a t ih =>
    cases i with
    | zero =>
      cases j with
      | zero => omega
      | succ j2 => rfl
    | succ i2 =>
      cases j with
      | zero => rfl
      | succ j2 => simpa [modifyIdx] using ih i2 j2 (by omega)

theorem mem_availIdxs {bs : List Block} {i : Nat} (hm : i ∈ availIdxs bs) :
    i < bs.length ∧ blockIsEmpty (bs.getD i default) := by
  unfold availIdxs at hm
  simp only [List.mem_filter, List.mem_range, decide_eq_true_eq] at hm
  exact hm

theorem head_mem_of_head? {α : Type} {l : List α} {a : α} (hh : l.head? = some a) : a ∈ l := by
  cases l with
  | nil => simp at hh
  | cons b t =>
    simp only [List.head?_cons, Option.some.injEq] at hh
    subst hh
    simp

/-- The head of `filter p (range n)` is the least index satisfying `p`. -/
theorem filter_range_head {n i : Nat} {p : Nat → Bool}
    (hh : ((List.range n).filter p).head? = some i) :
    p i ∧ i < n ∧ ∀ j < i, ¬ p j := by
  induction n with
  | zero => simp at hh
  | succ m ih =>
    rw [List.range_succ, List.filter_append] at hh
    cases hf : (List.range m).filter p with
    | nil =>
      rw [hf, List.nil_append] at hh
      have hall := List.filter_eq_nil_iff.mp hf
      by_cases hp : p m
      · simp only [List.filter, hp] at hh
        simp only [List.head?_cons, Option.some.injEq] at hh
        subst hh
        refine ⟨hp, by omega, ?_⟩
        intro j hj
        exact hall j (by simp [List.mem_range]; omega)
      · simp only [List.filter, hp] at hh
        simp at hh
    | cons b t =>
      rw [hf] at hh
      simp only [List.cons_append, List.head?_cons, Option.some.injEq] at hh
      have hb : ((List.range m).filter p).head? = some i := by
        rw [hf, List.head?_cons, hh]
      have hr := ih hb
      exact ⟨hr.1, by omega, hr.2.2⟩

/-- `availIdxs` head characterization: the lowest-index vacant block. -/
theorem availIdxs_head {bs : List Block} {i : Nat}
    (hh : (availIdxs bs).head? = some i) :
    blockIsEmpty (bs.getD i default) ∧ i < bs.length ∧
    ∀ j < i, ¬ blockIsEmpty (bs.getD j default) := by
  unfold availIdxs at hh
  have hr := filter_range_head hh
  simp only [decide_eq_true_eq] at hr
  exact ⟨hr.1, hr.2.1, fun j hj => by
    have := hr.2.2 j hj
    simpa using this⟩

/-! ## `writeData` characterizations -/

theorem writeData_vacant {bk : Bucket} {d lid : PyVal} {i : Nat} {tl : List Nat}
    (hv : availIdxs bk.array = i :: tl) :
    writeData bk d lid =
      { bk with
        array := modifyIdx bk.array i (fun b => { b with data := d, leafId := lid })
        idxPt := if bk.size ≤ bk.idxPt then 0 else bk.idxPt } := by
  unfold writeData
  rw [hv]

theorem writeData_full {bk : Bucket} {d lid : PyVal}
    (hv : availIdxs bk.array = []) :
    writeData bk d lid =
      { bk with
        array := modifyIdx bk.array (if bk.size ≤ bk.idxPt then 0 else bk.idxPt)
          (fun b => { b with data := d, leafId := lid })
        idxPt := (if bk.size ≤ bk.idxPt then 0 else bk.idxPt) + 1 } := by
  unfold writeData
  rw [hv]

/-! ## `andThen` case analysis -/

theorem andThen_cases {α β : Type} (p : Except Err α × St) (f : α → St → Except Err β × St) :
    (∃ e, p.1 = Except.error e ∧ andThen p f = (Except.error e, p.2)) ∨
    (∃ a, p.1 = Except.ok a ∧ andThen p f = f a p.2) := by
  rcases p with ⟨r, st⟩
  cases r with
  | error e => exact Or.inl ⟨e, rfl, rfl⟩
  | ok a => exact Or.inr ⟨a, rfl, rfl⟩

theorem andThen_fst_ok {α β : Type} {p : Except Err α × St} {a : α}
    (f : α → St → Except Err β × St) (hp : p.1 = Except.ok a) :
    andThen p f = f a p.2 := by
  rcases p with ⟨r, st⟩
  cases r with
  | error e => simp at hp
  | ok b =>
    simp only [Except.ok.injEq] at hp
    subst hp
    rfl

@[simp] theorem andThen_pair_ok {α β : Type} (a : α) (s : St)
    (f : α → St → Except Err β × St) : andThen (Except.ok a, s) f = f a s := rfl

@[simp] theorem andThen_pair_error {α β : Type} (e : Err) (s : St)
    (f : α → St → Except Err β × St) : andThen (Except.error e, s) f = (Except.error e, s) := rfl

theorem andThen_fst_error {α β : Type} {p : Except Err α × St} {e : Err}
    (f : α → St → Except Err β × St) (hp : p.1 = Except.error e) :
    andThen p f = (Except.error e, p.2) := by
  rcases p with ⟨r, st⟩
  cases r with
  | error e2 =>
    simp only [Except.error.injEq] at hp
    subst hp
    rfl
  | ok b => simp at hp

/-- Preservation of a state predicate through an `if`. -/
theorem ite_pres {α : Type} {P : St → Prop} {c : Prop} [Decidable c]
    {x y : Except Err α × St} (hx : P x.2) (hy : P y.2) : P (ite c x y).2 := by
  split
  · exact hx
  · exact hy

/-- Preservation of a state predicate through `andThen`. -/
theorem andThen_snd_pres {α β : Type} {P : St → Prop} {p : Except Err α × St}
    {f : α → St → Except Err β × St}
    (hp : P p.2) (hf : ∀ a st, P st → P (f a st).2) : P (andThen p f).2 := by
  rcases andThen_cases p f with ⟨e, _, h2⟩ | ⟨a, _, h2⟩ <;> rw [h2]
  · exact hp
  · exact hf a p.2 hp

/-! ## State-component simp lemmas -/

@[simp] theorem modBucket_trace (st : St) (k : Nat) (f : Bucket → Bucket) :
    (modBucket st k f).trace = st.trace := rfl
@[simp] theorem modBucket_fileToLeaf (st : St) (k : Nat) (f : Bucket → Bucket) :
    (modBucket st k f).fileToLeaf = st.fileToLeaf := rfl
@[simp] theorem modBucket_fileToSig (st : St) (k : Nat) (f : Bucket → Bucket) :
    (modBucket st k f).fileToSig = st.fileToSig := rfl
@[simp] theorem modBucket_rng (st : St) (k : Nat) (f : Bucket → Bucket) :
    (modBucket st k f).rng = st.rng := rfl
@[simp] theorem modBucket_fcnt (st : St) (k : Nat) (f : Bucket → Bucket) :
    (modBucket st k f).fcnt = st.fcnt := rfl
@[simp] theorem modBucket_ovf (st : St) (k : Nat) (f : Bucket → Bucket) :
    (modBucket st k f).ovf = st.ovf := rfl

@[simp] theorem decryptAt_trace (ck k : Nat) (st : St) :
    (decryptAt ck k st).trace = st.trace := rfl
@[simp] theorem decryptAt_fileToLeaf (ck k : Nat) (st : St) :
    (decryptAt ck k st).fileToLeaf = st.fileToLeaf := rfl
@[simp] theorem decryptAt_fileToSig (ck k : Nat) (st : St) :
    (decryptAt ck k st).fileToSig = st.fileToSig := rfl
@[simp] theorem decryptAt_rng (ck k : Nat) (st : St) :
    (decryptAt ck k st).rng = st.rng := rfl
@[simp] theorem decryptAt_fcnt (ck k : Nat) (st : St) :
    (decryptAt ck k st).fcnt = st.fcnt := rfl
@[simp] theorem decryptAt_ovf (ck k : Nat) (st : St) :
    (decryptAt ck k st).ovf = st.ovf := rfl

@[simp] theorem encryptAt_snd_trace (ck k : Nat) (st : St) :
    (encryptAt ck k st).2.trace = st.trace := rfl
@[simp] theorem encryptAt_snd_fileToLeaf (ck k : Nat) (st : St) :
    (encryptAt ck k st).2.fileToLeaf = st.fileToLeaf := rfl
@[simp] theorem encryptAt_snd_fileToSig (ck k : Nat) (st : St) :
    (encryptAt ck k st).2.fileToSig = st.fileToSig := rfl
@[simp] theorem encryptAt_snd_rng (ck k : Nat) (st : St) :
    (encryptAt ck k st).2.rng = st.rng := rfl
@[simp] theorem encryptAt_snd_fcnt (ck k : Nat) (st : St) :
    (encryptAt ck k st).2.fcnt = st.fcnt := rfl
@[simp] theorem encryptAt_snd_ovf (ck k : Nat) (st : St) :
    (encryptAt ck k st).2.ovf = st.ovf := rfl

@[simp] theorem owrite_trace (file lid : PyVal) (st : St) :
    (owrite file lid st).trace = st.trace ++ [Ev.owriteE] := rfl
@[simp] theorem owrite_fileToLeaf (file lid : PyVal) (st : St) :
    (owrite file lid st).fileToLeaf = st.fileToLeaf := rfl
@[simp] theorem owrite_fileToSig (file lid : PyVal) (st : St) :
    (owrite file lid st).fileToSig = st.fileToSig := rfl
@[simp] theorem owrite_rng (file lid : PyVal) (st : St) :
    (owrite file lid st).rng = st.rng := rfl

@[simp] theorem signFile_trace (ck : Nat) (f m : PyStr) (st : St) :
    (signFile ck f m st).trace = st.trace := rfl
@[simp] theorem signFile_buckets (ck : Nat) (f m : PyStr) (st : St) :
    (signFile ck f m st).buckets = st.buckets := rfl
@[simp] theorem signFile_fileToLeaf (ck : Nat) (f m : PyStr) (st : St) :
    (signFile ck f m st).fileToLeaf = st.fileToLeaf := rfl
@[simp] theorem signFile_ovf (ck : Nat) (f m : PyStr) (st : St) :
    (signFile ck f m st).ovf = st.ovf := rfl

@[simp] theorem assignToLeaf_snd_trace (draws : Nat → Nat) (f : PyStr) (st : St) :
    (assignToLeaf draws f st).2.trace = st.trace := rfl
@[simp] theorem assignToLeaf_snd_buckets (draws : Nat → Nat) (f : PyStr) (st : St) :
    (assignToLeaf draws f st).2.buckets = st.buckets := rfl
@[simp] theorem assignToLeaf_snd_fileToSig (draws : Nat → Nat) (f : PyStr) (st : St) :
    (assignToLeaf draws f st).2.fileToSig = st.fileToSig := rfl
@[simp] theorem assignToLeaf_snd_ovf (draws : Nat → Nat) (f : PyStr) (st : St) :
    (assignToLeaf draws f st).2.ovf = st.ovf := rfl

theorem oread_lt {h k : Nat} (st : St) (hk : k < numNodes h) :
    oread h k st = (Except.ok (), { st with trace := st.trace ++ [Ev.oreadE k] }) := by
  unfold oread
  rw [if_pos hk]

theorem oread_fst_ok {h k : Nat} {st : St} {a : Unit}
    (hp : (oread h k st).1 = Except.ok a) : k < numNodes h := by
  by_contra hk
  unfold oread at hp
  rw [if_neg hk] at hp
  simp at hp

/-! ## `oreadKeys` lemmas -/

@[simp] theorem oreadKeys_nil : oreadKeys [] = [] := rfl

@[simp] theorem oreadKeys_cons_oreadE (k : Nat) (t : List Ev) :
    oreadKeys (Ev.oreadE k :: t) = k :: oreadKeys t := rfl

@[simp] theorem oreadKeys_cons_owriteE (t : List Ev) :
    oreadKeys (Ev.owriteE :: t) = oreadKeys t := rfl

theorem oreadKeys_append (a b : List Ev) :
    oreadKeys (a ++ b) = oreadKeys a ++ oreadKeys b := by
  induction a with
  | nil => rfl
  | cons e t ih => cases e <;> simp [oreadKeys, ih]

@[simp] theorem oreadKeys_append_oreadE (a : List Ev) (k : Nat) :
    oreadKeys (a ++ [Ev.oreadE k]) = oreadKeys a ++ [k] := by
  rw [oreadKeys_append]; rfl

@[simp] theorem oreadKeys_append_owriteE (a : List Ev) :
    oreadKeys (a ++ [Ev.owriteE]) = oreadKeys a := by
  rw [oreadKeys_append]; simp [oreadKeys]

/-! ## Trace shape of the operations -/

theorem pushDown_trace (h ck k i : Nat) (st : St) :
    (pushDown h ck k i st).2.trace = st.trace := by
  unfold pushDown pushChild
  dsimp only
  split
  · rfl
  · split
    · apply andThen_snd_pres (P := fun s => s.trace = st.trace)
      · simp
      · intro a s hs
        apply andThen_snd_pres (P := fun s => s.trace = st.trace)
        · simpa
        · intro b s2 hs2
          simpa
    · split
      · simp
      · split
        · apply andThen_snd_pres (P := fun s => s.trace = st.trace)
          · simp
          · intro a s hs
            simpa
        · split
          · apply andThen_snd_pres (P := fun s => s.trace = st.trace)
            · simp
            · intro a s hs
              simpa
          · simp

theorem flushLevel_trace (h ck : Nat) (c : FlushChoice) (i : Nat) (st : St) :
    (flushLevel h ck c i st).2.trace = st.trace := by
  unfold flushLevel
  dsimp only
  apply andThen_snd_pres (P := fun s => s.trace = st.trace)
  · rw [pushDown_trace]
    split <;> simp
  · intro r1 s1 hs1
    dsimp only
    apply ite_pres (P := fun s => s.trace = st.trace)
    · apply andThen_snd_pres (P := fun s => s.trace = st.trace)
      · simpa
      · intro a s hs
        simpa
    · apply ite_pres (P := fun s => s.trace = st.trace)
      · simpa
      · apply andThen_snd_pres (P := fun s => s.trace = st.trace)
        · rw [pushDown_trace]
          exact hs1
        · intro r2 s2 hs2
          apply andThen_snd_pres (P := fun s => s.trace = st.trace)
          · simpa
          · intro a s3 hs3
            apply ite_pres (P := fun s => s.trace = st.trace)
            · simpa
            · apply andThen_snd_pres (P := fun s => s.trace = st.trace)
              · simpa
              · intro b s4 hs4
                simpa

theorem flushGo_trace (h ck : Nat) (fc : Nat → FlushChoice) (lv : List Nat) (st : St) :
    (flushGo h ck fc lv st).2.trace = st.trace := by
  induction lv generalizing st with
  | nil => rfl
  | cons i rest ih =>
    unfold flushGo
    apply andThen_snd_pres (P := fun s => s.trace = st.trace)
    · rw [flushLevel_trace]
    · intro l1 s1 hs1
      apply andThen_snd_pres (P := fun s => s.trace = st.trace)
      · rw [ih s1]
        exact hs1
      · intro l2 s2 hs2
        exact hs2

theorem flush_trace (h ck : Nat) (fc : Nat → FlushChoice) (st : St) :
    (flush h ck fc st).2.trace = st.trace := by
  unfold flush
  apply andThen_snd_pres (P := fun s => s.trace = st.trace)
  · rw [flushGo_trace]
  · intro l s hs
    exact hs

theorem scanStep_oreadKeys (ck : Nat) (draws : Nat → Nat) (f : PyStr) (del : Bool)
    (k j : Nat) (req : Option PyStr) (st : St) :
    oreadKeys (scanStep ck draws f del k j req st).2.trace = oreadKeys st.trace := by
  unfold scanStep
  dsimp only
  rcases hext : extractFile ((getBucket st k).array.getD j default).data with e | ⟨name, d⟩
  · rfl
  · dsimp only
    by_cases hname : name = f
    · rw [if_pos hname]
      rcases hsig : st.fileToSig f with _ | sg
      · rfl
      · dsimp only
        by_cases hv : verifySig ck (name ++ ';' :: d) sg = true
        · rw [if_pos hv]
          dsimp only
          simp only [owrite_trace, assignToLeaf_snd_trace, oreadKeys_append_owriteE]
          split <;> simp
        · rw [if_neg hv]
    · rw [if_neg hname]

theorem scanLoop_oreadKeys (ck : Nat) (draws : Nat → Nat) (f : PyStr) (del : Bool)
    (k : Nat) (rem : Nat) : ∀ (j : Nat) (req : Option PyStr) (st : St),
    oreadKeys (scanLoop ck draws f del k rem j req st).2.trace = oreadKeys st.trace := by
  induction rem with
  | zero => intro j req st; rfl
  | succ r ih =>
    intro j req st
    unfold scanLoop
    apply andThen_snd_pres (P := fun s => oreadKeys s.trace = oreadKeys st.trace)
    · rw [scanStep_oreadKeys]
    · intro req1 s1 hs1
      rw [ih (j + 1) req1 s1]
      exact hs1

theorem writeSweep_trace (h ck : Nat) : ∀ (path : List Nat) (st : St),
    (writeSweep h ck path st).1 = Except.ok () →
    oreadKeys (writeSweep h ck path st).2.trace = oreadKeys st.trace ++ path := by
  intro path
  induction path with
  | nil =>
    intro st _
    simp [writeSweep]
  | cons k ks ih =>
    intro st hok
    unfold writeSweep at hok ⊢
    rcases andThen_cases (oread h k st) _ with ⟨e, h1, h2⟩ | ⟨a, h1, h2⟩ <;>
      rw [h2] at hok ⊢
    · simp at hok
    · have hk := oread_fst_ok h1
      rw [oread_lt st hk] at hok ⊢
      rcases andThen_cases (encryptAt ck k (decryptAt ck k
          { st with trace := st.trace ++ [Ev.oreadE k] })) _ with
        ⟨e2, h3, h4⟩ | ⟨a2, h3, h4⟩ <;> rw [h4] at hok ⊢
      · simp at hok
      · rw [ih _ hok]
        simp

theorem readSweep_trace (h ck : Nat) (draws : Nat → Nat) (f : PyStr) (del : Bool) :
    ∀ (path : List Nat) (req : Option PyStr) (st : St) (r : Option PyStr),
    (readSweep h ck draws f del path req st).1 = Except.ok r →
    oreadKeys (readSweep h ck draws f del path req st).2.trace
      = oreadKeys st.trace ++ path := by
  intro path
  induction path with
  | nil =>
    intro req st r _
    simp [readSweep]
  | cons k ks ih =>
    intro req st r hok
    unfold readSweep at hok ⊢
    rcases andThen_cases (oread h k st) _ with ⟨e, h1, h2⟩ | ⟨a, h1, h2⟩ <;>
      rw [h2] at hok ⊢
    · simp at hok
    · have hk := oread_fst_ok h1
      rw [oread_lt st hk] at hok ⊢
      rcases andThen_cases (scanLoop ck draws f del k _ 0 req _) _ with
        ⟨e2, h3, h4⟩ | ⟨req1, h3, h4⟩ <;> rw [h4] at hok ⊢
      · simp at hok
      · rcases andThen_cases (encryptAt ck k _) _ with ⟨e3, h5, h6⟩ | ⟨a3, h5, h6⟩ <;>
          rw [h6] at hok ⊢
        · simp at hok
        · rw [ih _ _ _ hok]
          rw [encryptAt_snd_trace]
          have hsc := scanLoop_oreadKeys ck draws f del k
            ((getBucket (decryptAt ck k { st with trace := st.trace ++ [Ev.oreadE k] }) k).array.length)
            0 req (decryptAt ck k { st with trace := st.trace ++ [Ev.oreadE k] })
          rw [hsc]
          simp

@[simp] theorem assignToLeaf_fst (draws : Nat → Nat) (f : PyStr) (st : St) :
    (assignToLeaf draws f st).1 = draws st.rng := rfl

theorem assignToLeaf_snd (draws : Nat → Nat) (f : PyStr) (st : St) :
    (assignToLeaf draws f st).2
      = { st with rng := st.rng + 1, fileToLeaf := updF st.fileToLeaf f (draws st.rng) } := rfl

theorem numNodes_pos (h : Nat) : 0 < numNodes h := by
  unfold numNodes
  have : 1 ≤ 2 ^ (h + 1) := Nat.one_le_two_pow
  have h2 : 2 ^ (h + 1) = 2 * 2 ^ h := by ring
  have h3 : 1 ≤ 2 ^ h := Nat.one_le_two_pow
  omega

theorem getRootPath_some {h l : Nat} {path : List Nat}
    (hgp : getRootPath h l = some path) : isLeafKey h l ∧ path = rootPath l := by
  unfold getRootPath at hgp
  by_cases hc : isLeafKey h l
  · rw [if_pos hc] at hgp
    simp only [Option.some.injEq] at hgp
    exact ⟨hc, hgp.symm⟩
  · rw [if_neg hc] at hgp
    simp at hgp

/-- Trace of the final root write of `Client.write` (`oread(0)`, decrypt,
`owrite`, re-encrypt, sign). -/
theorem writeTail_trace {h ck : Nat} {file : PyStr} {lid : Nat} {fnm : PyStr} {st3 : St}
    (hok : (andThen (oread h 0 st3) (fun _ st4 =>
      andThen (encryptAt ck 0 (owrite (PyVal.str file) (PyVal.int lid) (decryptAt ck 0 st4)))
        (fun _ st7 => (Except.ok (), signFile ck fnm file st7)))).1 = Except.ok ()) :
    oreadKeys (andThen (oread h 0 st3) (fun _ st4 =>
      andThen (encryptAt ck 0 (owrite (PyVal.str file) (PyVal.int lid) (decryptAt ck 0 st4)))
        (fun _ st7 => (Except.ok (), signFile ck fnm file st7)))).2.trace
      = oreadKeys st3.trace ++ [0] := by
  rw [oread_lt st3 (numNodes_pos h)] at hok ⊢
  rw [andThen_pair_ok] at hok ⊢
  rcases andThen_cases (encryptAt ck 0 (owrite (PyVal.str file) (PyVal.int lid)
      (decryptAt ck 0 { st3 with trace := st3.trace ++ [Ev.oreadE 0] }))) _ with
    ⟨e, h7, h8⟩ | ⟨a4, h7, h8⟩ <;> rw [h8] at hok ⊢
  · simp at hok
  · simp [oreadKeys_append]

/-- Shape of the ghost trace of a completed `write`: the `oread` calls are
exactly the fresh leaf's root path followed by the final root `oread`. -/
theorem writeOp_trace {h ck : Nat} {draws : Nat → Nat} {fc : Nat → FlushChoice}
    {f d : PyStr} {st : St}
    (hok : (writeOp h ck draws fc f d st).1 = Except.ok ()) :
    isLeafKey h (draws st.rng) ∧
    oreadKeys (writeOp h ck draws fc f d st).2.trace
      = oreadKeys st.trace ++ rootPath (draws st.rng) ++ [0] := by
  unfold writeOp at hok ⊢
  simp only [assignToLeaf_fst] at hok ⊢
  rcases hgp : getRootPath h (draws st.rng) with _ | path
  · rw [hgp] at hok
    simp at hok
  · rw [hgp] at hok
    dsimp only at hok ⊢
    obtain ⟨hleaf, hpath⟩ := getRootPath_some hgp
    subst hpath
    refine ⟨hleaf, ?_⟩
    rcases andThen_cases (writeSweep h ck (rootPath (draws st.rng)) (assignToLeaf draws f st).2) _ with
      ⟨e, h1, h2⟩ | ⟨a, h1, h2⟩ <;> rw [h2] at hok ⊢
    · simp at hok
    · rcases andThen_cases (flush h ck fc _) _ with ⟨e, h3, h4⟩ | ⟨a2, h3, h4⟩ <;>
        rw [h4] at hok ⊢
      · simp at hok
      · rw [writeTail_trace hok]
        simp only [flush_trace]
        rw [writeSweep_trace h ck _ _ h1]
        simp

/-- Shape of the ghost trace of a completed `read`: the `oread` calls are
exactly the root path of the leaf currently assigned to the filename. -/
theorem readOp_trace {h ck : Nat} {draws : Nat → Nat} {fc : Nat → FlushChoice}
    {f : PyStr} {del : Bool} {st : St} {r : Option PyStr}
    (hok : (readOp h ck draws fc f del st).1 = Except.ok r) :
    ∃ l, st.fileToLeaf f = some l ∧ isLeafKey h l ∧
      oreadKeys (readOp h ck draws fc f del st).2.trace
        = oreadKeys st.trace ++ rootPath l := by
  unfold readOp at hok ⊢
  rcases hfl : st.fileToLeaf f with _ | l
  · rw [hfl] at hok
    simp [getRootPathO] at hok
  · rw [hfl] at hok
    refine ⟨l, rfl, ?_⟩
    dsimp only [getRootPathO] at hok ⊢
    rcases hgp : getRootPath h l with _ | path
    · rw [hgp] at hok
      simp at hok
    · rw [hgp] at hok
      dsimp only at hok ⊢
      obtain ⟨hleaf, hpath⟩ := getRootPath_some hgp
      subst hpath
      refine ⟨hleaf, ?_⟩
      rcases andThen_cases (readSweep h ck draws f del (rootPath l) none st) _ with
        ⟨e, h1, h2⟩ | ⟨req, h1, h2⟩ <;> rw [h2] at hok ⊢
      · simp at hok
      · rcases andThen_cases (flush h ck fc _) _ with ⟨e, h3, h4⟩ | ⟨a2, h3, h4⟩ <;>
          rw [h4] at hok ⊢
        · simp at hok
        · simp only [flush_trace]
          exact readSweep_trace h ck draws f del (rootPath l) none st req h1

/-- **C3.** Access-shape uniformity: for any completed `read(f)` and
`write(f, d)`, the `oread` node-key sequence issued by the write is exactly
its fresh leaf's root path followed by the single final root `oread`
(the root write), and the one issued by the read is exactly the root path of
the leaf assigned to `f`; both paths consist of exactly `h+1` nodes.
(`flush` touches buckets directly through the tree object and issues no
`oread` calls.) -/
theorem c3_access_shape (h ck : Nat) (draws1 draws2 : Nat → Nat)
    (fc1 fc2 : Nat → FlushChoice) (f1 d1 f2 : PyStr) (s1 s2 : St) (r : Option PyStr)
    (hw : (writeOp h ck draws1 fc1 f1 d1 s1).1 = Except.ok ())
    (hr : (readOp h ck draws2 fc2 f2 false s2).1 = Except.ok r) :
    ∃ lw lr : Nat,
      lw = draws1 s1.rng ∧ s2.fileToLeaf f2 = some lr ∧
      oreadKeys (writeOp h ck draws1 fc1 f1 d1 s1).2.trace
        = oreadKeys s1.trace ++ (rootPath lw ++ [0]) ∧
      oreadKeys (readOp h ck draws2 fc2 f2 false s2).2.trace
        = oreadKeys s2.trace ++ rootPath lr ∧
      (rootPath lw).length = h + 1 ∧ (rootPath lr).length = h + 1 := by
  obtain ⟨hleaf, htr⟩ := writeOp_trace hw
  obtain ⟨l, hfl, hlf, htr2⟩ := readOp_trace hr
  refine ⟨draws1 s1.rng, l, rfl, hfl, ?_, htr2, ?_, ?_⟩
  · rw [htr, List.append_assoc]
  · exact rootPath_length ((isLeafKey_iff _ _).mp hleaf).1 ((isLeafKey_iff _ _).mp hleaf).2
  · exact rootPath_length ((isLeafKey_iff _ _).mp hlf).1 ((isLeafKey_iff _ _).mp hlf).2

/-- Witness for C3: a concrete completed write/read pair on the one-node
tree. -/
theorem c3_access_shape_witness :
    ((writeOp 0 7 (fun _ => 0) (fun _ => ⟨0, 0, 0, 0⟩) ['a'] ['X']
        (freshSt 0 (fun _ _ => 0))).1 = Except.ok ()) ∧
    ((readOp 0 7 (fun _ => 0) (fun _ => ⟨0, 0, 0, 0⟩) ['a'] false
        (writeOp 0 7 (fun _ => 0) (fun _ => ⟨0, 0, 0, 0⟩) ['a'] ['X']
          (freshSt 0 (fun _ _ => 0))).2).1 = Except.ok (some ['X'])) ∧
    (∃ lw lr : Nat,
      lw = (fun _ : Nat => 0) (freshSt 0 (fun _ _ => 0)).rng ∧
      (writeOp 0 7 (fun _ => 0) (fun _ => ⟨0, 0, 0, 0⟩) ['a'] ['X']
          (freshSt 0 (fun _ _ => 0))).2.fileToLeaf ['a'] = some lr ∧
      oreadKeys (writeOp 0 7 (fun _ => 0) (fun _ => ⟨0, 0, 0, 0⟩) ['a'] ['X']
          (freshSt 0 (fun _ _ => 0))).2.trace
        = oreadKeys (freshSt 0 (fun _ _ => 0)).trace ++ (rootPath lw ++ [0]) ∧
      oreadKeys (readOp 0 7 (fun _ => 0) (fun _ => ⟨0, 0, 0, 0⟩) ['a'] false
          (writeOp 0 7 (fun _ => 0) (fun _ => ⟨0, 0, 0, 0⟩) ['a'] ['X']
            (freshSt 0 (fun _ _ => 0))).2).2.trace
        = oreadKeys (writeOp 0 7 (fun _ => 0) (fun _ => ⟨0, 0, 0, 0⟩) ['a'] ['X']
            (freshSt 0 (fun _ _ => 0))).2.trace ++ rootPath lr ∧
      (rootPath lw).length = 0 + 1 ∧ (rootPath lr).length = 0 + 1) :=
  ⟨by decide, by decide,
   c3_access_shape 0 7 (fun _ => 0) (fun _ => 0) (fun _ => ⟨0, 0, 0, 0⟩)
     (fun _ => ⟨0, 0, 0, 0⟩) ['a'] ['X'] ['a'] (freshSt 0 (fun _ _ => 0))
     (writeOp 0 7 (fun _ => 0) (fun _ => ⟨0, 0, 0, 0⟩) ['a'] ['X']
       (freshSt 0 (fun _ _ => 0))).2 (some ['X']) (by decide) (by decide)⟩

/-! ## Claim C7: path/subtree duality -/

/-- **C7.** For the binary tree built at server construction, every leaf's
root path has length exactly `h+1` and starts at node key `0`, and for every
node key `k` and leaf key `l`, `k ∈ leaf_to_path[l]` iff
`l ∈ node_to_leaves[k]` (path/subtree duality). -/
theorem c7_path_subtree_duality (h k l : Nat) (hl : isLeafKey h l) (hk : k < numNodes h) :
    getRootPath h l = some (rootPath l) ∧
    (rootPath l).length = h + 1 ∧
    (rootPath l).head? = some 0 ∧
    (k ∈ rootPath l ↔ l ∈ nodeToLeaves h k) := by
  refine ⟨?_, ?_, rootPath_head l, ?_⟩
  · unfold getRootPath
    rw [if_pos hl]
  · have hb := (isLeafKey_iff h l).mp hl
    exact rootPath_length hb.1 hb.2
  · unfold nodeToLeaves
    constructor
    · intro hm
      rw [List.mem_filter]
      exact ⟨(mem_leafKeysL h l).mpr hl, by simpa using hm⟩
    · intro hm
      rw [List.mem_filter] at hm
      simpa using hm.2

/-- Witness for C7 at `h = 1`, node `k = 0`, leaf `l = 2`. -/
theorem c7_path_subtree_duality_witness :
    isLeafKey 1 2 ∧ 0 < numNodes 1 ∧
    (getRootPath 1 2 = some (rootPath 2) ∧
     (rootPath 2).length = 1 + 1 ∧
     (rootPath 2).head? = some 0 ∧
     (0 ∈ rootPath 2 ↔ 2 ∈ nodeToLeaves 1 0)) :=
  ⟨by decide, by decide, c7_path_subtree_duality 1 0 2 (by decide) (by decide)⟩

/-! ## Claim C8: `Bucket.write_data` -/

/-- **C8.** `Bucket.write_data(payload, leaf_id)` never fails: the bucket
keeps exactly its blocks (none added or removed); if it contains a vacant
block (payload `EMPTY_DATA`), the pair is stored into the vacant block of
lowest index and every other block is untouched; otherwise the block pointed
to by the rotating `idx_pt` (i.e. index `idx_pt % size`) is overwritten,
its previous contents silently discarded, and the pointer advances. -/
theorem c8_write_data (bk : Bucket) (d lid : PyVal)
    (hlen : bk.array.length = bk.size) (hpos : 0 < bk.size) (hpt : bk.idxPt ≤ bk.size) :
    ((writeData bk d lid).array.length = bk.size ∧ (writeData bk d lid).size = bk.size) ∧
    (∀ i, (availIdxs bk.array).head? = some i →
      blockIsEmpty (bk.array.getD i default) ∧
      (∀ j < i, ¬ blockIsEmpty (bk.array.getD j default)) ∧
      (writeData bk d lid).array.getD i default
        = { bk.array.getD i default with data := d, leafId := lid } ∧
      ∀ j, j ≠ i → (writeData bk d lid).array.getD j default = bk.array.getD j default) ∧
    (availIdxs bk.array = [] →
      (writeData bk d lid).array.getD (bk.idxPt % bk.size) default
        = { bk.array.getD (bk.idxPt % bk.size) default with data := d, leafId := lid } ∧
      (writeData bk d lid).idxPt = bk.idxPt % bk.size + 1 ∧
      ∀ j, j ≠ bk.idxPt % bk.size →
        (writeData bk d lid).array.getD j default = bk.array.getD j default) := by
  refine ⟨?_, ?_, ?_⟩
  · cases hv : availIdxs bk.array with
    | nil => rw [writeData_full hv]; simp [hlen]
    | cons i tl => rw [writeData_vacant hv]; simp [hlen]
  · intro i hh
    have hc := availIdxs_head hh
    cases hv : availIdxs bk.array with
    | nil => rw [hv] at hh; simp at hh
    | cons i2 tl =>
      rw [hv, List.head?_cons, Option.some.injEq] at hh
      subst hh
      rw [writeData_vacant hv]
      refine ⟨hc.1, hc.2.2, ?_, ?_⟩
      · simpa using modifyIdx_getD_same bk.array i2 _ hc.2.1
      · intro j hj
        simpa using modifyIdx_getD_other bk.array i2 j _ (fun he => hj he.symm)
  · intro hv
    rw [writeData_full hv]
    have he : (if bk.size ≤ bk.idxPt then 0 else bk.idxPt) = bk.idxPt % bk.size := by
      rcases Nat.lt_or_ge bk.idxPt bk.size with hlt | hge
      · rw [if_neg (by omega), Nat.mod_eq_of_lt hlt]
      · have : bk.idxPt = bk.size := by omega
        rw [if_pos (by omega), this, Nat.mod_self]
    refine ⟨?_, by simp [he], ?_⟩
    · have hbound : bk.idxPt % bk.size < bk.array.length := by
        rw [hlen]; exact Nat.mod_lt _ hpos
      simpa [he] using modifyIdx_getD_same bk.array (bk.idxPt % bk.size) _ hbound
    · intro j hj
      simpa [he] using modifyIdx_getD_other bk.array (bk.idxPt % bk.size) j _ (fun hx => hj hx.symm)

/-- Witness for C8 on a full two-block bucket with `idx_pt = 2`. -/
theorem c8_write_data_witness :
    ((⟨2, 5, 2, [⟨10, .int 3, .str ['x', ';', 'y']⟩, ⟨11, .int 4, .str ['u', ';', 'v']⟩]⟩ :
        Bucket).array.length = 2 ∧ (0:Nat) < 2 ∧ (2:Nat) ≤ 2) ∧
    (((writeData ⟨2, 5, 2, [⟨10, .int 3, .str ['x', ';', 'y']⟩, ⟨11, .int 4, .str ['u', ';', 'v']⟩]⟩
        (.str ['n', ';', 'w']) (.int 3)).array.length = 2 ∧
      (writeData ⟨2, 5, 2, [⟨10, .int 3, .str ['x', ';', 'y']⟩, ⟨11, .int 4, .str ['u', ';', 'v']⟩]⟩
        (.str ['n', ';', 'w']) (.int 3)).size = 2) ∧
     (∀ i, (availIdxs (⟨2, 5, 2, [⟨10, .int 3, .str ['x', ';', 'y']⟩, ⟨11, .int 4, .str ['u', ';', 'v']⟩]⟩ :
        Bucket).array).head? = some i →
      blockIsEmpty ((⟨2, 5, 2, [⟨10, .int 3, .str ['x', ';', 'y']⟩, ⟨11, .int 4, .str ['u', ';', 'v']⟩]⟩ :
        Bucket).array.getD i default) ∧
      (∀ j < i, ¬ blockIsEmpty ((⟨2, 5, 2, [⟨10, .int 3, .str ['x', ';', 'y']⟩, ⟨11, .int 4, .str ['u', ';', 'v']⟩]⟩ :
        Bucket).array.getD j default)) ∧
      (writeData ⟨2, 5, 2, [⟨10, .int 3, .str ['x', ';', 'y']⟩, ⟨11, .int 4, .str ['u', ';', 'v']⟩]⟩
        (.str ['n', ';', 'w']) (.int 3)).array.getD i default
        = { (⟨2, 5, 2, [⟨10, .int 3, .str ['x', ';', 'y']⟩, ⟨11, .int 4, .str ['u', ';', 'v']⟩]⟩ :
        Bucket).array.getD i default with data := .str ['n', ';', 'w'], leafId := .int 3 } ∧
      ∀ j, j ≠ i →
        (writeData ⟨2, 5, 2, [⟨10, .int 3, .str ['x', ';', 'y']⟩, ⟨11, .int 4, .str ['u', ';', 'v']⟩]⟩
          (.str ['n', ';', 'w']) (.int 3)).array.getD j default
        = (⟨2, 5, 2, [⟨10, .int 3, .str ['x', ';', 'y']⟩, ⟨11, .int 4, .str ['u', ';', 'v']⟩]⟩ :
        Bucket).array.getD j default) ∧
     (availIdxs (⟨2, 5, 2, [⟨10, .int 3, .str ['x', ';', 'y']⟩, ⟨11, .int 4, .str ['u', ';', 'v']⟩]⟩ :
        Bucket).array = [] →
      (writeData ⟨2, 5, 2, [⟨10, .int 3, .str ['x', ';', 'y']⟩, ⟨11, .int 4, .str ['u', ';', 'v']⟩]⟩
        (.str ['n', ';', 'w']) (.int 3)).array.getD (2 % 2) default
        = { (⟨2, 5, 2, [⟨10, .int 3, .str ['x', ';', 'y']⟩, ⟨11, .int 4, .str ['u', ';', 'v']⟩]⟩ :
        Bucket).array.getD (2 % 2) default with data := .str ['n', ';', 'w'], leafId := .int 3 } ∧
      (writeData ⟨2, 5, 2, [⟨10, .int 3, .str ['x', ';', 'y']⟩, ⟨11, .int 4, .str ['u', ';', 'v']⟩]⟩
        (.str ['n', ';', 'w']) (.int 3)).idxPt = 2 % 2 + 1 ∧
      ∀ j, j ≠ 2 % 2 →
        (writeData ⟨2, 5, 2, [⟨10, .int 3, .str ['x', ';', 'y']⟩, ⟨11, .int 4, .str ['u', ';', 'v']⟩]⟩
          (.str ['n', ';', 'w']) (.int 3)).array.getD j default
        = (⟨2, 5, 2, [⟨10, .int 3, .str ['x', ';', 'y']⟩, ⟨11, .int 4, .str ['u', ';', 'v']⟩]⟩ :
        Bucket).array.getD j default)) :=
  ⟨⟨rfl, by decide, by decide⟩,
   c8_write_data _ (.str ['n', ';', 'w']) (.int 3) rfl (by decide) (by decide)⟩

/-! ## Claim C6: push-down at a leaf -/

theorem andThen_fst_ok_some {α β : Type} {p : Except Err α × St}
    {f : α → St → Except Err β × St} {b : β}
    (hr : (andThen p f).1 = Except.ok b) :
    ∃ a, p.1 = Except.ok a ∧ (f a p.2).1 = Except.ok b := by
  rcases andThen_cases p f with ⟨e, h1, h2⟩ | ⟨a, h1, h2⟩ <;> rw [h2] at hr
  · simp at hr
  · exact ⟨a, h1, hr⟩

/-- **C6 (amended).** When flush samples a block in a leaf-level bucket,
`push_down` returns that block's payload as "evicted" (the block cannot
descend) — but the block is left untouched, still holding its payload (it
is *not* cleared); and an "evicted" (`some`) return of `push_down` arises
only at a leaf-level node (non-leaf pushes yield `none` or raise), though
the pushed block may be empty, in which case `EMPTY_DATA` is the returned
payload. -/
theorem c6_push_down_leaf (h ck k i : Nat) (st : St)
    (hleaf : numNodes h ≤ 2 * k + 1) :
    pushDown h ck k i st
      = (Except.ok (some ((getBucket st k).array.getD i default).data), st) ∧
    (∀ k2 i2 : Nat, ∀ st2 : St, ∀ v : PyVal,
      (pushDown h ck k2 i2 st2).1 = Except.ok (some v) → numNodes h ≤ 2 * k2 + 1) := by
  constructor
  · unfold pushDown
    rw [if_pos hleaf]
  · intro k2 i2 st2 v hok
    by_contra hc
    unfold pushDown at hok
    rw [if_neg hc] at hok
    split at hok
    · obtain ⟨a1, hx1, hok2⟩ := andThen_fst_ok_some hok
      obtain ⟨a2, hx2, hok3⟩ := andThen_fst_ok_some hok2
      simp at hok3
    · split at hok
      · simp at hok
      · split at hok
        · unfold pushChild at hok
          obtain ⟨a1, hx1, hok2⟩ := andThen_fst_ok_some hok
          simp at hok2
        · split at hok
          · unfold pushChild at hok
            obtain ⟨a1, hx1, hok2⟩ := andThen_fst_ok_some hok
            simp at hok2
          · simp at hok

/-- Witness for C6: the single-node tree holding `"a;X"` after a write. -/
theorem c6_push_down_leaf_witness :
    numNodes 0 ≤ 2 * 0 + 1 ∧
    (pushDown 0 7 0 0
        (writeOp 0 7 (fun _ => 0) (fun _ => ⟨0, 0, 0, 0⟩) ['a'] ['X']
          (freshSt 0 (fun _ _ => 0))).2
      = (Except.ok (some ((getBucket
          (writeOp 0 7 (fun _ => 0) (fun _ => ⟨0, 0, 0, 0⟩) ['a'] ['X']
            (freshSt 0 (fun _ _ => 0))).2 0).array.getD 0 default).data),
          (writeOp 0 7 (fun _ => 0) (fun _ => ⟨0, 0, 0, 0⟩) ['a'] ['X']
            (freshSt 0 (fun _ _ => 0))).2) ∧
    (∀ k2 i2 : Nat, ∀ st2 : St, ∀ v : PyVal,
      (pushDown 0 7 k2 i2 st2).1 = Except.ok (some v) → numNodes 0 ≤ 2 * k2 + 1)) :=
  ⟨by decide,
   c6_push_down_leaf 0 7 0 0
     (writeOp 0 7 (fun _ => 0) (fun _ => ⟨0, 0, 0, 0⟩) ['a'] ['X']
       (freshSt 0 (fun _ _ => 0))).2 (by decide)⟩

/-- **C6 (counterexample).** On the one-node tree holding `"a;X"`, a flush
that samples that leaf block reports the payload as evicted, yet the block
afterwards still carries `"a;X"` (re-encrypted in place) — it does **not**
"remain cleared"; moreover, a flush of the fresh tree (all blocks empty)
also produces an "evicted" output, namely `EMPTY_DATA`, so the output is
not observable "only via a leaf-level push of a non-empty block". -/
theorem c6_counterexample :
    (flush 0 7 (fun _ => ⟨0, 0, 0, 0⟩)
        (writeOp 0 7 (fun _ => 0) (fun _ => ⟨0, 0, 0, 0⟩) ['a'] ['X']
          (freshSt 0 (fun _ _ => 0))).2).1
      = Except.ok (some [PyVal.str ['a', ';', 'X']]) ∧
    ((getBucket (flush 0 7 (fun _ => ⟨0, 0, 0, 0⟩)
        (writeOp 0 7 (fun _ => 0) (fun _ => ⟨0, 0, 0, 0⟩) ['a'] ['X']
          (freshSt 0 (fun _ _ => 0))).2).2 0).array.getD 0 default).data
      = PyVal.bytes (Bytes.enc 7 (BVal.s ['a', ';', 'X'])) ∧
    PyVal.bytes (Bytes.enc 7 (BVal.s ['a', ';', 'X'])) ≠ PyVal.str EMPTY_DATA ∧
    PyVal.bytes (Bytes.enc 7 (BVal.s ['a', ';', 'X']))
      ≠ PyVal.bytes (Bytes.enc 7 (BVal.s EMPTY_DATA)) ∧
    (flush 0 7 (fun _ => ⟨0, 0, 0, 0⟩) (freshSt 0 (fun _ _ => 0))).1
      = Except.ok (some [PyVal.str EMPTY_DATA]) := by
  refine ⟨by decide, by decide, by decide, by decide, by decide⟩

/-! ## Claim C2: tampering -/

/-- **C2 (code behavior at the failing input).** After `write("a","X")` on
the two-leaf tree, tampering with the root block's ciphertext payload makes
the following `read("a")` raise `TypeError` (the undecryptable block is
skipped by `_decrypt_bucket` and its raw `bytes` payload then reaches
`_extract_file`, where `bytes.find(str)` raises) — **not** the
authentication-failure error the claim requires; no data is returned.  A
tampered block that is off the read path and not touched by flush leaves
the read unaffected. -/
theorem c2_tamper_behavior :
    (readOp 1 7 (fun _ => 1) (fun _ => ⟨0, 0, 1, 1⟩) ['a'] false
        (tamperAt 0 0
          (writeOp 1 7 (fun _ => 1) (fun _ => ⟨0, 0, 1, 1⟩) ['a'] ['X']
            (freshSt 1 (fun _ _ => 1))).2)).1
      = Except.error Err.typeError ∧
    Err.typeError ≠ Err.authFail ∧
    (readOp 1 7 (fun _ => 1) (fun _ => ⟨0, 0, 0, 0⟩) ['a'] false
        (tamperAt 2 0
          (writeOp 1 7 (fun _ => 1) (fun _ => ⟨0, 0, 1, 1⟩) ['a'] ['X']
            (freshSt 1 (fun _ _ => 1))).2)).1
      = Except.ok (some ['X']) := by
  refine ⟨by decide, by decide, by decide⟩

/-! ## Claim C5: decrypt-skip -/

/-- **C5 (counterexample).** A block the client cannot decrypt (here: one
encrypted under another key pair, `99` instead of the client's `7`) *is*
skipped by the decryption sweep — yet the operation does **not** complete:
`write` aborts with `AttributeError` when `_encrypt_bucket` calls
`.encode()` on the still-`bytes` payload. -/
theorem c5_counterexample :
    ((getBucket (decryptAt 7 0
        (modBucket (freshSt 1 (fun _ _ => 1)) 0 (fun bk =>
          { bk with array := modifyIdx bk.array 0 (fun b =>
            { b with data := PyVal.bytes (Bytes.enc 99 (BVal.s ['q'])),
                     leafId := PyVal.bytes (Bytes.enc 99 (BVal.n 1)) }) }))) 0).array.getD 0
        default).data
      = PyVal.bytes (Bytes.enc 99 (BVal.s ['q'])) ∧
    (writeOp 1 7 (fun _ => 1) (fun _ => ⟨0, 0, 1, 1⟩) ['a'] ['X']
        (modBucket (freshSt 1 (fun _ _ => 1)) 0 (fun bk =>
          { bk with array := modifyIdx bk.array 0 (fun b =>
            { b with data := PyVal.bytes (Bytes.enc 99 (BVal.s ['q'])),
                     leafId := PyVal.bytes (Bytes.enc 99 (BVal.n 1)) }) }))).1
      = Except.error Err.attrError := by
  refine ⟨by decide, by decide⟩

/-- **C5 (amended).** The decryption sweep itself is total: a block that
fails to decrypt is skipped and left as it stands.  The logical operation
then completes when every skipped payload is still a plaintext `str` (the
untouched fresh-server blocks fail decryption with `TypeError` and are
skipped; the first `write` and `read` complete), but when a skipped payload
is ciphertext `bytes`, the operation aborts later: `write` with
`AttributeError` at re-encryption, `read` with `TypeError` at payload
parsing. -/
theorem c5_decrypt_skip :
    (∀ bl : Block, (∀ v, pyDecrypt 7 bl.leafId ≠ Except.ok v) → decryptBlock 7 bl = bl) ∧
    (writeOp 0 7 (fun _ => 0) (fun _ => ⟨0, 0, 0, 0⟩) ['a'] ['X']
        (freshSt 0 (fun _ _ => 0))).1 = Except.ok () ∧
    (readOp 0 7 (fun _ => 0) (fun _ => ⟨0, 0, 0, 0⟩) ['a'] false
        (writeOp 0 7 (fun _ => 0) (fun _ => ⟨0, 0, 0, 0⟩) ['a'] ['X']
          (freshSt 0 (fun _ _ => 0))).2).1 = Except.ok (some ['X']) ∧
    (writeOp 1 7 (fun _ => 1) (fun _ => ⟨0, 0, 1, 1⟩) ['a'] ['X']
        (modBucket (freshSt 1 (fun _ _ => 1)) 0 (fun bk =>
          { bk with array := modifyIdx bk.array 0 (fun b =>
            { b with data := PyVal.bytes (Bytes.enc 99 (BVal.s ['q'])),
                     leafId := PyVal.bytes (Bytes.enc 99 (BVal.n 1)) }) }))).1
      = Except.error Err.attrError ∧
    (readOp 1 7 (fun _ => 1) (fun _ => ⟨0, 0, 1, 1⟩) ['a'] false
        (modBucket (tamperAt 0 0
          (writeOp 1 7 (fun _ => 1) (fun _ => ⟨0, 0, 1, 1⟩) ['a'] ['X']
            (freshSt 1 (fun _ _ => 1))).2) 0 id)).1
      = Except.error Err.typeError := by
  refine ⟨?_, by decide, by decide, by decide, by decide⟩
  intro bl hfail
  unfold decryptBlock
  rcases hd : pyDecrypt 7 bl.leafId with e | v
  · rfl
  · exact absurd hd (hfail v)

/-! ## Claim C9: stale signature -/

/-- **C9.** For suitable outcomes of the client's random choices (shown:
leaves always drawn as `1`, flush always sampling empty blocks), the
sequence `write("a","X"); write("a","Y"); read("a")` on a fresh two-leaf
server raises the authentication-failed error although nothing was ever
tampered with: the stale root block `"a;X"` still carries the name `"a"`,
and `read` verifies it against the only stored signature, which now covers
`"a;Y"`. -/
theorem c9_stale_signature :
    (readOp 1 7 (fun _ => 1) (fun _ => ⟨0, 0, 1, 1⟩) ['a'] false
        (writeOp 1 7 (fun _ => 1) (fun _ => ⟨0, 0, 1, 1⟩) ['a'] ['Y']
          (writeOp 1 7 (fun _ => 1) (fun _ => ⟨0, 0, 1, 1⟩) ['a'] ['X']
            (freshSt 1 (fun _ _ => 1))).2).2).1
      = Except.error Err.authFail := by
  decide

/-! ## Claim C4: delete and the position map -/

/-- **C4 (counterexample).** After `write("a","X")` on the one-node tree, a
successful `delete("a")` does **not** remove `"a"` from the position map:
the delete-flavoured read reassigns the filename to a fresh leaf, so the
map still holds an entry for it. -/
theorem c4_counterexample :
    (deleteOp 0 7 (fun _ => 0) (fun _ => ⟨0, 0, 0, 0⟩) ['a']
        (writeOp 0 7 (fun _ => 0) (fun _ => ⟨0, 0, 0, 0⟩) ['a'] ['X']
          (freshSt 0 (fun _ _ => 0))).2).1 = Except.ok () ∧
    (deleteOp 0 7 (fun _ => 0) (fun _ => ⟨0, 0, 0, 0⟩) ['a']
        (writeOp 0 7 (fun _ => 0) (fun _ => ⟨0, 0, 0, 0⟩) ['a'] ['X']
          (freshSt 0 (fun _ _ => 0))).2).2.fileToLeaf ['a'] = some 0 ∧
    some 0 ≠ (none : Option Nat) := by
  refine ⟨by decide, by decide, by decide⟩

/-- **C4 (amended).** A successful `delete(f)` leaves `f` in the client's
position map, reassigned to a fresh random leaf (and its signature-table
entry also survives); nevertheless `delete(f)` followed by `read(f)`
reports "not found" by returning `None`, and a second `delete(f)` fails
with the not-found error. -/
theorem c4_delete_behavior :
    (deleteOp 0 7 (fun _ => 0) (fun _ => ⟨0, 0, 0, 0⟩) ['a']
        (writeOp 0 7 (fun _ => 0) (fun _ => ⟨0, 0, 0, 0⟩) ['a'] ['X']
          (freshSt 0 (fun _ _ => 0))).2).1 = Except.ok () ∧
    (deleteOp 0 7 (fun _ => 0) (fun _ => ⟨0, 0, 0, 0⟩) ['a']
        (writeOp 0 7 (fun _ => 0) (fun _ => ⟨0, 0, 0, 0⟩) ['a'] ['X']
          (freshSt 0 (fun _ _ => 0))).2).2.fileToLeaf ['a'] = some 0 ∧
    (deleteOp 0 7 (fun _ => 0) (fun _ => ⟨0, 0, 0, 0⟩) ['a']
        (writeOp 0 7 (fun _ => 0) (fun _ => ⟨0, 0, 0, 0⟩) ['a'] ['X']
          (freshSt 0 (fun _ _ => 0))).2).2.fileToSig ['a']
      = some (Bytes.sig 7 ['a', ';', 'X']) ∧
    (readOp 0 7 (fun _ => 0) (fun _ => ⟨0, 0, 0, 0⟩) ['a'] false
        (deleteOp 0 7 (fun _ => 0) (fun _ => ⟨0, 0, 0, 0⟩) ['a']
          (writeOp 0 7 (fun _ => 0) (fun _ => ⟨0, 0, 0, 0⟩) ['a'] ['X']
            (freshSt 0 (fun _ _ => 0))).2).2).1 = Except.ok none ∧
    (deleteOp 0 7 (fun _ => 0) (fun _ => ⟨0, 0, 0, 0⟩) ['a']
        (deleteOp 0 7 (fun _ => 0) (fun _ => ⟨0, 0, 0, 0⟩) ['a']
          (writeOp 0 7 (fun _ => 0) (fun _ => ⟨0, 0, 0, 0⟩) ['a'] ['X']
            (freshSt 0 (fun _ _ => 0))).2).2).1 = Except.error Err.fileNotFound := by
  refine ⟨by decide, by decide, by decide, by decide, by decide⟩

/-! ## Claim C10: delete of a falsy payload -/

/-- **C10.** If the data last written for `f` is the empty string
(`write("a", "")`), then `delete("a")` raises the not-found error even
though the underlying delete-flavoured read succeeded — it located and
verified the file, returned `""`, cleared the block, re-inserted
`EMPTY_DATA` at the root and reassigned `"a"` in the position map; all of
these state changes persist in the state delete leaves behind (delete
judges success by the truthiness of the returned data, and `""` is falsy,
not `None`). -/
theorem c10_delete_empty_string :
    (deleteOp 0 7 (fun _ => 0) (fun _ => ⟨0, 0, 0, 0⟩) ['a']
        (writeOp 0 7 (fun _ => 0) (fun _ => ⟨0, 0, 0, 0⟩) ['a'] []
          (freshSt 0 (fun _ _ => 0))).2).1 = Except.error Err.fileNotFound ∧
    (readOp 0 7 (fun _ => 0) (fun _ => ⟨0, 0, 0, 0⟩) ['a'] true
        (writeOp 0 7 (fun _ => 0) (fun _ => ⟨0, 0, 0, 0⟩) ['a'] []
          (freshSt 0 (fun _ _ => 0))).2).1 = Except.ok (some []) ∧
    truthy (some []) = false ∧ (some [] : Option PyStr) ≠ none ∧
    (deleteOp 0 7 (fun _ => 0) (fun _ => ⟨0, 0, 0, 0⟩) ['a']
        (writeOp 0 7 (fun _ => 0) (fun _ => ⟨0, 0, 0, 0⟩) ['a'] []
          (freshSt 0 (fun _ _ => 0))).2).2.fileToLeaf ['a'] = some 0 ∧
    ((getBucket (deleteOp 0 7 (fun _ => 0) (fun _ => ⟨0, 0, 0, 0⟩) ['a']
        (writeOp 0 7 (fun _ => 0) (fun _ => ⟨0, 0, 0, 0⟩) ['a'] []
          (freshSt 0 (fun _ _ => 0))).2).2 0).array.getD 0 default).data
      = PyVal.bytes (Bytes.enc 7 (BVal.s EMPTY_DATA)) := by
  refine ⟨by decide, by decide, by decide, by decide, by decide, by decide⟩

/-! ## Claim C1: the counterexample -/

/-- **C1 (counterexample).** The round-trip fails for the filename `"0"`
(which contains no `';'`): on a fresh two-leaf server, `write("0","X")`
followed by `read("0")` raises the authentication-failure error rather than
returning `"X"`, because the vacant blocks' `EMPTY_DATA = "0;0"` parses as
name `"0"`, matches the filename, and fails verification against the
signature over `"0;X"`. -/
theorem c1_counterexample :
    (readOp 1 7 (fun _ => 1) (fun _ => ⟨0, 0, 1, 1⟩) ['0'] false
        (writeOp 1 7 (fun _ => 1) (fun _ => ⟨0, 0, 1, 1⟩) ['0'] ['X']
          (freshSt 1 (fun _ _ => 1))).2).1
      = Except.error Err.authFail ∧
    (writeOp 1 7 (fun _ => 1) (fun _ => ⟨0, 0, 1, 1⟩) ['0'] ['X']
        (freshSt 1 (fun _ _ => 1))).1 = Except.ok () ∧
    Except.error Err.authFail ≠ Except.ok (some ['X']) := by
  refine ⟨by decide, by decide, by decide⟩

/-- Witness for C5's general skip clause at a foreign-key block. -/
theorem c5_decrypt_skip_witness :
    decryptBlock 7 ⟨0, PyVal.bytes (Bytes.enc 99 (BVal.n 1)),
        PyVal.bytes (Bytes.enc 99 (BVal.s ['q']))⟩
      = ⟨0, PyVal.bytes (Bytes.enc 99 (BVal.n 1)),
          PyVal.bytes (Bytes.enc 99 (BVal.s ['q']))⟩ :=
  c5_decrypt_skip.1 _ (fun v hv => by
    rw [show pyDecrypt 7 (PyVal.bytes (Bytes.enc 99 (BVal.n 1)))
        = Except.error Err.valueError from by decide] at hv
    cases hv)

/-! ## View and crypto lemmas -/

theorem vData_of_data_str {ck : Nat} {b : Block} {s : PyStr}
    (hd : b.data = PyVal.str s) : vData ck b = some s := by
  unfold vData
  rw [hd]

theorem vData_of_data_enc {ck : Nat} {b : Block} {s : PyStr}
    (hd : b.data = PyVal.bytes (Bytes.enc ck (BVal.s s))) : vData ck b = some s := by
  unfold vData
  rw [hd]
  simp

theorem vLid_of_lid_int {ck : Nat} {b : Block} {n : Nat}
    (hl : b.leafId = PyVal.int n) : vLid ck b = some n := by
  unfold vLid
  rw [hl]

theorem vLid_of_lid_enc {ck : Nat} {b : Block} {n : Nat}
    (hl : b.leafId = PyVal.bytes (Bytes.enc ck (BVal.n n))) : vLid ck b = some n := by
  unfold vLid
  rw [hl]
  simp

theorem decryptBlock_of_lid_int {ck : Nat} {b : Block} {n : Nat}
    (hl : b.leafId = PyVal.int n) : decryptBlock ck b = b := by
  unfold decryptBlock
  rw [hl]
  rfl

theorem decryptBlock_enc_enc {ck : Nat} {b : Block} {s : PyStr} {n : Nat}
    (hd : b.data = PyVal.bytes (Bytes.enc ck (BVal.s s)))
    (hl : b.leafId = PyVal.bytes (Bytes.enc ck (BVal.n n))) :
    decryptBlock ck b = ⟨b.bid, PyVal.int n, PyVal.str s⟩ := by
  cases b with
  | mk bid lid dat =>
    simp only at hd hl
    subst hd
    subst hl
    simp [decryptBlock, pyDecrypt, pyIntOfBVal, strOfBVal]

/-- A coherent block decrypts to the plaintext block carrying its views. -/
theorem decryptBlock_blockOK {ck : Nat} {b : Block} (hb : blockOK ck b) :
    ∃ s n, vData ck b = some s ∧ vLid ck b = some n ∧
      decryptBlock ck b = ⟨b.bid, PyVal.int n, PyVal.str s⟩ := by
  rcases hb with ⟨s, n, hd, hl⟩ | ⟨s, n, hd, hl⟩
  · refine ⟨s, n, vData_of_data_str hd, vLid_of_lid_int hl, ?_⟩
    rw [decryptBlock_of_lid_int hl]
    cases b with
    | mk bid lid dat =>
      simp only at hd hl
      subst hd
      subst hl
      rfl
  · exact ⟨s, n, vData_of_data_enc hd, vLid_of_lid_enc hl, decryptBlock_enc_enc hd hl⟩

theorem encBlockP_plain {ck : Nat} {b : Block} {s : PyStr} {n : Nat}
    (hd : b.data = PyVal.str s) (hl : b.leafId = PyVal.int n) :
    encBlockP ck b = ⟨b.bid, PyVal.bytes (Bytes.enc ck (BVal.n n)),
      PyVal.bytes (Bytes.enc ck (BVal.s s))⟩ := by
  cases b with
  | mk bid lid dat =>
    simp only at hd hl
    subst hd
    subst hl
    rfl

/-- `_encrypt_bucket` on an all-plaintext block list: no error, each block
encrypted in place. -/
theorem encBlocks_plain {ck : Nat} : ∀ bs : List Block,
    (∀ b, b ∈ bs → ∃ s, b.data = PyVal.str s) →
    encBlocks ck bs = (bs.map (encBlockP ck), false) := by
  intro bs
  induction bs with
  | nil => intro _; rfl
  | cons b t ih =>
    intro hall
    obtain ⟨s, hs⟩ := hall b (by simp)
    unfold encBlocks
    rw [hs]
    rw [ih (fun b2 hb2 => hall b2 (by simp [hb2]))]
    simp [encBlockP, hs]

/-! ## Bucket access lemmas -/

theorem map_getD {α : Type} [Inhabited α] (bs : List α) (f : α → α) (j : Nat)
    (hj : j < bs.length) : (bs.map f).getD j default = f (bs.getD j default) := by
  induction bs generalizing j with
  | nil => simp at hj
  | cons a t ih =>
    cases j with
    | zero => rfl
    | succ j2 =>
      simp only [List.length_cons] at hj
      simpa using ih j2 (by omega)

@[simp] theorem modBucket_buckets_length (st : St) (k : Nat) (f : Bucket → Bucket) :
    (modBucket st k f).buckets.length = st.buckets.length := by
  unfold modBucket
  simp

theorem getBucket_modBucket_same {st : St} {k : Nat} (f : Bucket → Bucket)
    (hk : k < st.buckets.length) :
    getBucket (modBucket st k f) k = f (getBucket st k) := by
  unfold getBucket modBucket
  exact modifyIdx_getD_same _ _ _ hk

theorem getBucket_modBucket_other {st : St} {k k2 : Nat} (f : Bucket → Bucket)
    (hne : k ≠ k2) :
    getBucket (modBucket st k f) k2 = getBucket st k2 := by
  unfold getBucket modBucket
  exact modifyIdx_getD_other _ _ _ _ hne

@[simp] theorem decryptAt_buckets_length (ck k : Nat) (st : St) :
    (decryptAt ck k st).buckets.length = st.buckets.length := by
  unfold decryptAt
  simp

theorem getBucket_decryptAt_same {ck k : Nat} {st : St}
    (hk : k < st.buckets.length) :
    getBucket (decryptAt ck k st) k
      = { getBucket st k with array := (getBucket st k).array.map (decryptBlock ck) } := by
  unfold decryptAt
  exact getBucket_modBucket_same _ hk

theorem getBucket_decryptAt_other {ck k k2 : Nat} {st : St} (hne : k ≠ k2) :
    getBucket (decryptAt ck k st) k2 = getBucket st k2 := by
  unfold decryptAt
  exact getBucket_modBucket_other _ hne

/-! ## Monotonicity of the ghost overflow flag -/

@[simp] theorem oread_snd_ovf (h k : Nat) (st : St) : (oread h k st).2.ovf = st.ovf := by
  unfold oread
  split <;> rfl

@[simp] theorem oread_snd_buckets (h k : Nat) (st : St) :
    (oread h k st).2.buckets = st.buckets := by
  unfold oread
  split <;> rfl

@[simp] theorem owrite_ovf (file lid : PyVal) (st : St) :
    (owrite file lid st).ovf
      = (st.ovf || decide (availIdxs (getBucket st 0).array = [])) := rfl

theorem pushChild_ovf_mono {ck c : Nat} {bl : Block} {st1 : St}
    (hst : st1.ovf = true) : (pushChild ck c bl st1).2.ovf = true := by
  unfold pushChild
  apply andThen_snd_pres (P := fun s => s.ovf = true)
  · simp [hst]
  · intro a s hs
    simpa using hs

theorem pushDown_ovf_mono {h ck k i : Nat} {st : St}
    (hst : st.ovf = true) : (pushDown h ck k i st).2.ovf = true := by
  unfold pushDown
  split
  · exact hst
  · split
    · apply andThen_snd_pres (P := fun s => s.ovf = true)
      · simp [hst]
      · intro a s hs
        apply andThen_snd_pres (P := fun s => s.ovf = true)
        · simpa
        · intro b s2 hs2
          simpa
    · split
      · simpa
      · split
        · exact pushChild_ovf_mono (by simpa)
        · split
          · exact pushChild_ovf_mono (by simpa)
          · simpa

theorem flushLevel_ovf_mono {h ck : Nat} {c : FlushChoice} {i : Nat} {st : St}
    (hst : st.ovf = true) : (flushLevel h ck c i st).2.ovf = true := by
  unfold flushLevel
  dsimp only
  apply andThen_snd_pres (P := fun s => s.ovf = true)
  · apply pushDown_ovf_mono
    split <;> simp [hst]
  · intro r1 s1 hs1
    dsimp only
    apply ite_pres (P := fun s => s.ovf = true)
    · apply andThen_snd_pres (P := fun s => s.ovf = true)
      · simpa
      · intro a s hs
        simpa
    · apply ite_pres (P := fun s => s.ovf = true)
      · simpa
      · apply andThen_snd_pres (P := fun s => s.ovf = true)
        · exact pushDown_ovf_mono hs1
        · intro r2 s2 hs2
          apply andThen_snd_pres (P := fun s => s.ovf = true)
          · simpa
          · intro a s3 hs3
            apply ite_pres (P := fun s => s.ovf = true)
            · simpa
            · apply andThen_snd_pres (P := fun s => s.ovf = true)
              · simpa
              · intro b s4 hs4
                simpa

theorem flushGo_ovf_mono {h ck : Nat} {fc : Nat → FlushChoice} {lv : List Nat} {st : St}
    (hst : st.ovf = true) : (flushGo h ck fc lv st).2.ovf = true := by
  induction lv generalizing st with
  | nil => exact hst
  | cons i rest ih =>
    unfold flushGo
    apply andThen_snd_pres (P := fun s => s.ovf = true)
    · exact flushLevel_ovf_mono hst
    · intro l1 s1 hs1
      apply andThen_snd_pres (P := fun s => s.ovf = true)
      · exact ih hs1
      · intro l2 s2 hs2
        exact hs2

theorem flush_ovf_mono {h ck : Nat} {fc : Nat → FlushChoice} {st : St}
    (hst : st.ovf = true) : (flush h ck fc st).2.ovf = true := by
  unfold flush
  apply andThen_snd_pres (P := fun s => s.ovf = true)
  · exact flushGo_ovf_mono hst
  · intro l s hs
    exact hs

theorem scanStep_ovf_mono {ck : Nat} {draws : Nat → Nat} {f : PyStr} {del : Bool}
    {k j : Nat} {req : Option PyStr} {st : St}
    (hst : st.ovf = true) : (scanStep ck draws f del k j req st).2.ovf = true := by
  unfold scanStep
  dsimp only
  rcases hext : extractFile ((getBucket st k).array.getD j default).data with e | ⟨name, d⟩
  · exact hst
  · dsimp only
    by_cases hname : name = f
    · rw [if_pos hname]
      rcases hsig : st.fileToSig f with _ | sg
      · exact hst
      · dsimp only
        by_cases hv : verifySig ck (name ++ ';' :: d) sg = true
        · rw [if_pos hv]
          dsimp only
          simp only [owrite_ovf, assignToLeaf_snd_ovf, Bool.or_eq_true]
          left
          split <;> simpa
        · rw [if_neg hv]
          exact hst
    · rw [if_neg hname]
      exact hst

theorem scanLoop_ovf_mono {ck : Nat} {draws : Nat → Nat} {f : PyStr} {del : Bool}
    {k : Nat} {rem : Nat} : ∀ {j : Nat} {req : Option PyStr} {st : St},
    st.ovf = true → (scanLoop ck draws f del k rem j req st).2.ovf = true := by
  induction rem with
  | zero => intro j req st hst; exact hst
  | succ r ih =>
    intro j req st hst
    unfold scanLoop
    apply andThen_snd_pres (P := fun s => s.ovf = true)
    · exact scanStep_ovf_mono hst
    · intro req1 s1 hs1
      exact ih hs1

theorem readSweep_ovf_mono {h ck : Nat} {draws : Nat → Nat} {f : PyStr} {del : Bool}
    {path : List Nat} : ∀ {req : Option PyStr} {st : St},
    st.ovf = true → (readSweep h ck draws f del path req st).2.ovf = true := by
  induction path with
  | nil => intro req st hst; exact hst
  | cons k ks ih =>
    intro req st hst
    unfold readSweep
    apply andThen_snd_pres (P := fun s => s.ovf = true)
    · simpa
    · intro a s1 hs1
      apply andThen_snd_pres (P := fun s => s.ovf = true)
      · exact scanLoop_ovf_mono (by simpa)
      · intro req1 s3 hs3
        apply andThen_snd_pres (P := fun s => s.ovf = true)
        · simpa
        · intro b s4 hs4
          exact ih hs4

theorem writeSweep_ovf_mono {h ck : Nat} {path : List Nat} : ∀ {st : St},
    st.ovf = true → (writeSweep h ck path st).2.ovf = true := by
  induction path with
  | nil => intro st hst; exact hst
  | cons k ks ih =>
    intro st hst
    unfold writeSweep
    apply andThen_snd_pres (P := fun s => s.ovf = true)
    · simpa
    · intro a s1 hs1
      apply andThen_snd_pres (P := fun s => s.ovf = true)
      · simpa
      · intro b s3 hs3
        exact ih hs3

theorem readOp_ovf_mono {h ck : Nat} {draws : Nat → Nat} {fc : Nat → FlushChoice}
    {f : PyStr} {del : Bool} {st : St}
    (hst : st.ovf = true) : (readOp h ck draws fc f del st).2.ovf = true := by
  unfold readOp
  rcases hfl : getRootPathO h (st.fileToLeaf f) with _ | path
  · exact hst
  · apply andThen_snd_pres (P := fun s => s.ovf = true)
    · exact readSweep_ovf_mono hst
    · intro req s1 hs1
      apply andThen_snd_pres (P := fun s => s.ovf = true)
      · exact flush_ovf_mono hs1
      · intro a s2 hs2
        exact hs2

theorem writeOp_ovf_mono {h ck : Nat} {draws : Nat → Nat} {fc : Nat → FlushChoice}
    {f d : PyStr} {st : St}
    (hst : st.ovf = true) : (writeOp h ck draws fc f d st).2.ovf = true := by
  unfold writeOp
  simp only [assignToLeaf_fst]
  rcases hgp : getRootPath h (draws st.rng) with _ | path
  · simpa
  · apply andThen_snd_pres (P := fun s => s.ovf = true)
    · exact writeSweep_ovf_mono (by simpa)
    · intro a s1 hs1
      apply andThen_snd_pres (P := fun s => s.ovf = true)
      · exact flush_ovf_mono hs1
      · intro b s2 hs2
        apply andThen_snd_pres (P := fun s => s.ovf = true)
        · simpa using hs2
        · intro e s3 hs3
          apply andThen_snd_pres (P := fun s => s.ovf = true)
          · simp [hs3]
          · intro u s4 hs4
            simpa

/-! ## `Good` preservation under crypto sweeps -/

theorem forall_mem_of_forall_getD {α : Type} [Inhabited α] {P : α → Prop} : ∀ {bs : List α},
    (∀ j, j < bs.length → P (bs.getD j default)) → ∀ b, b ∈ bs → P b := by
  intro bs
  induction bs with
  | nil => intro _ b hb; simp at hb
  | cons a t ih =>
    intro hl b hb
    rcases List.mem_cons.mp hb with rfl | hb2
    · exact hl 0 (by simp)
    · exact ih (fun j hj => hl (j + 1) (by simp; omega)) b hb2

/-- `Good` only depends on bucket lengths, block views (`vData`/`vLid`),
coherence, block ids, and the two client maps. -/
theorem Good_congr {h ck : Nat} {E : List Entry} {st st2 : St}
    (hg : Good h ck E st)
    (hlen : st2.buckets.length = st.buckets.length)
    (hbk : ∀ k, k < numNodes h →
      (getBucket st2 k).array.length = (getBucket st k).array.length ∧
      ∀ j, j < Zsize h →
        blockOK ck ((getBucket st2 k).array.getD j default) ∧
        ((getBucket st2 k).array.getD j default).bid
          = ((getBucket st k).array.getD j default).bid ∧
        vData ck ((getBucket st2 k).array.getD j default)
          = vData ck ((getBucket st k).array.getD j default) ∧
        vLid ck ((getBucket st2 k).array.getD j default)
          = vLid ck ((getBucket st k).array.getD j default))
    (hm1 : st2.fileToLeaf = st.fileToLeaf) (hm2 : st2.fileToSig = st.fileToSig) :
    Good h ck E st2 := by
  refine ⟨?_, ?_, ?_, ?_, ?_, ?_, hg.nmd, hg.posd⟩
  · rw [hlen]; exact hg.blen
  · intro k hk; rw [(hbk k hk).1]; exact hg.alen k hk
  · intro k hk j hj; exact ((hbk k hk).2 j hj).1
  · intro k hk j hj
    rw [((hbk k hk).2 j hj).2.1]
    exact hg.bidv k hk j hj
  · intro e he
    obtain ⟨h1, h2, h3, h4, h5, h6, h7, h8, h9⟩ := hg.ent e he
    refine ⟨h1, h2, h3, h4, h5, ?_, ?_, ?_, ?_⟩
    · rw [((hbk e.node h1).2 e.idx h2).2.2.1]; exact h6
    · rw [((hbk e.node h1).2 e.idx h2).2.2.2]; exact h7
    · rw [hm1]; exact h8
    · rw [hm2]; exact h9
  · intro k hk j hj hne
    rw [((hbk k hk).2 j hj).2.2.1]
    exact hg.emp k hk j hj hne

/-- Decrypting any valid bucket preserves `Good` and leaves that bucket
wholly plaintext. -/
theorem Good_decryptAt {h ck : Nat} {E : List Entry} {st : St} {k : Nat}
    (hg : Good h ck E st) (hk : k < numNodes h) :
    Good h ck E (decryptAt ck k st) ∧ PlainAt h (decryptAt ck k st) k := by
  have hkl : k < st.buckets.length := by rw [hg.blen]; exact hk
  have hsame := @getBucket_decryptAt_same ck k st hkl
  constructor
  · apply Good_congr hg (by simp)
    · intro k2 hk2
      by_cases hkk : k = k2
      · subst hkk
        rw [hsame]
        refine ⟨by simp, ?_⟩
        intro j hj
        have hjl : j < (getBucket st k).array.length := by
          rw [hg.alen k hk]; exact hj
        have hmap : ({ getBucket st k with
            array := (getBucket st k).array.map (decryptBlock ck) } : Bucket).array.getD j default
            = decryptBlock ck ((getBucket st k).array.getD j default) := by
          exact map_getD _ _ _ hjl
        obtain ⟨s, n, hv1, hv2, hdec⟩ := decryptBlock_blockOK (hg.bok k hk j hj)
        rw [hmap, hdec]
        refine ⟨Or.inl ⟨s, n, rfl, rfl⟩, rfl, ?_, ?_⟩
        · rw [vData_of_data_str rfl, hv1]
        · rw [vLid_of_lid_int rfl, hv2]
      · rw [getBucket_decryptAt_other hkk]
        exact ⟨rfl, fun j hj => ⟨hg.bok k2 hk2 j hj, rfl, rfl, rfl⟩⟩
    · simp
    · simp
  · intro j hj
    have hjl : j < (getBucket st k).array.length := by
      rw [hg.alen k hk]; exact hj
    rw [hsame]
    have hmap : ({ getBucket st k with
        array := (getBucket st k).array.map (decryptBlock ck) } : Bucket).array.getD j default
        = decryptBlock ck ((getBucket st k).array.getD j default) :=
      map_getD _ _ _ hjl
    rw [hmap]
    obtain ⟨s, n, _, _, hdec⟩ := decryptBlock_blockOK (hg.bok k hk j hj)
    rw [hdec]
    exact ⟨s, n, rfl, rfl⟩

/-- Re-encrypting a wholly plaintext valid bucket succeeds and preserves
`Good`; the bucket ends as the blockwise encryption and every other bucket
is untouched. -/
theorem Good_encryptAt {h ck : Nat} {E : List Entry} {st : St} {k : Nat}
    (hg : Good h ck E st) (hk : k < numNodes h) (hp : PlainAt h st k) :
    encryptAt ck k st
      = (Except.ok (), modBucket st k (fun bk =>
          { bk with array := (getBucket st k).array.map (encBlockP ck) })) ∧
    Good h ck E (encryptAt ck k st).2 := by
  have hkl : k < st.buckets.length := by rw [hg.blen]; exact hk
  have hplain2 : ∀ b, b ∈ (getBucket st k).array → ∃ s, b.data = PyVal.str s := by
    intro b hb
    obtain ⟨s, n, hd, _⟩ := forall_mem_of_forall_getD (P := blockPlain)
      (fun j hj => hp j (by rw [← hg.alen k hk]; exact hj)) b hb
    exact ⟨s, hd⟩
  have henc := @encBlocks_plain ck (getBucket st k).array hplain2
  have heq : encryptAt ck k st
      = (Except.ok (), modBucket st k (fun bk =>
          { bk with array := (getBucket st k).array.map (encBlockP ck) })) := by
    unfold encryptAt
    rw [henc]
    rfl
  refine ⟨heq, ?_⟩
  rw [heq]
  apply Good_congr hg (by simp)
  · intro k2 hk2
    by_cases hkk : k = k2
    · subst hkk
      rw [getBucket_modBucket_same _ hkl]
      refine ⟨by simp, ?_⟩
      intro j hj
      have hjl : j < (getBucket st k).array.length := by
        rw [hg.alen k hk]; exact hj
      have hmap : ({ getBucket st k with
          array := (getBucket st k).array.map (encBlockP ck) } : Bucket).array.getD j default
          = encBlockP ck ((getBucket st k).array.getD j default) :=
        map_getD _ _ _ hjl
      obtain ⟨s, n, hd, hl⟩ := hp j hj
      rw [hmap, encBlockP_plain hd hl]
      refine ⟨Or.inr ⟨s, n, rfl, rfl⟩, rfl, ?_, ?_⟩
      · rw [vData_of_data_enc rfl, vData_of_data_str hd]
      · rw [vLid_of_lid_enc rfl, vLid_of_lid_int hl]
    · rw [getBucket_modBucket_other _ hkk]
      exact ⟨rfl, fun j hj => ⟨hg.bok k2 hk2 j hj, rfl, rfl, rfl⟩⟩
  · simp
  · simp

/-! ## Small structural facts -/

theorem fileStr_ne_empty {e : Entry} (hn : nameOK e.name) : fileStr e ≠ EMPTY_DATA := by
  intro hc
  unfold fileStr EMPTY_DATA at hc
  rcases hname : e.name with _ | ⟨c0, f1⟩
  · rw [hname] at hc
    simp at hc
  · rw [hname] at hc
    rcases f1 with _ | ⟨c1, f2⟩
    · simp at hc
      exact hn.2 (by rw [hname, hc.1])
    · simp at hc
      obtain ⟨h0, h1, _⟩ := hc
      exact hn.1 (by rw [hname, h1]; simp)

theorem child2_lt {h k : Nat} (hk : ¬ numNodes h ≤ 2 * k + 1) : 2 * k + 2 < numNodes h := by
  unfold numNodes at hk ⊢
  have : 2 ^ (h + 1) = 2 * 2 ^ h := by ring
  omega

theorem child1_lt {h k : Nat} (hk : ¬ numNodes h ≤ 2 * k + 1) : 2 * k + 1 < numNodes h := by
  omega

@[simp] theorem getBucket_setOvf (st : St) (b : Bool) (k : Nat) :
    getBucket { st with ovf := b } k = getBucket st k := rfl

theorem Good_setOvf {h ck : Nat} {E : List Entry} {st : St} {b : Bool}
    (hg : Good h ck E st) : Good h ck E { st with ovf := b } :=
  Good_congr hg rfl
    (fun k hk => ⟨rfl, fun j hj => ⟨hg.bok k hk j hj, rfl, rfl, rfl⟩⟩) rfl rfl

theorem PlainAt_of_getBucket_eq {h : Nat} {st st2 : St} {k : Nat}
    (he : getBucket st2 k = getBucket st k) (hp : PlainAt h st k) : PlainAt h st2 k := by
  intro j hj
  rw [he]
  exact hp j hj

/-- Entry positions occupied in `E` are never `EMPTY_DATA`-viewed; hence a
vacant (empty-viewed) slot carries no entry. -/
theorem no_entry_at_empty {h ck : Nat} {E : List Entry} {st : St}
    (hg : Good h ck E st) {k j : Nat}
    (hv : vData ck ((getBucket st k).array.getD j default) = some EMPTY_DATA) :
    ∀ e, e ∈ E → ¬ (e.node = k ∧ e.idx = j) := by
  intro e he ⟨hn, hj⟩
  obtain ⟨_, _, _, _, hnok, hvd, _, _, _⟩ := hg.ent e he
  rw [hn, hj] at hvd
  rw [hvd] at hv
  exact fileStr_ne_empty hnok (by injection hv)

/-! ## `Good` under clearing and inserting an entry block -/

/-- Clearing the block of the distinguished entry `e` removes exactly `e`
from the live entries. -/
theorem Good_clear {h ck : Nat} {Ea Eb : List Entry} {e : Entry} {st : St}
    (hg : Good h ck (Ea ++ e :: Eb) st)
    (hpl : blockPlain ((getBucket st e.node).array.getD e.idx default)) :
    Good h ck (Ea ++ Eb) (modBucket st e.node (fun bk => clearIdx bk e.idx)) ∧
    (∀ k3, k3 ≠ e.node →
      getBucket (modBucket st e.node (fun bk => clearIdx bk e.idx)) k3 = getBucket st k3) ∧
    (PlainAt h st e.node →
      PlainAt h (modBucket st e.node (fun bk => clearIdx bk e.idx)) e.node) := by
  have hme : e ∈ Ea ++ e :: Eb := by simp
  obtain ⟨hkn, hin, hlf, hpt, hnok, hvd, hvl, hm1, hm2⟩ := hg.ent e hme
  have hkl : e.node < st.buckets.length := by rw [hg.blen]; exact hkn
  have hsame := @getBucket_modBucket_same st e.node (fun bk => clearIdx bk e.idx) hkl
  have hlen2 : ∀ j : Nat, (clearIdx (getBucket st e.node) e.idx).array.getD j default
      = if j = e.idx then clearData ((getBucket st e.node).array.getD j default)
        else (getBucket st e.node).array.getD j default := by
    intro j
    unfold clearIdx
    dsimp only
    by_cases hj : j = e.idx
    · subst hj
      rw [if_pos rfl]
      exact modifyIdx_getD_same (getBucket st e.node).array e.idx clearData
        (by rw [hg.alen e.node hkn]; exact hin)
    · rw [if_neg hj]
      exact modifyIdx_getD_other (getBucket st e.node).array e.idx j clearData
        (fun he2 => hj he2.symm)
  have hclear : ∀ j, j < Zsize h →
      blockOK ck ((clearIdx (getBucket st e.node) e.idx).array.getD j default) ∧
      ((clearIdx (getBucket st e.node) e.idx).array.getD j default).bid
        = ((getBucket st e.node).array.getD j default).bid ∧
      vLid ck ((clearIdx (getBucket st e.node) e.idx).array.getD j default)
        = vLid ck ((getBucket st e.node).array.getD j default) := by
    intro j hj
    rw [hlen2 j]
    by_cases hje : j = e.idx
    · subst hje
      rw [if_pos rfl]
      obtain ⟨s, n, hd, hl⟩ := hpl
      exact ⟨Or.inl ⟨EMPTY_DATA, n, rfl, hl⟩, rfl, rfl⟩
    · rw [if_neg hje]
      exact ⟨hg.bok e.node hkn j hj, rfl, rfl⟩
  have hposd := hg.posd
  rw [List.pairwise_append] at hposd
  have hcons := hposd.2.1
  rw [List.pairwise_cons] at hcons
  have hothers : ∀ e2, e2 ∈ Ea ++ Eb → ¬ (e2.node = e.node ∧ e2.idx = e.idx) := by
    intro e2 he2 ⟨ha, hb⟩
    rcases List.mem_append.mp he2 with h2 | h2
    · exact hposd.2.2 e2 h2 e (by simp) (by rw [Prod.mk.injEq]; exact ⟨ha, hb⟩)
    · exact hcons.1 e2 h2 (by rw [Prod.mk.injEq]; exact ⟨ha.symm, hb.symm⟩)
  refine ⟨?_, ?_, ?_⟩
  · refine ⟨by simpa using hg.blen, ?_, ?_, ?_, ?_, ?_, ?_, ?_⟩
    · intro k hk
      by_cases hkk : k = e.node
      · subst hkk
        rw [hsame]
        unfold clearIdx
        simpa using hg.alen e.node hk
      · rw [getBucket_modBucket_other _ (fun hx => hkk hx.symm)]
        exact hg.alen k hk
    · intro k hk j hj
      by_cases hkk : k = e.node
      · subst hkk
        rw [hsame]
        exact (hclear j hj).1
      · rw [getBucket_modBucket_other _ (fun hx => hkk hx.symm)]
        exact hg.bok k hk j hj
    · intro k hk j hj
      by_cases hkk : k = e.node
      · subst hkk
        rw [hsame]
        rw [(hclear j hj).2.1]
        exact hg.bidv e.node hk j hj
      · rw [getBucket_modBucket_other _ (fun hx => hkk hx.symm)]
        exact hg.bidv k hk j hj
    · intro e2 he2
      have he2full : e2 ∈ Ea ++ e :: Eb := by
        rcases List.mem_append.mp he2 with h2 | h2
        · exact List.mem_append.mpr (Or.inl h2)
        · exact List.mem_append.mpr (Or.inr (by simp [h2]))
      obtain ⟨g1, g2, g3, g4, g5, g6, g7, g8, g9⟩ := hg.ent e2 he2full
      have hne2 := hothers e2 he2
      refine ⟨g1, g2, g3, g4, g5, ?_, ?_, by simpa using g8, by simpa using g9⟩
      · by_cases hkk : e2.node = e.node
        · rw [hkk, hsame, hlen2 e2.idx, if_neg (fun hx => hne2 ⟨hkk, hx⟩)]
          rw [hkk] at g6
          exact g6
        · rw [getBucket_modBucket_other _ (fun hx => hkk hx.symm)]
          exact g6
      · by_cases hkk : e2.node = e.node
        · rw [hkk, hsame, hlen2 e2.idx, if_neg (fun hx => hne2 ⟨hkk, hx⟩)]
          rw [hkk] at g7
          exact g7
        · rw [getBucket_modBucket_other _ (fun hx => hkk hx.symm)]
          exact g7
    · intro k hk j hj hno
      by_cases hkk : k = e.node
      · subst hkk
        rw [hsame, hlen2 j]
        by_cases hje : j = e.idx
        · rw [if_pos hje]
          obtain ⟨s, n, hd, hl⟩ := hpl
          unfold clearData vData
          rfl
        · rw [if_neg hje]
          apply hg.emp e.node hk j hj
          intro e2 he2 ⟨ha, hb⟩
          rcases List.mem_append.mp he2 with h2 | h2
          · exact hno e2 (List.mem_append.mpr (Or.inl h2)) ⟨ha, hb⟩
          · rcases List.mem_cons.mp h2 with rfl | h3
            · exact hje hb.symm
            · exact hno e2 (List.mem_append.mpr (Or.inr h3)) ⟨ha, hb⟩
      · rw [getBucket_modBucket_other _ (fun hx => hkk hx.symm)]
        apply hg.emp k hk j hj
        intro e2 he2 hq
        rcases List.mem_append.mp he2 with h2 | h2
        · exact hno e2 (List.mem_append.mpr (Or.inl h2)) hq
        · rcases List.mem_cons.mp h2 with rfl | h3
          · exact hkk (hq.1.symm)
          · exact hno e2 (List.mem_append.mpr (Or.inr h3)) hq
    · have := hg.nmd
      rw [List.pairwise_append] at this ⊢
      rw [List.pairwise_cons] at this
      exact ⟨this.1, this.2.1.2, fun a ha b hb => this.2.2 a ha b (by simp [hb])⟩
    · rw [List.pairwise_append]
      exact ⟨hposd.1, hcons.2, fun a ha b hb => hposd.2.2 a ha b (by simp [hb])⟩
  · intro k3 hk3
    exact getBucket_modBucket_other _ (fun hx => hk3 hx.symm)
  · intro hpAll j hj
    rw [hsame, hlen2 j]
    by_cases hje : j = e.idx
    · rw [if_pos hje]
      obtain ⟨s, n, hd, hl⟩ := hpAll j hj
      exact ⟨EMPTY_DATA, n, rfl, by unfold clearData; simpa using hl⟩
    · rw [if_neg hje]
      exact hpAll j hj

theorem blockIsEmpty_iff {b : Block} :
    blockIsEmpty b = true ↔ b.data = PyVal.str EMPTY_DATA := by
  unfold blockIsEmpty
  exact decide_eq_true_iff

/-- Writing a fresh file block into the lowest vacant slot of a decrypted
valid bucket adds exactly that entry. -/
theorem Good_insert {h ck : Nat} {E : List Entry} {st : St} {c jv : Nat} {tl : List Nat}
    {f dat : PyStr} {lf : Nat}
    (hg : Good h ck E st) (hc : c < numNodes h) (hp : PlainAt h st c)
    (hav : availIdxs (getBucket st c).array = jv :: tl)
    (hnok : nameOK f) (hlf : isLeafKey h lf) (hpath : c ∈ rootPath lf)
    (hm1 : st.fileToLeaf f = some lf)
    (hm2 : st.fileToSig f = some (Bytes.sig ck (f ++ ';' :: dat)))
    (hnew : ∀ e, e ∈ E → e.name ≠ f) :
    Good h ck (⟨f, dat, lf, c, jv⟩ :: E)
      (modBucket st c (fun bk => writeData bk (PyVal.str (f ++ ';' :: dat)) (PyVal.int lf))) ∧
    PlainAt h (modBucket st c
      (fun bk => writeData bk (PyVal.str (f ++ ';' :: dat)) (PyVal.int lf))) c ∧
    ∀ k3, k3 ≠ c → getBucket (modBucket st c
      (fun bk => writeData bk (PyVal.str (f ++ ';' :: dat)) (PyVal.int lf))) k3
      = getBucket st k3 := by
  have hkl : c < st.buckets.length := by rw [hg.blen]; exact hc
  have hsame : getBucket (modBucket st c
        (fun bk => writeData bk (PyVal.str (f ++ ';' :: dat)) (PyVal.int lf))) c
      = writeData (getBucket st c) (PyVal.str (f ++ ';' :: dat)) (PyVal.int lf) :=
    @getBucket_modBucket_same st c
      (fun bk => writeData bk (PyVal.str (f ++ ';' :: dat)) (PyVal.int lf)) hkl
  have hhead : (availIdxs (getBucket st c).array).head? = some jv := by
    rw [hav]
    rfl
  obtain ⟨hempty, hjl, _⟩ := availIdxs_head hhead
  have hjv : jv < Zsize h := by rw [← hg.alen c hc]; exact hjl
  have hemptyd : ((getBucket st c).array.getD jv default).data = PyVal.str EMPTY_DATA :=
    blockIsEmpty_iff.mp hempty
  have hwd := @writeData_vacant (getBucket st c)
    (PyVal.str (f ++ ';' :: dat)) (PyVal.int lf) jv tl hav
  have hgd : ∀ j : Nat,
      (writeData (getBucket st c) (PyVal.str (f ++ ';' :: dat)) (PyVal.int lf)).array.getD j default
      = if j = jv then { (getBucket st c).array.getD j default with
          data := PyVal.str (f ++ ';' :: dat), leafId := PyVal.int lf }
        else (getBucket st c).array.getD j default := by
    intro j
    rw [hwd]
    dsimp only
    by_cases hj : j = jv
    · subst hj
      rw [if_pos rfl]
      exact modifyIdx_getD_same (getBucket st c).array j _ hjl
    · rw [if_neg hj]
      exact modifyIdx_getD_other (getBucket st c).array jv j _ (fun he2 => hj he2.symm)
  have hnoent : ∀ e, e ∈ E → ¬ (e.node = c ∧ e.idx = jv) :=
    no_entry_at_empty hg (vData_of_data_str hemptyd)
  refine ⟨?_, ?_, ?_⟩
  · refine ⟨by simpa using hg.blen, ?_, ?_, ?_, ?_, ?_, ?_, ?_⟩
    · intro k hk
      by_cases hkk : k = c
      · subst hkk
        rw [hsame, hwd]
        simpa using hg.alen k hk
      · rw [getBucket_modBucket_other _ (fun hx => hkk hx.symm)]
        exact hg.alen k hk
    · intro k hk j hj
      by_cases hkk : k = c
      · subst hkk
        rw [hsame, hgd j]
        by_cases hje : j = jv
        · rw [if_pos hje]
          exact Or.inl ⟨f ++ ';' :: dat, lf, rfl, rfl⟩
        · rw [if_neg hje]
          exact hg.bok k hk j hj
      · rw [getBucket_modBucket_other _ (fun hx => hkk hx.symm)]
        exact hg.bok k hk j hj
    · intro k hk j hj
      by_cases hkk : k = c
      · subst hkk
        rw [hsame, hgd j]
        by_cases hje : j = jv
        · rw [if_pos hje]
          simpa using hg.bidv k hk j hj
        · rw [if_neg hje]
          exact hg.bidv k hk j hj
      · rw [getBucket_modBucket_other _ (fun hx => hkk hx.symm)]
        exact hg.bidv k hk j hj
    · intro e2 he2
      rcases List.mem_cons.mp he2 with rfl | h2
      · refine ⟨hc, hjv, hlf, hpath, hnok, ?_, ?_, hm1, hm2⟩
        · rw [hsame, hgd jv, if_pos rfl]
          exact vData_of_data_str rfl
        · rw [hsame, hgd jv, if_pos rfl]
          exact vLid_of_lid_int rfl
      · obtain ⟨g1, g2, g3, g4, g5, g6, g7, g8, g9⟩ := hg.ent e2 h2
        refine ⟨g1, g2, g3, g4, g5, ?_, ?_, g8, g9⟩
        · by_cases hkk : e2.node = c
          · rw [hkk, hsame, hgd e2.idx,
              if_neg (fun hx => hnoent e2 h2 ⟨hkk, hx⟩)]
            rw [hkk] at g6
            exact g6
          · rw [getBucket_modBucket_other _ (fun hx => hkk hx.symm)]
            exact g6
        · by_cases hkk : e2.node = c
          · rw [hkk, hsame, hgd e2.idx,
              if_neg (fun hx => hnoent e2 h2 ⟨hkk, hx⟩)]
            rw [hkk] at g7
            exact g7
          · rw [getBucket_modBucket_other _ (fun hx => hkk hx.symm)]
            exact g7
    · intro k hk j hj hno
      by_cases hkk : k = c
      · subst hkk
        rw [hsame, hgd j]
        by_cases hje : j = jv
        · exact absurd ⟨rfl, hje.symm⟩ (hno ⟨f, dat, lf, k, jv⟩ (by simp))
        · rw [if_neg hje]
          apply hg.emp k hk j hj
          intro e2 he2 hq
          exact hno e2 (by simp [he2]) hq
      · rw [getBucket_modBucket_other _ (fun hx => hkk hx.symm)]
        apply hg.emp k hk j hj
        intro e2 he2 hq
        exact hno e2 (by simp [he2]) hq
    · rw [List.pairwise_cons]
      exact ⟨fun e2 he2 hq => hnew e2 he2 hq.symm, hg.nmd⟩
    · rw [List.pairwise_cons]
      refine ⟨?_, hg.posd⟩
      intro e2 he2 hq
      exact hnoent e2 he2 ⟨(Prod.mk.injEq _ _ _ _ ▸ hq).1.symm, (Prod.mk.injEq _ _ _ _ ▸ hq).2.symm⟩
  · intro j hj
    rw [hsame, hgd j]
    by_cases hje : j = jv
    · rw [if_pos hje]
      exact ⟨f ++ ';' :: dat, lf, rfl, rfl⟩
    · rw [if_neg hje]
      exact hp j hj
  · intro k3 hk3
    exact getBucket_modBucket_other _ (fun hx => hk3 hx.symm)

/-- The non-empty push of `_push_down` into the on-path child: the entry
(already cleared from its old position) reappears at the child's lowest
vacant slot. -/
theorem pushChild_Good {h ck : Nat} {E1 : List Entry} {st1 : St} {c : Nat} {bl : Block}
    {fnm dat : PyStr} {lf : Nat}
    (hg : Good h ck E1 st1) (hc : c < numNodes h)
    (hd : bl.data = PyVal.str (fnm ++ ';' :: dat)) (hl : bl.leafId = PyVal.int lf)
    (hnok : nameOK fnm) (hlf : isLeafKey h lf) (hpath : c ∈ rootPath lf)
    (hm1 : st1.fileToLeaf fnm = some lf)
    (hm2 : st1.fileToSig fnm = some (Bytes.sig ck (fnm ++ ';' :: dat)))
    (hnew : ∀ e, e ∈ E1 → e.name ≠ fnm)
    {res : Except Err (Option PyVal)} {st2 : St}
    (hrun : pushChild ck c bl st1 = (res, st2)) (hovf2 : st2.ovf = false) :
    res = Except.ok none ∧
    st2.fileToLeaf = st1.fileToLeaf ∧ st2.fileToSig = st1.fileToSig ∧
    st2.rng = st1.rng ∧ st2.fcnt = st1.fcnt ∧ st2.trace = st1.trace ∧
    (∀ k3, k3 ≠ c → getBucket st2 k3 = getBucket st1 k3) ∧
    ∃ jv, Good h ck (⟨fnm, dat, lf, c, jv⟩ :: E1) st2 := by
  obtain ⟨hgd, hpc⟩ := @Good_decryptAt h ck E1 st1 c hg hc
  unfold pushChild at hrun
  rw [hd, hl] at hrun
  dsimp only at hrun
  rcases hav : availIdxs (getBucket (decryptAt ck c st1) c).array with _ | ⟨jv, tl⟩
  · exfalso
    rw [hav] at hrun
    have h2 := congrArg (fun q : Except Err (Option PyVal) × St => q.2.ovf) hrun
    dsimp only at h2
    have hov : st2.ovf = true := by
      rw [← h2]
      exact andThen_snd_pres (P := fun s => s.ovf = true) (by simp)
        (fun a s hs => by simpa using hs)
    rw [hovf2] at hov
    simp at hov
  · rw [hav] at hrun
    have hone : ((decryptAt ck c st1).ovf || decide ((jv :: tl : List Nat) = [])) 
        = (decryptAt ck c st1).ovf := by
      simp
    rw [hone] at hrun
    obtain ⟨hgI, hpI, hothersI⟩ := @Good_insert h ck E1 (decryptAt ck c st1) c jv tl fnm dat lf
      hgd hc hpc hav hnok hlf hpath (by simpa using hm1) (by simpa using hm2)
      (fun e he => hnew e he)
    have hgS := Good_setOvf (b := (decryptAt ck c st1).ovf) hgI
    have hpS : PlainAt h { modBucket (decryptAt ck c st1) c
        (fun bk => writeData bk (PyVal.str (fnm ++ ';' :: dat)) (PyVal.int lf)) with
        ovf := (decryptAt ck c st1).ovf } c :=
      PlainAt_of_getBucket_eq (by rfl) hpI
    obtain ⟨heq, hgE⟩ := Good_encryptAt hgS hc hpS
    rw [heq, andThen_pair_ok] at hrun
    have hres : res = Except.ok none := by
      have := congrArg Prod.fst hrun
      simpa using this.symm
    have hst2 := congrArg Prod.snd hrun
    simp only at hst2
    refine ⟨hres, ?_, ?_, ?_, ?_, ?_, ?_, ⟨jv, ?_⟩⟩
    · rw [← hst2]; rfl
    · rw [← hst2]; rfl
    · rw [← hst2]; rfl
    · rw [← hst2]; rfl
    · rw [← hst2]; rfl
    · intro k3 hk3
      rw [← hst2]
      rw [getBucket_modBucket_other _ (fun hx => hk3 hx.symm)]
      rw [getBucket_setOvf]
      rw [getBucket_modBucket_other _ (fun hx => hk3 hx.symm)]
      exact getBucket_decryptAt_other (fun hx => hk3 hx.symm)
    · rw [← hst2]
      rw [heq] at hgE
      exact hgE

/-- The `leaf_to_path` lookup succeeds on every leaf key. -/
theorem getRootPath_isLeafKey {h l : Nat} (hl : isLeafKey h l) :
    getRootPath h l = some (rootPath l) := by
  unfold getRootPath
  rw [if_pos hl]

/-- Names pairwise distinct along `Ea ++ e :: Eb` make every other entry
differ from `e` in name. -/
theorem names_ne_of_middle {Ea Eb : List Entry} {e : Entry}
    (hpw : (Ea ++ e :: Eb).Pairwise (fun e1 e2 => e1.name ≠ e2.name)) :
    ∀ x, x ∈ Ea ++ Eb → x.name ≠ e.name := by
  rw [List.pairwise_append] at hpw
  obtain ⟨hA, hB, hAB⟩ := hpw
  intro x hx
  rcases List.mem_append.mp hx with hxa | hxb
  · exact hAB x hxa e (List.mem_cons_self e Eb)
  · exact (List.rel_of_pairwise_cons hB hxb).symm

/-- `Good_encryptAt` packaged for sequencing: names the result state and
records the untouched components. -/
theorem Good_encryptAt_run {h ck : Nat} {E : List Entry} {st : St} {k : Nat}
    (hg : Good h ck E st) (hk : k < numNodes h) (hp : PlainAt h st k) :
    ∃ st2, encryptAt ck k st = (Except.ok (), st2) ∧ Good h ck E st2 ∧
      (∀ k3, k3 ≠ k → getBucket st2 k3 = getBucket st k3) ∧
      st2.fileToLeaf = st.fileToLeaf ∧ st2.fileToSig = st.fileToSig ∧
      st2.rng = st.rng ∧ st2.fcnt = st.fcnt ∧ st2.ovf = st.ovf ∧
      st2.trace = st.trace := by
  obtain ⟨heq, hge⟩ := Good_encryptAt hg hk hp
  rw [heq] at hge
  exact ⟨modBucket st k (fun bk =>
      { bk with array := (getBucket st k).array.map (encBlockP ck) }),
    heq, hge, fun k3 hk3 => getBucket_modBucket_other _ (fun hx => hk3 hx.symm),
    rfl, rfl, rfl, rfl, rfl, rfl⟩

/-- `_push_down` under the invariant, on a block of a decrypted bucket, with
no overflow: it succeeds, the client maps and all buckets other than the
node and its children are untouched, the node stays plaintext, and the live
files are preserved up to block positions. -/
theorem pushDown_Good {h ck : Nat} {E1 : List Entry} {st1 : St} {k i : Nat}
    (hg : Good h ck E1 st1) (hk : k < numNodes h) (hi : i < Zsize h)
    (hp : PlainAt h st1 k)
    {res : Except Err (Option PyVal)} {st2 : St}
    (hrun : pushDown h ck k i st1 = (res, st2)) (hovf2 : st2.ovf = false) :
    (∃ r, res = Except.ok r) ∧
    st2.fileToLeaf = st1.fileToLeaf ∧ st2.fileToSig = st1.fileToSig ∧
    st2.rng = st1.rng ∧ st2.fcnt = st1.fcnt ∧
    (∀ k3, k3 ≠ k → k3 ≠ 2 * k + 1 → k3 ≠ 2 * k + 2 → getBucket st2 k3 = getBucket st1 k3) ∧
    PlainAt h st2 k ∧
    ∃ E2, Good h ck E2 st2 ∧ entriesMatch E1 E2 := by
  unfold pushDown at hrun
  by_cases hleaf : numNodes h ≤ 2 * k + 1
  · rw [if_pos hleaf] at hrun
    have hres := congrArg Prod.fst hrun
    have hst := congrArg Prod.snd hrun
    simp only at hres hst
    subst hst
    exact ⟨⟨_, hres.symm⟩, rfl, rfl, rfl, rfl, fun _ _ _ _ => rfl, hp,
      E1, hg, List.Perm.refl _⟩
  · rw [if_neg hleaf] at hrun
    have hc1 : 2 * k + 1 < numNodes h := child1_lt hleaf
    have hc2 : 2 * k + 2 < numNodes h := child2_lt hleaf
    by_cases hemp : ((getBucket st1 k).array.getD i default).data = PyVal.str EMPTY_DATA
    · rw [if_pos hemp] at hrun
      obtain ⟨hgd1, hpl1⟩ := Good_decryptAt hg hc1
      obtain ⟨hgd2, hpl2⟩ := Good_decryptAt hgd1 hc2
      have hpl1b : PlainAt h (decryptAt ck (2 * k + 2) (decryptAt ck (2 * k + 1) st1))
          (2 * k + 1) :=
        PlainAt_of_getBucket_eq (getBucket_decryptAt_other (by omega)) hpl1
      obtain ⟨sa, heq1, hga, hoth1, hfl1, hfs1, hrg1, hfc1, hov1, htr1⟩ :=
        Good_encryptAt_run hgd2 hc1 hpl1b
      rw [heq1] at hrun
      simp only [andThen_pair_ok] at hrun
      have hpl2b : PlainAt h sa (2 * k + 2) :=
        PlainAt_of_getBucket_eq (hoth1 _ (by omega)) hpl2
      obtain ⟨sb, heq2, hgb, hoth2, hfl2, hfs2, hrg2, hfc2, hov2, htr2⟩ :=
        Good_encryptAt_run hga hc2 hpl2b
      rw [heq2] at hrun
      simp only [andThen_pair_ok] at hrun
      have hres := congrArg Prod.fst hrun
      have hst := congrArg Prod.snd hrun
      simp only at hres hst
      subst hst
      have hunt : ∀ k3, k3 ≠ 2 * k + 1 → k3 ≠ 2 * k + 2 →
          getBucket sb k3 = getBucket st1 k3 := by
        intro k3 hk31 hk32
        rw [hoth2 k3 hk32, hoth1 k3 hk31,
          getBucket_decryptAt_other (fun hx => hk32 hx.symm),
          getBucket_decryptAt_other (fun hx => hk31 hx.symm)]
      refine ⟨⟨_, hres.symm⟩, ?_, ?_, ?_, ?_, fun k3 _ h1 h2 => hunt k3 h1 h2, ?_,
        E1, hgb, List.Perm.refl _⟩
      · rw [hfl2, hfl1]; simp
      · rw [hfs2, hfs1]; simp
      · rw [hrg2, hrg1]; simp
      · rw [hfc2, hfc1]; simp
      · exact PlainAt_of_getBucket_eq
          (hunt k (by omega) (by omega)) hp
    · rw [if_neg hemp] at hrun
      by_cases hex : ∃ e, e ∈ E1 ∧ e.node = k ∧ e.idx = i
      · obtain ⟨e, he, hnode, hidx⟩ := hex
        obtain ⟨Ea, Eb, hE⟩ := List.append_of_mem he
        obtain ⟨hkn, hin, hlf, hpt, hnok, hvd, hvl, hm1, hm2⟩ := hg.ent e he
        obtain ⟨s, n, hds, hln⟩ := hp i hi
        rw [hnode, hidx] at hvd hvl
        have hs : s = fileStr e := by
          rw [vData_of_data_str hds] at hvd
          exact Option.some.inj hvd
        have hn : n = e.leaf := by
          rw [vLid_of_lid_int hln] at hvl
          exact Option.some.inj hvl
        have hsc : getRootPathP h ((getBucket st1 k).array.getD i default).leafId
            = some (rootPath e.leaf) := by
          rw [hln, hn]
          simp only [getRootPathP]
          exact getRootPath_isLeafKey hlf
        have hkne : k ≠ e.leaf := fun hq => hleaf (by rw [hq]; exact hlf.1)
        have hkp : k ∈ rootPath e.leaf := by rw [← hnode]; exact hpt
        have hchild := child_mem_rootPath hkp hkne
        split at hrun
        · rename_i hnone
          rw [hsc] at hnone
          cases hnone
        · rename_i path hpatheq
          rw [hsc] at hpatheq
          have hpa := Option.some.inj hpatheq
          subst hpa
          have hstep : ∃ c, c < numNodes h ∧ (c = 2 * k + 1 ∨ c = 2 * k + 2) ∧
              c ∈ rootPath e.leaf ∧
              pushChild ck c ((getBucket st1 k).array.getD i default)
                (modBucket st1 k (fun bk => clearIdx bk i)) = (res, st2) := by
            rcases hchild with h1 | h2
            · rw [if_pos h1] at hrun
              exact ⟨2 * k + 1, hc1, Or.inl rfl, h1, hrun⟩
            · rw [if_neg (fun hq => not_both_children_mem hq h2), if_pos h2] at hrun
              exact ⟨2 * k + 2, hc2, Or.inr rfl, h2, hrun⟩
          obtain ⟨c, hcn, hcor, hcp, hrunc⟩ := hstep
          rw [hE] at hg
          have hplb : blockPlain ((getBucket st1 e.node).array.getD e.idx default) := by
            rw [hnode, hidx]
            exact ⟨s, n, hds, hln⟩
          obtain ⟨hgc, hothc, hplc⟩ := Good_clear hg hplb
          rw [hnode, hidx] at hgc hothc hplc
          have hdd : ((getBucket st1 k).array.getD i default).data
              = PyVal.str (e.name ++ ';' :: e.dat) := by
            rw [hds, hs]; rfl
          have hll : ((getBucket st1 k).array.getD i default).leafId
              = PyVal.int e.leaf := by
            rw [hln, hn]
          obtain ⟨hres, hmfl, hmfs, hmrg, hmfc, _, hoth2, jv, hgf⟩ :=
            pushChild_Good hgc hcn hdd hll hnok hlf hcp
              (by simpa using hm1) (by simpa using hm2)
              (names_ne_of_middle hg.nmd) hrunc hovf2
          refine ⟨⟨_, hres⟩, ?_, ?_, ?_, ?_, ?_, ?_,
            ⟨e.name, e.dat, e.leaf, c, jv⟩ :: (Ea ++ Eb), hgf, ?_⟩
          · rw [hmfl]; rfl
          · rw [hmfs]; rfl
          · rw [hmrg]; rfl
          · rw [hmfc]; rfl
          · intro k3 hk3 hk31 hk32
            have hk3c : k3 ≠ c := by
              rcases hcor with hq | hq <;> rw [hq] <;> assumption
            rw [hoth2 k3 hk3c, hothc k3 hk3]
          · have hknec : k ≠ c := by
              rcases hcor with hq | hq <;> omega
            exact PlainAt_of_getBucket_eq (hoth2 k hknec) (hplc hp)
          · unfold entriesMatch
            rw [hE]
            simp only [List.map_append, List.map_cons]
            exact List.perm_middle
      · exfalso
        have hempd := hg.emp k hk i hi (fun e he hc => hex ⟨e, he, hc⟩)
        obtain ⟨s, n, hds, hln⟩ := hp i hi
        rw [vData_of_data_str hds] at hempd
        exact hemp (by rw [hds, Option.some.inj hempd])

/-- Positional block ids `k*Z + j` with `j < Z` are injective in `(k, j)`. -/
theorem mulZ_add_inj {Z a b x y : Nat} (hx : x < Z) (hy : y < Z)
    (he : a * Z + x = b * Z + y) : a = b ∧ x = y := by
  have hZ : 0 < Z := by omega
  have hda : (a * Z + x) / Z = a := by
    rw [Nat.add_comm, Nat.add_mul_div_right _ _ hZ, Nat.div_eq_of_lt hx, Nat.zero_add]
  have hdb : (b * Z + y) / Z = b := by
    rw [Nat.add_comm, Nat.add_mul_div_right _ _ hZ, Nat.div_eq_of_lt hy, Nat.zero_add]
  have hma : (a * Z + x) % Z = x := by
    rw [Nat.add_comm, Nat.add_mul_mod_self_right, Nat.mod_eq_of_lt hx]
  have hmb : (b * Z + y) % Z = y := by
    rw [Nat.add_comm, Nat.add_mul_mod_self_right, Nat.mod_eq_of_lt hy]
  constructor
  · rw [← hda, ← hdb, he]
  · rw [← hma, ← hmb, he]

/-- Reading the overflow flag backwards through `andThen`: if the final flag
is clear and the continuation can only raise it, the flag was clear after
the first step. -/
theorem andThen_ovf_rev {α β : Type} {p : Except Err α × St}
    {f : α → St → Except Err β × St} {res : Except Err β} {stf : St}
    (hrun : andThen p f = (res, stf)) (hovf : stf.ovf = false)
    (hf : ∀ a st, st.ovf = true → ((f a st).2).ovf = true) : p.2.ovf = false := by
  cases hc : p.2.ovf
  · rfl
  · exfalso
    rcases andThen_cases p f with ⟨e, _, h2⟩ | ⟨a, _, h2⟩
    · rw [h2] at hrun
      have h3 := congrArg Prod.snd hrun
      simp only at h3
      rw [h3] at hc
      rw [hovf] at hc
      cases hc
    · rw [h2] at hrun
      have h3 := hf a p.2 hc
      rw [hrun] at h3
      rw [hovf] at h3
      cases h3

theorem entriesMatch_trans {E1 E2 E3 : List Entry}
    (h1 : entriesMatch E1 E2) (h2 : entriesMatch E2 E3) : entriesMatch E1 E3 :=
  List.Perm.trans h1 h2

/-- One level iteration of `flush` under the invariant, with no overflow
anywhere: it succeeds, preserves the client maps and counters, and permutes
the live files among the blocks. -/
theorem flushLevel_Good {h ck : Nat} {E1 : List Entry} {c : FlushChoice} {i : Nat} {st : St}
    (hg : Good h ck E1 st) (hih : i ≤ h)
    {res : Except Err (List PyVal)} {stf : St}
    (hrun : flushLevel h ck c i st = (res, stf)) (hovf2 : stf.ovf = false) :
    (∃ r, res = Except.ok r) ∧
    stf.fileToLeaf = st.fileToLeaf ∧ stf.fileToSig = st.fileToSig ∧
    stf.rng = st.rng ∧ stf.fcnt = st.fcnt ∧
    ∃ E2, Good h ck E2 stf ∧ entriesMatch E1 E2 := by
  unfold flushLevel at hrun
  dsimp only at hrun
  set k1 := 2 ^ i - 1 + c.n1 % 2 ^ i with hk1def
  set k2 := 2 ^ i - 1 + c.n2 % 2 ^ i with hk2def
  set sd := if k1 = k2 then decryptAt ck k1 st else decryptAt ck k2 (decryptAt ck k1 st)
    with hsddef
  set j1 := c.b1 % (getBucket sd k1).array.length with hj1def
  set j2 := c.b2 % (getBucket sd k2).array.length with hj2def
  have hA : 0 < 2 ^ i := by positivity
  have hAB : 2 ^ (i + 1) ≤ 2 ^ (h + 1) := Nat.pow_le_pow_right (by omega) (by omega)
  have hAA : 2 ^ (i + 1) = 2 * 2 ^ i := by ring
  have hmm1 : c.n1 % 2 ^ i < 2 ^ i := Nat.mod_lt _ hA
  have hmm2 : c.n2 % 2 ^ i < 2 ^ i := Nat.mod_lt _ hA
  have hnum : numNodes h = 2 ^ (h + 1) - 1 := rfl
  have hk1n : k1 < numNodes h := by omega
  have hk2n : k2 < numNodes h := by omega
  have h12a : k2 ≠ 2 * k1 + 1 := by omega
  have h12b : k2 ≠ 2 * k1 + 2 := by omega
  have h21a : k1 ≠ 2 * k2 + 1 := by omega
  have h21b : k1 ≠ 2 * k2 + 2 := by omega
  have hgsd : Good h ck E1 sd := by
    rw [hsddef]
    split
    · exact (Good_decryptAt hg hk1n).1
    · exact (Good_decryptAt (Good_decryptAt hg hk1n).1 hk2n).1
  have hpl1 : PlainAt h sd k1 := by
    rw [hsddef]
    split
    · exact (Good_decryptAt hg hk1n).2
    · rename_i hne
      exact PlainAt_of_getBucket_eq (getBucket_decryptAt_other (fun hx => hne hx.symm))
        (Good_decryptAt hg hk1n).2
  have hpl2 : PlainAt h sd k2 := by
    rw [hsddef]
    split
    · rename_i heq
      rw [← heq]
      exact (Good_decryptAt hg hk1n).2
    · exact (Good_decryptAt (Good_decryptAt hg hk1n).1 hk2n).2
  have hj1z : j1 < Zsize h := by
    rw [hj1def, hgsd.alen k1 hk1n]
    exact Nat.mod_lt _ (by unfold Zsize; omega)
  have hj2z : j2 < Zsize h := by
    rw [hj2def, hgsd.alen k2 hk2n]
    exact Nat.mod_lt _ (by unfold Zsize; omega)
  have hsdfl : sd.fileToLeaf = st.fileToLeaf := by rw [hsddef]; split <;> simp
  have hsdfs : sd.fileToSig = st.fileToSig := by rw [hsddef]; split <;> simp
  have hsdrg : sd.rng = st.rng := by rw [hsddef]; split <;> simp
  have hsdfc : sd.fcnt = st.fcnt := by rw [hsddef]; split <;> simp
  rcases hq1 : pushDown h ck k1 j1 sd with ⟨r1, st3⟩
  rw [hq1] at hrun
  rcases r1 with e1 | r1
  · rw [andThen_pair_error] at hrun
    have h3 := congrArg Prod.snd hrun
    simp only at h3
    have hovf3 : st3.ovf = false := by rw [h3]; exact hovf2
    obtain ⟨⟨r, hr⟩, _⟩ := pushDown_Good hgsd hk1n hj1z hpl1 hq1 hovf3
    cases hr
  · simp only [andThen_pair_ok] at hrun
    by_cases hsame : k1 = k2 ∧ j1 = j2
    · rw [if_pos hsame] at hrun
      have hovf3 : st3.ovf = false := by
        have hx := andThen_ovf_rev hrun hovf2 (fun a s hs => by simpa using hs)
        simpa using hx
      obtain ⟨_, hfl3, hfs3, hrg3, hfc3, _, hpl3, E2, hg3, hmt⟩ :=
        pushDown_Good hgsd hk1n hj1z hpl1 hq1 hovf3
      obtain ⟨s4, heq4, hg4, _, hfl4, hfs4, hrg4, hfc4, _, _⟩ :=
        Good_encryptAt_run hg3 hk1n hpl3
      rw [heq4] at hrun
      simp only [andThen_pair_ok] at hrun
      have h3 := congrArg Prod.snd hrun
      have h4 := congrArg Prod.fst hrun
      simp only at h3 h4
      subst h3
      exact ⟨⟨_, h4.symm⟩, by rw [hfl4, hfl3, hsdfl], by rw [hfs4, hfs3, hsdfs],
        by rw [hrg4, hrg3, hsdrg], by rw [hfc4, hfc3, hsdfc], E2, hg4, hmt⟩
    · rw [if_neg hsame] at hrun
      by_cases hbid : ((getBucket st3 k1).array.getD j1 default).bid
          = ((getBucket st3 k2).array.getD j2 default).bid
      · rw [if_pos hbid] at hrun
        exfalso
        have h3 := congrArg Prod.snd hrun
        simp only at h3
        have hovf3 : st3.ovf = false := by rw [h3]; exact hovf2
        obtain ⟨_, _, _, _, _, _, _, E2, hg3, _⟩ :=
          pushDown_Good hgsd hk1n hj1z hpl1 hq1 hovf3
        have hb1 := hg3.bidv k1 hk1n j1 hj1z
        have hb2 := hg3.bidv k2 hk2n j2 hj2z
        rw [hb1, hb2] at hbid
        exact hsame (mulZ_add_inj hj1z hj2z hbid)
      · rw [if_neg hbid] at hrun
        rcases hq2 : pushDown h ck k2 j2 st3 with ⟨r2, st4⟩
        rw [hq2] at hrun
        rcases r2 with e2 | r2
        · rw [andThen_pair_error] at hrun
          have h3 := congrArg Prod.snd hrun
          simp only at h3
          have hovf4 : st4.ovf = false := by rw [h3]; exact hovf2
          have hovf3 : st3.ovf = false := by
            cases hcs : st3.ovf
            · rfl
            · exfalso
              have hx : (pushDown h ck k2 j2 st3).2.ovf = true := pushDown_ovf_mono hcs
              rw [hq2] at hx
              simp only at hx
              rw [hovf4] at hx
              cases hx
          obtain ⟨_, _, _, _, _, hunt3, hpl3, E2, hg3, _⟩ :=
            pushDown_Good hgsd hk1n hj1z hpl1 hq1 hovf3
          have hplk2 : PlainAt h st3 k2 := by
            by_cases hq : k1 = k2
            · rw [← hq]; exact hpl3
            · exact PlainAt_of_getBucket_eq
                (hunt3 k2 (fun hx => hq hx.symm) h12a h12b) hpl2
          obtain ⟨⟨r, hr⟩, _⟩ := pushDown_Good hg3 hk2n hj2z hplk2 hq2 hovf4
          cases hr
        · simp only [andThen_pair_ok] at hrun
          have hovf4 : st4.ovf = false := by
            have hx := andThen_ovf_rev hrun hovf2 (fun a s hs => by
              split
              · simpa using hs
              · apply andThen_snd_pres (P := fun s2 => s2.ovf = true)
                · simpa using hs
                · intro b s6 h6
                  simpa using h6)
            simpa using hx
          have hovf3 : st3.ovf = false := by
            cases hcs : st3.ovf
            · rfl
            · exfalso
              have hx : (pushDown h ck k2 j2 st3).2.ovf = true := pushDown_ovf_mono hcs
              rw [hq2] at hx
              simp only at hx
              rw [hovf4] at hx
              cases hx
          obtain ⟨_, hfl3, hfs3, hrg3, hfc3, hunt3, hpl3, E2, hg3, hmt3⟩ :=
            pushDown_Good hgsd hk1n hj1z hpl1 hq1 hovf3
          have hplk2 : PlainAt h st3 k2 := by
            by_cases hq : k1 = k2
            · rw [← hq]; exact hpl3
            · exact PlainAt_of_getBucket_eq
                (hunt3 k2 (fun hx => hq hx.symm) h12a h12b) hpl2
          obtain ⟨_, hfl4, hfs4, hrg4, hfc4, hunt4, hpl4, E3, hg4, hmt4⟩ :=
            pushDown_Good hg3 hk2n hj2z hplk2 hq2 hovf4
          have hplk1 : PlainAt h st4 k1 := by
            by_cases hq : k1 = k2
            · rw [hq]; exact hpl4
            · exact PlainAt_of_getBucket_eq (hunt4 k1 hq h21a h21b) hpl3
          obtain ⟨s5, heq5, hg5, hoth5, hfl5, hfs5, hrg5, hfc5, _, _⟩ :=
            Good_encryptAt_run hg4 hk1n hplk1
          rw [heq5] at hrun
          simp only [andThen_pair_ok] at hrun
          by_cases hq : k1 = k2
          · rw [if_pos hq] at hrun
            have h3 := congrArg Prod.snd hrun
            have h4 := congrArg Prod.fst hrun
            simp only at h3 h4
            subst h3
            exact ⟨⟨_, h4.symm⟩,
              by rw [hfl5, hfl4, hfl3, hsdfl], by rw [hfs5, hfs4, hfs3, hsdfs],
              by rw [hrg5, hrg4, hrg3, hsdrg], by rw [hfc5, hfc4, hfc3, hsdfc],
              E3, hg5, entriesMatch_trans hmt3 hmt4⟩
          · rw [if_neg hq] at hrun
            have hplk2b : PlainAt h s5 k2 :=
              PlainAt_of_getBucket_eq (hoth5 k2 (fun hx => hq hx.symm)) hpl4
            obtain ⟨s6, heq6, hg6, _, hfl6, hfs6, hrg6, hfc6, _, _⟩ :=
              Good_encryptAt_run hg5 hk2n hplk2b
            rw [heq6] at hrun
            simp only [andThen_pair_ok] at hrun
            have h3 := congrArg Prod.snd hrun
            have h4 := congrArg Prod.fst hrun
            simp only at h3 h4
            subst h3
            exact ⟨⟨_, h4.symm⟩,
              by rw [hfl6, hfl5, hfl4, hfl3, hsdfl],
              by rw [hfs6, hfs5, hfs4, hfs3, hsdfs],
              by rw [hrg6, hrg5, hrg4, hrg3, hsdrg],
              by rw [hfc6, hfc5, hfc4, hfc3, hsdfc],
              E3, hg6, entriesMatch_trans hmt3 hmt4⟩

theorem Good_setFcnt {h ck : Nat} {E : List Entry} {st : St} {m : Nat}
    (hg : Good h ck E st) : Good h ck E { st with fcnt := m } :=
  Good_congr hg rfl
    (fun k hk => ⟨rfl, fun j hj => ⟨hg.bok k hk j hj, rfl, rfl, rfl⟩⟩) rfl rfl

/-- The level loop of `flush` under the invariant with no overflow. -/
theorem flushGo_Good {h ck : Nat} {fc : Nat → FlushChoice} {lv : List Nat} :
    ∀ {E1 : List Entry} {st : St} {res : Except Err (List PyVal)} {stf : St},
    Good h ck E1 st → (∀ i, i ∈ lv → i ≤ h) →
    flushGo h ck fc lv st = (res, stf) → stf.ovf = false →
    (∃ r, res = Except.ok r) ∧
    stf.fileToLeaf = st.fileToLeaf ∧ stf.fileToSig = st.fileToSig ∧
    stf.rng = st.rng ∧
    ∃ E2, Good h ck E2 stf ∧ entriesMatch E1 E2 := by
  induction lv with
  | nil =>
    intro E1 st res stf hg _ hrun hovf
    unfold flushGo at hrun
    have h3 := congrArg Prod.snd hrun
    have h4 := congrArg Prod.fst hrun
    simp only at h3 h4
    subst h3
    exact ⟨⟨_, h4.symm⟩, rfl, rfl, rfl, E1, hg, List.Perm.refl _⟩
  | cons i rest ih =>
    intro E1 st res stf hg hlv hrun hovf
    unfold flushGo at hrun
    rcases hq1 : flushLevel h ck (fc st.fcnt) i { st with fcnt := st.fcnt + 1 }
      with ⟨r1, st1⟩
    rw [hq1] at hrun
    rcases r1 with e1 | r1
    · rw [andThen_pair_error] at hrun
      have h3 := congrArg Prod.snd hrun
      simp only at h3
      have hovf1 : st1.ovf = false := by rw [h3]; exact hovf
      obtain ⟨⟨r, hr⟩, _⟩ := flushLevel_Good (Good_setFcnt hg) (hlv i (by simp)) hq1 hovf1
      cases hr
    · simp only [andThen_pair_ok] at hrun
      rcases hq2 : flushGo h ck fc rest st1 with ⟨r2, st2⟩
      rw [hq2] at hrun
      rcases r2 with e2 | r2
      · rw [andThen_pair_error] at hrun
        have h3 := congrArg Prod.snd hrun
        simp only at h3
        have hovf2 : st2.ovf = false := by rw [h3]; exact hovf
        have hovf1 : st1.ovf = false := by
          cases hcs : st1.ovf
          · rfl
          · exfalso
            have hx : (flushGo h ck fc rest st1).2.ovf = true := flushGo_ovf_mono hcs
            rw [hq2] at hx
            simp only at hx
            rw [hovf2] at hx
            cases hx
        obtain ⟨_, _, _, _, _, E2, hg1, _⟩ :=
          flushLevel_Good (Good_setFcnt hg) (hlv i (by simp)) hq1 hovf1
        obtain ⟨⟨r, hr⟩, _⟩ := ih hg1 (fun j hj => hlv j (by simp [hj])) hq2 hovf2
        cases hr
      · simp only [andThen_pair_ok] at hrun
        have h3 := congrArg Prod.snd hrun
        have h4 := congrArg Prod.fst hrun
        simp only at h3 h4
        subst h3
        have hovf1 : st1.ovf = false := by
          cases hcs : st1.ovf
          · rfl
          · exfalso
            have hx : (flushGo h ck fc rest st1).2.ovf = true := flushGo_ovf_mono hcs
            rw [hq2] at hx
            simp only at hx
            rw [hovf] at hx
            cases hx
        obtain ⟨_, hfl1, hfs1, hrg1, _, E2, hg1, hmt1⟩ :=
          flushLevel_Good (Good_setFcnt hg) (hlv i (by simp)) hq1 hovf1
        obtain ⟨_, hfl2, hfs2, hrg2, E3, hg2, hmt2⟩ :=
          ih hg1 (fun j hj => hlv j (by simp [hj])) hq2 hovf
        exact ⟨⟨_, h4.symm⟩, by rw [hfl2, hfl1], by rw [hfs2, hfs1],
          by rw [hrg2, hrg1], E3, hg2, entriesMatch_trans hmt1 hmt2⟩

/-- `Client.flush` under the invariant with no overflow: it succeeds,
preserves the client maps and rng counter, and permutes the live files. -/
theorem flush_Good {h ck : Nat} {fc : Nat → FlushChoice} {E1 : List Entry} {st : St}
    {res : Except Err (Option (List PyVal))} {stf : St}
    (hg : Good h ck E1 st)
    (hrun : flush h ck fc st = (res, stf)) (hovf : stf.ovf = false) :
    (∃ r, res = Except.ok r) ∧
    stf.fileToLeaf = st.fileToLeaf ∧ stf.fileToSig = st.fileToSig ∧
    stf.rng = st.rng ∧
    ∃ E2, Good h ck E2 stf ∧ entriesMatch E1 E2 := by
  unfold flush at hrun
  rcases hq1 : flushGo h ck fc (List.range (h + 1)) st with ⟨r1, st1⟩
  rw [hq1] at hrun
  rcases r1 with e1 | r1
  · rw [andThen_pair_error] at hrun
    have h3 := congrArg Prod.snd hrun
    simp only at h3
    have hovf1 : st1.ovf = false := by rw [h3]; exact hovf
    obtain ⟨⟨r, hr⟩, _⟩ := flushGo_Good hg
      (fun i hi => by simp at hi; omega) hq1 hovf1
    cases hr
  · simp only [andThen_pair_ok] at hrun
    have h3 := congrArg Prod.snd hrun
    have h4 := congrArg Prod.fst hrun
    simp only at h3 h4
    subst h3
    obtain ⟨_, hfl1, hfs1, hrg1, E2, hg1, hmt1⟩ := flushGo_Good hg
      (fun i hi => by simp at hi; omega) hq1 hovf
    exact ⟨⟨_, h4.symm⟩, hfl1, hfs1, hrg1, E2, hg1, hmt1⟩

theorem updF_same {α : Type} (m : PyStr → Option α) (k : PyStr) (v : α) :
    updF m k v k = some v := by
  unfold updF
  rw [if_pos rfl]

theorem updF_ne {α : Type} {m : PyStr → Option α} {k : PyStr} {v : α} {x : PyStr}
    (hx : x ≠ k) : updF m k v x = m x := by
  unfold updF
  rw [if_neg hx]

/-- `Good` only reads the buckets and the two map rows of each entry. -/
theorem Good_maps {h ck : Nat} {E : List Entry} {st2 st : St} (hg : Good h ck E st)
    (hb : st2.buckets = st.buckets)
    (hfl : ∀ e, e ∈ E → st2.fileToLeaf e.name = st.fileToLeaf e.name)
    (hfs : ∀ e, e ∈ E → st2.fileToSig e.name = st.fileToSig e.name) :
    Good h ck E st2 := by
  have hgb : ∀ k, getBucket st2 k = getBucket st k := by
    intro k
    unfold getBucket
    rw [hb]
  refine ⟨?_, ?_, ?_, ?_, ?_, ?_, hg.nmd, hg.posd⟩
  · rw [hb, hg.blen]
  · intro k hk
    rw [hgb]
    exact hg.alen k hk
  · intro k hk j hj
    rw [hgb]
    exact hg.bok k hk j hj
  · intro k hk j hj
    rw [hgb]
    exact hg.bidv k hk j hj
  · intro e he
    obtain ⟨h1, h2, h3, h4, h5, h6, h7, h8, h9⟩ := hg.ent e he
    exact ⟨h1, h2, h3, h4, h5, by rw [hgb]; exact h6, by rw [hgb]; exact h7,
      by rw [hfl e he]; exact h8, by rw [hfs e he]; exact h9⟩
  · intro k hk j hj hno
    rw [hgb]
    exact hg.emp k hk j hj hno

/-- Matching entry lists carry the same names. -/
theorem entriesMatch_names {E1 E2 : List Entry} (hm : entriesMatch E1 E2) :
    ∀ e2, e2 ∈ E2 → ∃ e1, e1 ∈ E1 ∧ e1.name = e2.name := by
  intro e2 he2
  have h2 : (e2.name, e2.dat) ∈ E2.map (fun e => (e.name, e.dat)) :=
    List.mem_map_of_mem _ he2
  have h1 := (List.Perm.mem_iff hm).mpr h2
  obtain ⟨e1, he1, hq⟩ := List.mem_map.mp h1
  refine ⟨e1, he1, ?_⟩
  have := congrArg (fun p : PyStr × PyStr => p.1) hq
  simpa using this

/-- Matching entry lists carry the same files. -/
theorem entriesMatch_mem {E1 E2 : List Entry} (hm : entriesMatch E1 E2)
    {e1 : Entry} (he1 : e1 ∈ E1) :
    ∃ e2, e2 ∈ E2 ∧ e2.name = e1.name ∧ e2.dat = e1.dat := by
  have h1 : (e1.name, e1.dat) ∈ E1.map (fun e => (e.name, e.dat)) :=
    List.mem_map_of_mem _ he1
  have h2 := (List.Perm.mem_iff hm).mp h1
  obtain ⟨e2, he2, hq⟩ := List.mem_map.mp h2
  refine ⟨e2, he2, ?_, ?_⟩
  · have := congrArg (fun p : PyStr × PyStr => p.1) hq
    simpa using this
  · have := congrArg (fun p : PyStr × PyStr => p.2) hq
    simpa using this

/-- `_encrypt_bucket` succeeds on a wholly plaintext bucket, blockwise. -/
theorem encryptAt_plain {ck k : Nat} {st : St} {Z : Nat}
    (hlen : (getBucket st k).array.length = Z)
    (hp : ∀ j, j < Z → blockPlain ((getBucket st k).array.getD j default)) :
    encryptAt ck k st
      = (Except.ok (), modBucket st k (fun bk =>
          { bk with array := (getBucket st k).array.map (encBlockP ck) })) := by
  have hplain2 : ∀ b, b ∈ (getBucket st k).array → ∃ s, b.data = PyVal.str s := by
    intro b hb
    obtain ⟨s, n, hd, _⟩ := forall_mem_of_forall_getD
      (fun j hj => hp j (by rw [← hlen]; exact hj)) b hb
    exact ⟨s, hd⟩
  have henc := @encBlocks_plain ck (getBucket st k).array hplain2
  unfold encryptAt
  rw [henc]
  rfl

/-- `Client.write`'s dummy path sweep keeps the invariant, the maps, the
entry list and the overflow flag, and never raises. -/
theorem writeSweep_Good {h ck : Nat} {path : List Nat} :
    ∀ {E1 : List Entry} {st : St} {res : Except Err Unit} {stf : St},
    Good h ck E1 st → (∀ k, k ∈ path → k < numNodes h) →
    writeSweep h ck path st = (res, stf) →
    res = Except.ok () ∧ Good h ck E1 stf ∧
    stf.fileToLeaf = st.fileToLeaf ∧ stf.fileToSig = st.fileToSig ∧
    stf.rng = st.rng ∧ stf.ovf = st.ovf := by
  induction path with
  | nil =>
    intro E1 st res stf hg _ hrun
    unfold writeSweep at hrun
    have h3 := congrArg Prod.snd hrun
    have h4 := congrArg Prod.fst hrun
    simp only at h3 h4
    subst h3
    exact ⟨h4.symm, hg, rfl, rfl, rfl, rfl⟩
  | cons k ks ih =>
    intro E1 st res stf hg hpath hrun
    unfold writeSweep at hrun
    have hkn : k < numNodes h := hpath k (by simp)
    have hor : oread h k st = (Except.ok (), { st with trace := st.trace ++ [Ev.oreadE k] }) := by
      unfold oread
      rw [if_pos hkn]
    rw [hor] at hrun
    simp only [andThen_pair_ok] at hrun
    have hgT : Good h ck E1 { st with trace := st.trace ++ [Ev.oreadE k] } :=
      Good_maps hg rfl (fun _ _ => rfl) (fun _ _ => rfl)
    obtain ⟨hgd, hpl⟩ := Good_decryptAt hgT hkn
    obtain ⟨s3, heq3, hg3, _, hfl3, hfs3, hrg3, _, hov3, _⟩ := Good_encryptAt_run hgd hkn hpl
    rw [heq3] at hrun
    simp only [andThen_pair_ok] at hrun
    obtain ⟨hres, hgf, hfl, hfs, hrg, hov⟩ := ih hg3 (fun j hj => hpath j (by simp [hj])) hrun
    refine ⟨hres, hgf, ?_, ?_, ?_, ?_⟩
    · rw [hfl, hfl3]; simp
    · rw [hfs, hfs3]; simp
    · rw [hrg, hrg3]; simp
    · rw [hov, hov3]; simp

/-- `Client.write` under the invariant with no overflow: it succeeds and adds
the written file, assigned to the drawn leaf, to the live entries. -/
theorem writeOp_Good {h ck : Nat} {draws : Nat → Nat} {fc : Nat → FlushChoice}
    {f d : PyStr} {E1 : List Entry} {st : St}
    (hg : Good h ck E1 st) (hdraws : ∀ n, isLeafKey h (draws n))
    (hnok : nameOK f) (hnew : ∀ e, e ∈ E1 → e.name ≠ f)
    {res : Except Err Unit} {stf : St}
    (hrun : writeOp h ck draws fc f d st = (res, stf)) (hovf : stf.ovf = false) :
    res = Except.ok () ∧
    ∃ jv E2m, Good h ck (Entry.mk f d (draws st.rng) 0 jv :: E2m) stf ∧
      entriesMatch E1 E2m := by
  unfold writeOp at hrun
  dsimp only at hrun
  rw [assignToLeaf_snd] at hrun
  simp only [assignToLeaf_fst] at hrun
  split at hrun
  · rename_i hnone
    rw [getRootPath_isLeafKey (hdraws st.rng)] at hnone
    cases hnone
  · rename_i path hpatheq
    rw [getRootPath_isLeafKey (hdraws st.rng)] at hpatheq
    have hpa := Option.some.inj hpatheq
    subst hpa
    have hgStar : Good h ck E1
        { st with
          rng := st.rng + 1
          fileToLeaf := updF st.fileToLeaf f (draws st.rng) } :=
      Good_maps hg rfl (fun e he => updF_ne (hnew e he)) (fun _ _ => rfl)
    have hpltn : ∀ k, k ∈ rootPath (draws st.rng) → k < numNodes h := by
      intro k hk
      exact Nat.lt_of_le_of_lt (mem_rootPath_le hk) (hdraws st.rng).2
    rcases hq1 : writeSweep h ck (rootPath (draws st.rng))
        { st with
          rng := st.rng + 1
          fileToLeaf := updF st.fileToLeaf f (draws st.rng) } with ⟨r1, st2⟩
    obtain ⟨hr1, hg2, hfl2, hfs2, hrg2, hov2⟩ := writeSweep_Good hgStar hpltn hq1
    rw [hr1] at hq1
    rw [hq1] at hrun
    simp only [andThen_pair_ok] at hrun
    rcases hq2 : flush h ck fc st2 with ⟨r2, st3⟩
    rw [hq2] at hrun
    rcases r2 with e2 | r2
    · rw [andThen_pair_error] at hrun
      have h3 := congrArg Prod.snd hrun
      simp only at h3
      have hovf3 : st3.ovf = false := by rw [h3]; exact hovf
      obtain ⟨⟨r, hr⟩, _⟩ := flush_Good hg2 hq2 hovf3
      cases hr
    · simp only [andThen_pair_ok] at hrun
      have hovf3 : st3.ovf = false := by
        cases hcs : st3.ovf
        · rfl
        · exfalso
          have hx := andThen_ovf_rev hrun hovf (fun a s hs => by
            apply andThen_snd_pres (P := fun s2 => s2.ovf = true)
            · simp [hs]
            · intro b s7 h7
              simpa using h7)
          simp only [oread_snd_ovf] at hx
          rw [hcs] at hx
          cases hx
      obtain ⟨_, hfl3, hfs3, _, E2, hg3, hmt3⟩ := flush_Good hg2 hq2 hovf3
      have hor : oread h 0 st3
          = (Except.ok (), { st3 with trace := st3.trace ++ [Ev.oreadE 0] }) := by
        unfold oread
        rw [if_pos (numNodes_pos h)]
      rw [hor] at hrun
      simp only [andThen_pair_ok] at hrun
      have hgO : Good h ck E2 { st3 with trace := st3.trace ++ [Ev.oreadE 0] } :=
        Good_maps hg3 rfl (fun _ _ => rfl) (fun _ _ => rfl)
      obtain ⟨hg5, hp5⟩ := Good_decryptAt hgO (numNodes_pos h)
      have hx := andThen_ovf_rev hrun hovf (fun a s hs => by simpa using hs)
      rw [encryptAt_snd_ovf, owrite_ovf] at hx
      have hfull := (Bool.or_eq_false_iff.mp hx).2
      rcases hcav : availIdxs (getBucket (decryptAt ck 0
          { st3 with trace := st3.trace ++ [Ev.oreadE 0] }) 0).array with _ | ⟨jv, tl⟩
      · rw [hcav] at hfull
        simp at hfull
      · have hnamesE2 : ∀ e, e ∈ E2 → e.name ≠ f := by
          intro e he
          obtain ⟨e1, he1, hnm⟩ := entriesMatch_names hmt3 e he
          rw [← hnm]
          exact hnew e1 he1
        have hgP : Good h ck E2 (signFile ck f (f ++ ';' :: d)
            (decryptAt ck 0 { st3 with trace := st3.trace ++ [Ev.oreadE 0] })) :=
          Good_maps hg5 rfl (fun _ _ => rfl)
            (fun e he => updF_ne (hnamesE2 e he))
        have hm1P : (signFile ck f (f ++ ';' :: d)
            (decryptAt ck 0 { st3 with trace := st3.trace ++ [Ev.oreadE 0] })).fileToLeaf f
            = some (draws st.rng) := by
          show (decryptAt ck 0
            { st3 with trace := st3.trace ++ [Ev.oreadE 0] }).fileToLeaf f = _
          rw [decryptAt_fileToLeaf]
          show st3.fileToLeaf f = _
          rw [hfl3, hfl2]
          show updF st.fileToLeaf f (draws st.rng) f = _
          exact updF_same _ _ _
        have hm2P : (signFile ck f (f ++ ';' :: d)
            (decryptAt ck 0 { st3 with trace := st3.trace ++ [Ev.oreadE 0] })).fileToSig f
            = some (Bytes.sig ck (f ++ ';' :: d)) := by
          show updF (decryptAt ck 0
            { st3 with trace := st3.trace ++ [Ev.oreadE 0] }).fileToSig f
            (Bytes.sig ck (f ++ ';' :: d)) f = _
          exact updF_same _ _ _
        obtain ⟨hgI, hpI, _⟩ := @Good_insert h ck E2
          (signFile ck f (f ++ ';' :: d)
            (decryptAt ck 0 { st3 with trace := st3.trace ++ [Ev.oreadE 0] }))
          0 jv tl f d (draws st.rng)
          hgP (numNodes_pos h) hp5 hcav hnok (hdraws st.rng)
          (zero_mem_rootPath (draws st.rng)) hm1P hm2P hnamesE2
        have heq6 := @encryptAt_plain ck 0
          (owrite (PyVal.str (f ++ ';' :: d)) (PyVal.int (draws st.rng))
            (decryptAt ck 0 { st3 with trace := st3.trace ++ [Ev.oreadE 0] }))
          (Zsize h) (hgI.alen 0 (numNodes_pos h)) hpI
        rw [heq6] at hrun
        simp only [andThen_pair_ok] at hrun
        have h3 := congrArg Prod.snd hrun
        have h4 := congrArg Prod.fst hrun
        simp only at h3 h4
        subst h3
        obtain ⟨heqP, hgP2⟩ := Good_encryptAt hgI (numNodes_pos h) hpI
        rw [heqP] at hgP2
        exact ⟨h4.symm, jv, E2,
          Good_maps hgP2 rfl (fun _ _ => rfl) (fun _ _ => rfl), hmt3⟩

/-- `str.find(';')` on `"<g>;<d>"` with `';' ∉ g` finds position `|g|`. -/
theorem findSemi_concat {g : PyStr} (hg : ';' ∉ g) (d : PyStr) :
    findSemi (g ++ ';' :: d) = some g.length := by
  induction g with
  | nil => simp [findSemi]
  | cons c0 cs ih =>
    simp only [List.mem_cons, not_or] at hg
    show findSemi (c0 :: (cs ++ ';' :: d)) = _
    unfold findSemi
    rw [if_neg (fun hx => hg.1 hx.symm), ih hg.2]
    rfl

/-- `_extract_file` splits `"<g>;<d>"` at the first separator. -/
theorem extractFile_concat {g : PyStr} (hg : ';' ∉ g) (d : PyStr) :
    extractFile (PyVal.str (g ++ ';' :: d)) = Except.ok (g, d) := by
  have ht : (g ++ ';' :: d).take g.length = g := List.take_left g (';' :: d)
  have hd : (g ++ ';' :: d).drop (g.length + 1) = d := by
    have h1 : g ++ ';' :: d = (g ++ [';']) ++ d := by simp
    have h2 : g.length + 1 = (g ++ [';']).length := by simp
    rw [h1, h2]
    exact List.drop_left _ _
  simp only [extractFile, findSemi_concat hg, ht, hd]

/-- Under the invariant a plaintext block is its entry payload or empty. -/
theorem block_content {h ck : Nat} {E : List Entry} {st : St} {k j : Nat}
    (hg : Good h ck E st) (hk : k < numNodes h) (hj : j < Zsize h)
    (hp : PlainAt h st k) :
    (∃ e, e ∈ E ∧ e.node = k ∧ e.idx = j ∧
      ((getBucket st k).array.getD j default).data = PyVal.str (fileStr e)) ∨
    (((getBucket st k).array.getD j default).data = PyVal.str EMPTY_DATA ∧
      ∀ e, e ∈ E → ¬ (e.node = k ∧ e.idx = j)) := by
  by_cases hex : ∃ e, e ∈ E ∧ e.node = k ∧ e.idx = j
  · obtain ⟨e, he, hn, hi⟩ := hex
    left
    obtain ⟨s, n, hds, _⟩ := hp j hj
    obtain ⟨_, _, _, _, _, hvd, _, _, _⟩ := hg.ent e he
    rw [hn, hi] at hvd
    rw [vData_of_data_str hds] at hvd
    exact ⟨e, he, hn, hi, by rw [hds, Option.some.inj hvd]⟩
  · right
    have hno : ∀ e, e ∈ E → ¬ (e.node = k ∧ e.idx = j) :=
      fun e he hc => hex ⟨e, he, hc.1, hc.2⟩
    have hempd := hg.emp k hk j hj hno
    obtain ⟨s, n, hds, _⟩ := hp j hj
    rw [vData_of_data_str hds] at hempd
    exact ⟨by rw [hds, Option.some.inj hempd], hno⟩

/-- A block whose parsed name differs from the requested filename leaves
`read`'s inner loop body as a no-op. -/
theorem scanStep_skip {ck : Nat} {draws : Nat → Nat} {f : PyStr} {del : Bool}
    {k j : Nat} {req : Option PyStr} {st : St} {g dd : PyStr}
    (hdata : ((getBucket st k).array.getD j default).data = PyVal.str (g ++ ';' :: dd))
    (hgs : ';' ∉ g) (hne : g ≠ f) :
    scanStep ck draws f del k j req st = (Except.ok req, st) := by
  unfold scanStep
  dsimp only
  split
  · rename_i e heq
    rw [hdata, extractFile_concat hgs] at heq
    cases heq
  · rename_i name dd2 heq
    rw [hdata, extractFile_concat hgs] at heq
    have hh := Except.ok.inj heq
    have hg1 : g = name := congrArg Prod.fst hh
    rw [← hg1]
    rw [if_neg hne]

/-- `read`'s inner loop body at the unique block holding the requested
file, at the root, with the delete flag clear and no overflow: the data is
captured, the block cleared, the file re-signed, re-assigned to the next
drawn leaf and re-inserted at the lowest vacant root slot, which is not
beyond the cleared one. -/
theorem scanStep_hit {h ck : Nat} {draws : Nat → Nat} {f : PyStr}
    {Ea Eb : List Entry} {e : Entry} {st : St} {req : Option PyStr}
    (hg : Good h ck (Ea ++ e :: Eb) st)
    (hname : e.name = f) (hnode : e.node = 0)
    (hdraws : ∀ n, isLeafKey h (draws n))
    (hp : PlainAt h st 0)
    {res : Except Err (Option PyStr)} {st2 : St}
    (hrun : scanStep ck draws f false 0 e.idx req st = (res, st2))
    (hovf2 : st2.ovf = false) :
    res = Except.ok (some e.dat) ∧
    ∃ jv, jv ≤ e.idx ∧
      Good h ck (Entry.mk f e.dat (draws st.rng) 0 jv :: (Ea ++ Eb)) st2 ∧
      PlainAt h st2 0 ∧
      (∀ k3, k3 ≠ 0 → getBucket st2 k3 = getBucket st k3) := by
  have hme : e ∈ Ea ++ e :: Eb := by simp
  obtain ⟨hkn, hin, hlf, hpt, hnokE, hvd, hvl, hm1, hm2⟩ := hg.ent e hme
  have hnokf : nameOK f := hname ▸ hnokE
  rw [hnode] at hvd hvl
  obtain ⟨s, n, hds, hln⟩ := hp e.idx hin
  have hs : s = fileStr e := by
    rw [vData_of_data_str hds] at hvd
    exact Option.some.inj hvd
  have hdd : ((getBucket st 0).array.getD e.idx default).data
      = PyVal.str (f ++ ';' :: e.dat) := by
    rw [hds, hs]
    unfold fileStr
    rw [hname]
  have hsemi : ';' ∉ f := hnokf.1
  unfold scanStep at hrun
  dsimp only at hrun
  split at hrun
  · rename_i e0 heq
    rw [hdd, extractFile_concat hsemi] at heq
    cases heq
  · rename_i name dd heq
    rw [hdd, extractFile_concat hsemi] at heq
    have hh := Except.ok.inj heq
    have hn1 : f = name := congrArg Prod.fst hh
    have hn2 : e.dat = dd := congrArg Prod.snd hh
    rw [← hn1, ← hn2] at hrun
    rw [if_pos rfl] at hrun
    rw [hname] at hm2
    split at hrun
    · rename_i hnone
      rw [hm2] at hnone
      cases hnone
    · rename_i sg hsg
      rw [hm2] at hsg
      have hsg2 := Option.some.inj hsg
      rw [← hsg2] at hrun
      have hver : verifySig ck (f ++ ';' :: e.dat) (Bytes.sig ck (fileStr e)) = true := by
        unfold verifySig
        have hfp : fileStr e = f ++ ';' :: e.dat := by
          unfold fileStr
          rw [hname]
        rw [hfp]
        simp
      rw [if_pos hver] at hrun
      have hff : ¬ (false = true) := by simp
      rw [if_neg hff, if_neg hff] at hrun
      have hres := congrArg Prod.fst hrun
      have hst := congrArg Prod.snd hrun
      simp only at hres hst
      subst hst
      refine ⟨hres.symm, ?_⟩
      have hplb : blockPlain ((getBucket st e.node).array.getD e.idx default) := by
        rw [hnode]
        exact ⟨s, n, hds, hln⟩
      obtain ⟨hgc, hothc, hplc⟩ := Good_clear hg hplb
      rw [hnode] at hgc hothc hplc
      have hnames : ∀ x, x ∈ Ea ++ Eb → x.name ≠ f := by
        intro x hx
        rw [← hname]
        exact names_ne_of_middle hg.nmd x hx
      have hgB : Good h ck (Ea ++ Eb) (signFile ck f (f ++ ';' :: e.dat)
          (modBucket st 0 (fun bk => clearIdx bk e.idx))) :=
        Good_maps hgc rfl (fun _ _ => rfl) (fun x hx => updF_ne (hnames x hx))
      have hgP : Good h ck (Ea ++ Eb) (assignToLeaf draws f (signFile ck f (f ++ ';' :: e.dat)
          (modBucket st 0 (fun bk => clearIdx bk e.idx)))).2 := by
        rw [assignToLeaf_snd]
        exact Good_maps hgB rfl (fun x hx => updF_ne (hnames x hx)) (fun _ _ => rfl)
      have hpP : PlainAt h (assignToLeaf draws f (signFile ck f (f ++ ';' :: e.dat)
          (modBucket st 0 (fun bk => clearIdx bk e.idx)))).2 0 :=
        PlainAt_of_getBucket_eq rfl (hplc hp)
      rw [owrite_ovf] at hovf2
      have hfull := (Bool.or_eq_false_iff.mp hovf2).2
      rcases hcav : availIdxs (getBucket (assignToLeaf draws f
          (signFile ck f (f ++ ';' :: e.dat)
            (modBucket st 0 (fun bk => clearIdx bk e.idx)))).2 0).array with _ | ⟨jv, tl⟩
      · rw [hcav] at hfull
        simp at hfull
      · have hhead : (availIdxs (getBucket (assignToLeaf draws f
            (signFile ck f (f ++ ';' :: e.dat)
              (modBucket st 0 (fun bk => clearIdx bk e.idx)))).2 0).array).head?
            = some jv := by
          rw [hcav]
          rfl
        obtain ⟨hemp1, hjl, hmin⟩ := availIdxs_head hhead
        have hidxlen : e.idx < (getBucket st 0).array.length := by
          rw [hg.alen 0 (numNodes_pos h)]
          exact hin
        have hempj : blockIsEmpty ((getBucket (assignToLeaf draws f
            (signFile ck f (f ++ ';' :: e.dat)
              (modBucket st 0 (fun bk => clearIdx bk e.idx)))).2 0).array.getD
            e.idx default) = true := by
          have hb0 : getBucket (assignToLeaf draws f (signFile ck f (f ++ ';' :: e.dat)
              (modBucket st 0 (fun bk => clearIdx bk e.idx)))).2 0
              = clearIdx (getBucket st 0) e.idx := by
            have hkl : (0 : Nat) < st.buckets.length := by
              rw [hg.blen]
              exact numNodes_pos h
            exact @getBucket_modBucket_same st 0 (fun bk => clearIdx bk e.idx) hkl
          rw [hb0]
          unfold clearIdx blockIsEmpty
          rw [modifyIdx_getD_same _ _ _ hidxlen]
          simp [clearData]
        have hjv_le : jv ≤ e.idx := by
          by_contra hlt
          exact (hmin e.idx (by omega)) hempj
        have hm1P : (assignToLeaf draws f (signFile ck f (f ++ ';' :: e.dat)
            (modBucket st 0 (fun bk => clearIdx bk e.idx)))).2.fileToLeaf f
            = some (draws st.rng) :=
          updF_same _ _ _
        have hm2P : (assignToLeaf draws f (signFile ck f (f ++ ';' :: e.dat)
            (modBucket st 0 (fun bk => clearIdx bk e.idx)))).2.fileToSig f
            = some (Bytes.sig ck (f ++ ';' :: e.dat)) :=
          updF_same _ _ _
        obtain ⟨hgI, hpI, hothI⟩ := @Good_insert h ck (Ea ++ Eb)
          (assignToLeaf draws f (signFile ck f (f ++ ';' :: e.dat)
            (modBucket st 0 (fun bk => clearIdx bk e.idx)))).2
          0 jv tl f e.dat (draws st.rng)
          hgP (numNodes_pos h) hpP hcav hnokf (hdraws st.rng)
          (zero_mem_rootPath (draws st.rng)) hm1P hm2P hnames
        refine ⟨jv, hjv_le, Good_maps hgI rfl (fun _ _ => rfl) (fun _ _ => rfl),
          PlainAt_of_getBucket_eq rfl hpI, ?_⟩
        intro k3 hk3
        exact (hothI k3 hk3).trans (hothc k3 hk3)

/-- The block loop of `read` over a range of a decrypted bucket holding no
block of the requested file is a no-op. -/
theorem scanLoop_skip {h ck : Nat} {draws : Nat → Nat} {f : PyStr} {del : Bool}
    {k : Nat} {E : List Entry} : ∀ {rem j : Nat} {req : Option PyStr} {st : St},
    Good h ck E st → k < numNodes h → PlainAt h st k → nameOK f →
    j + rem = Zsize h →
    (∀ e, e ∈ E → e.name = f → ¬ (e.node = k ∧ j ≤ e.idx)) →
    scanLoop ck draws f del k rem j req st = (Except.ok req, st) := by
  intro rem
  induction rem with
  | zero =>
    intro j req st _ _ _ _ _ _
    rfl
  | succ m ih =>
    intro j req st hg hk hp hnok hlen hnm
    have hj : j < Zsize h := by omega
    have hstep : scanStep ck draws f del k j req st = (Except.ok req, st) := by
      rcases block_content hg hk hj hp with ⟨e, he, hn, hi, hdata⟩ | ⟨hdata, _⟩
      · have hfe : fileStr e = e.name ++ ';' :: e.dat := rfl
        rw [hfe] at hdata
        obtain ⟨_, _, _, _, hnokE, _, _, _, _⟩ := hg.ent e he
        refine scanStep_skip hdata hnokE.1 ?_
        intro hq
        exact hnm e he hq ⟨hn, by omega⟩
      · have hed : (EMPTY_DATA : PyStr) = ['0'] ++ ';' :: ['0'] := rfl
        rw [hed] at hdata
        refine scanStep_skip hdata (by decide) ?_
        intro hq
        exact hnok.2 hq.symm
    unfold scanLoop
    rw [hstep]
    simp only [andThen_pair_ok]
    exact ih hg hk hp hnok (by omega)
      (fun e he hf hc => hnm e he hf ⟨hc.1, by omega⟩)

/-- The block loop of `read` over the root bucket holding the requested
file (delete flag clear, no overflow): the data is captured and the file
re-inserted at a root slot not beyond the cleared one; everything else of
the sweep state is untouched. -/
theorem scanLoop_hit {h ck : Nat} {draws : Nat → Nat} {f : PyStr} :
    ∀ {rem j : Nat} {req : Option PyStr} {st : St} {Ea Eb : List Entry} {e : Entry},
    Good h ck (Ea ++ e :: Eb) st →
    e.name = f → e.node = 0 → (∀ n, isLeafKey h (draws n)) →
    PlainAt h st 0 → j + rem = Zsize h → j ≤ e.idx →
    (∀ x, x ∈ Ea ++ Eb → x.name = f → ¬ (x.node = 0 ∧ j ≤ x.idx)) →
    ∀ {res : Except Err (Option PyStr)} {stf : St},
    scanLoop ck draws f false 0 rem j req st = (res, stf) → stf.ovf = false →
    res = Except.ok (some e.dat) ∧
    ∃ jv, Good h ck (Entry.mk f e.dat (draws st.rng) 0 jv :: (Ea ++ Eb)) stf ∧
      PlainAt h stf 0 ∧
      (∀ k3, k3 ≠ 0 → getBucket stf k3 = getBucket st k3) := by
  intro rem
  induction rem with
  | zero =>
    intro j req st Ea Eb e hg _ _ _ _ hlen hjle hnm res stf hrun hovf
    exfalso
    obtain ⟨_, hin, _, _, _, _, _, _, _⟩ := hg.ent e (by simp)
    omega
  | succ m ih =>
    intro j req st Ea Eb e hg hname hnode hdraws hp hlen hjle hnm res stf hrun hovf
    by_cases hj : j = e.idx
    · subst hj
      unfold scanLoop at hrun
      rcases hq1 : scanStep ck draws f false 0 e.idx req st with ⟨r1, st1⟩
      rw [hq1] at hrun
      rcases r1 with e1 | r1
      · rw [andThen_pair_error] at hrun
        have h3 := congrArg Prod.snd hrun
        simp only at h3
        have hovf1 : st1.ovf = false := by rw [h3]; exact hovf
        obtain ⟨hr, _⟩ := scanStep_hit hg hname hnode hdraws hp hq1 hovf1
        cases hr
      · simp only [andThen_pair_ok] at hrun
        have hovf1 : st1.ovf = false := by
          cases hcs : st1.ovf
          · rfl
          · exfalso
            have hx : (scanLoop ck draws f false 0 m (e.idx + 1) r1 st1).2.ovf = true :=
              scanLoop_ovf_mono hcs
            rw [hrun] at hx
            simp only at hx
            rw [hovf] at hx
            cases hx
        obtain ⟨hr, jv, hjvle, hgI, hpI, hothI⟩ :=
          scanStep_hit hg hname hnode hdraws hp hq1 hovf1
        have hr2 := Except.ok.inj hr
        subst hr2
        have hskip : scanLoop ck draws f false 0 m (e.idx + 1) (some e.dat) st1
            = (Except.ok (some e.dat), st1) := by
          apply scanLoop_skip hgI (numNodes_pos h) hpI
            (by rw [← hname]; exact (hg.ent e (by simp)).2.2.2.2.1) (by omega)
          intro x hx hxf hc
          rcases List.mem_cons.mp hx with hx1 | hx2
          · rw [hx1] at hc
            simp only at hc
            omega
          · exact hnm x hx2 hxf ⟨hc.1, by omega⟩
        rw [hskip] at hrun
        have h3 := congrArg Prod.snd hrun
        have h4 := congrArg Prod.fst hrun
        simp only at h3 h4
        subst h3
        exact ⟨h4.symm, jv, hgI, hpI, hothI⟩
    · have hjlt : j < e.idx := by omega
      unfold scanLoop at hrun
      have hstep : scanStep ck draws f false 0 j req st = (Except.ok req, st) := by
        have hjz : j < Zsize h := by omega
        rcases block_content hg (numNodes_pos h) hjz hp with
          ⟨e2, he2, hn2, hi2, hdata⟩ | ⟨hdata, _⟩
        · have hfe : fileStr e2 = e2.name ++ ';' :: e2.dat := rfl
          rw [hfe] at hdata
          obtain ⟨_, _, _, _, hnokE2, _, _, _, _⟩ := hg.ent e2 he2
          refine scanStep_skip hdata hnokE2.1 ?_
          intro hq
          have he2ne : e2 ≠ e := by
            intro hcc
            rw [hcc] at hi2
            omega
          have he2m : e2 ∈ Ea ++ Eb := by
            rcases List.mem_append.mp he2 with hx | hx
            · exact List.mem_append.mpr (Or.inl hx)
            · rcases List.mem_cons.mp hx with hx1 | hx2
              · exact absurd hx1 he2ne
              · exact List.mem_append.mpr (Or.inr hx2)
          exact hnm e2 he2m hq ⟨hn2, by omega⟩
        · have hed : (EMPTY_DATA : PyStr) = ['0'] ++ ';' :: ['0'] := rfl
          rw [hed] at hdata
          refine scanStep_skip hdata (by decide) ?_
          intro hq
          have hnokf : nameOK f := by
            rw [← hname]
            exact (hg.ent e (by simp)).2.2.2.2.1
          exact hnokf.2 hq.symm
      rw [hstep] at hrun
      simp only [andThen_pair_ok] at hrun
      exact ih hg hname hnode hdraws hp (by omega) (by omega)
        (fun x hx hxf hc => hnm x hx hxf ⟨hc.1, by omega⟩) hrun hovf

/-- `read`'s path sweep over buckets holding no block of the requested file
keeps the request value, the invariant, the maps and the overflow flag. -/
theorem readSweep_skip {h ck : Nat} {draws : Nat → Nat} {f : PyStr} {del : Bool}
    {lv : List Nat} : ∀ {E : List Entry} {st : St} {req : Option PyStr}
    {res : Except Err (Option PyStr)} {stf : St},
    Good h ck E st → (∀ k, k ∈ lv → k < numNodes h) → nameOK f →
    (∀ e, e ∈ E → e.name = f → e.node ∉ lv) →
    readSweep h ck draws f del lv req st = (res, stf) →
    res = Except.ok req ∧ Good h ck E stf ∧
    stf.fileToLeaf = st.fileToLeaf ∧ stf.fileToSig = st.fileToSig ∧
    stf.rng = st.rng ∧ stf.ovf = st.ovf := by
  induction lv with
  | nil =>
    intro E st req res stf hg _ _ _ hrun
    unfold readSweep at hrun
    have h3 := congrArg Prod.snd hrun
    have h4 := congrArg Prod.fst hrun
    simp only at h3 h4
    subst h3
    exact ⟨h4.symm, hg, rfl, rfl, rfl, rfl⟩
  | cons k ks ih =>
    intro E st req res stf hg hlv hnok hnf hrun
    unfold readSweep at hrun
    have hkn : k < numNodes h := hlv k (by simp)
    have hor : oread h k st
        = (Except.ok (), { st with trace := st.trace ++ [Ev.oreadE k] }) := by
      unfold oread
      rw [if_pos hkn]
    rw [hor] at hrun
    simp only [andThen_pair_ok] at hrun
    have hgT : Good h ck E { st with trace := st.trace ++ [Ev.oreadE k] } :=
      Good_maps hg rfl (fun _ _ => rfl) (fun _ _ => rfl)
    obtain ⟨hgd, hpl⟩ := Good_decryptAt hgT hkn
    have hslen : (getBucket (decryptAt ck k
        { st with trace := st.trace ++ [Ev.oreadE k] }) k).array.length = Zsize h :=
      hgd.alen k hkn
    have hsl : scanLoop ck draws f del k (getBucket (decryptAt ck k
        { st with trace := st.trace ++ [Ev.oreadE k] }) k).array.length 0 req
        (decryptAt ck k { st with trace := st.trace ++ [Ev.oreadE k] })
        = (Except.ok req, decryptAt ck k
          { st with trace := st.trace ++ [Ev.oreadE k] }) := by
      rw [hslen]
      apply scanLoop_skip hgd hkn hpl hnok (by omega)
      intro e he hef hc
      exact (hnf e he hef) (by rw [← hc.1]; simp)
    rw [hsl] at hrun
    simp only [andThen_pair_ok] at hrun
    obtain ⟨s3, heq3, hg3, _, hfl3, hfs3, hrg3, _, hov3, _⟩ :=
      Good_encryptAt_run hgd hkn hpl
    rw [heq3] at hrun
    simp only [andThen_pair_ok] at hrun
    obtain ⟨hres, hgf, hfl, hfs, hrg, hov⟩ := ih hg3
      (fun j hj => hlv j (by simp [hj]))
      hnok (fun e he hef => fun hc => hnf e he hef (by simp [hc])) hrun
    refine ⟨hres, hgf, ?_, ?_, ?_, ?_⟩
    · rw [hfl, hfl3]; simp
    · rw [hfs, hfs3]; simp
    · rw [hrg, hrg3]; simp
    · rw [hov, hov3]; simp

/-- The root path visits the root exactly once, first. -/
theorem rootPath_cons (k : Nat) : ∃ rest, rootPath k = 0 :: rest ∧ 0 ∉ rest := by
  induction k using Nat.strong_induction_on with
  | _ k ih =>
    match k with
    | 0 => exact ⟨[], rfl, by simp⟩
    | m + 1 =>
      obtain ⟨rest, hr, hn⟩ := ih (m / 2) (by omega)
      rw [rootPath_succ, hr]
      refine ⟨rest ++ [m + 1], by simp, ?_⟩
      simp only [List.mem_append, List.mem_singleton, not_or]
      exact ⟨hn, by omega⟩

/-- `Client.read` (no delete) under the invariant with no overflow, for a
live file whose block sits in the root bucket: the call returns the stored
data and the live files are unchanged up to reassignment and block moves. -/
theorem readOp_Good {h ck : Nat} {draws : Nat → Nat} {fc : Nat → FlushChoice} {f : PyStr}
    {Ea Eb : List Entry} {e : Entry} {st : St}
    (hg : Good h ck (Ea ++ e :: Eb) st)
    (hdraws : ∀ n, isLeafKey h (draws n))
    (hname : e.name = f) (hnode : e.node = 0)
    {res : Except Err (Option PyStr)} {stf : St}
    (hrun : readOp h ck draws fc f false st = (res, stf))
    (hovf : stf.ovf = false) :
    res = Except.ok (some e.dat) ∧
    ∃ E2, Good h ck E2 stf ∧ entriesMatch (Ea ++ e :: Eb) E2 := by
  have hme : e ∈ Ea ++ e :: Eb := by simp
  obtain ⟨hkn, hin, hlf, hpt, hnokE, hvd, hvl, hm1, hm2⟩ := hg.ent e hme
  rw [hname] at hm1
  have hnokf : nameOK f := hname ▸ hnokE
  unfold readOp at hrun
  split at hrun
  · rename_i hnone
    rw [hm1] at hnone
    simp only [getRootPathO] at hnone
    rw [getRootPath_isLeafKey hlf] at hnone
    cases hnone
  · rename_i path hpatheq
    rw [hm1] at hpatheq
    simp only [getRootPathO] at hpatheq
    rw [getRootPath_isLeafKey hlf] at hpatheq
    have hpa := Option.some.inj hpatheq
    subst hpa
    obtain ⟨rest, hrp, hrn0⟩ := rootPath_cons e.leaf
    rw [hrp] at hrun
    rcases hq1 : readSweep h ck draws f false (0 :: rest) none st with ⟨r1, st1⟩
    rw [hq1] at hrun
    have hovf1 : st1.ovf = false := by
      have hx := andThen_ovf_rev hrun hovf (fun a s hs => by
        apply andThen_snd_pres (P := fun s2 => s2.ovf = true)
        · exact flush_ovf_mono hs
        · intro b s2 h2
          simpa using h2)
      simpa using hx
    unfold readSweep at hq1
    have hor : oread h 0 st
        = (Except.ok (), { st with trace := st.trace ++ [Ev.oreadE 0] }) := by
      unfold oread
      rw [if_pos (numNodes_pos h)]
    rw [hor] at hq1
    simp only [andThen_pair_ok] at hq1
    have hgT : Good h ck (Ea ++ e :: Eb) { st with trace := st.trace ++ [Ev.oreadE 0] } :=
      Good_maps hg rfl (fun _ _ => rfl) (fun _ _ => rfl)
    obtain ⟨hgd, hpl⟩ := Good_decryptAt hgT (numNodes_pos h)
    have hslen : (getBucket (decryptAt ck 0
        { st with trace := st.trace ++ [Ev.oreadE 0] }) 0).array.length = Zsize h :=
      hgd.alen 0 (numNodes_pos h)
    rw [hslen] at hq1
    rcases hq2 : scanLoop ck draws f false 0 (Zsize h) 0 none
        (decryptAt ck 0 { st with trace := st.trace ++ [Ev.oreadE 0] }) with ⟨r2, s3⟩
    rw [hq2] at hq1
    rcases r2 with er2 | req2
    · rw [andThen_pair_error] at hq1
      have h3 := congrArg Prod.snd hq1
      have h4 := congrArg Prod.fst hq1
      simp only at h3 h4
      have hovf3 : s3.ovf = false := by rw [h3]; exact hovf1
      obtain ⟨hr, _⟩ := scanLoop_hit hgd hname hnode hdraws hpl (by omega)
        (by omega)
        (fun x hx hxf => absurd hxf (by rw [← hname]; exact names_ne_of_middle hg.nmd x hx))
        hq2 hovf3
      cases hr
    · simp only [andThen_pair_ok] at hq1
      have hovf3 : s3.ovf = false := by
        cases hcs : s3.ovf
        · rfl
        · exfalso
          have hx1 : (andThen (encryptAt ck 0 s3) (fun _ st4 =>
              readSweep h ck draws f false rest req2 st4)).2.ovf = true := by
            apply andThen_snd_pres (P := fun s2 => s2.ovf = true)
            · simpa using hcs
            · intro b s2 h2
              exact readSweep_ovf_mono h2
          rw [hq1] at hx1
          simp only at hx1
          rw [hovf1] at hx1
          cases hx1
      obtain ⟨hr2, jv, hgI, hpI, hothI⟩ := scanLoop_hit hgd hname hnode hdraws hpl
        (by omega) (by omega)
        (fun x hx hxf => absurd hxf (by rw [← hname]; exact names_ne_of_middle hg.nmd x hx))
        hq2 hovf3
      have hr2e := Except.ok.inj hr2
      subst hr2e
      obtain ⟨s4, heq4, hg4, _, hfl4, hfs4, hrg4, _, _, _⟩ :=
        Good_encryptAt_run hgI (numNodes_pos h) hpI
      rw [heq4] at hq1
      simp only [andThen_pair_ok] at hq1
      have hrestlt : ∀ k, k ∈ rest → k < numNodes h := by
        intro k hk
        have hkp : k ∈ rootPath e.leaf := by
          rw [hrp]
          exact List.mem_cons_of_mem _ hk
        exact Nat.lt_of_le_of_lt (mem_rootPath_le hkp) hlf.2
      obtain ⟨hr1, hg1, hfl1, hfs1, hrg1, hov1⟩ := readSweep_skip hg4 hrestlt hnokf
        (by
          intro x hx hxf
          rcases List.mem_cons.mp hx with hx1 | hx2
          · rw [hx1]
            simpa using hrn0
          · exact absurd hxf (by
              rw [← hname]
              exact names_ne_of_middle hg.nmd x hx2))
        hq1
      rw [hr1] at hrun
      simp only [andThen_pair_ok] at hrun
      rcases hq3 : flush h ck fc st1 with ⟨r3, st3f⟩
      rw [hq3] at hrun
      rcases r3 with er3 | r3
      · rw [andThen_pair_error] at hrun
        have h3 := congrArg Prod.snd hrun
        simp only at h3
        have hovf3f : st3f.ovf = false := by rw [h3]; exact hovf
        obtain ⟨⟨r, hr⟩, _⟩ := flush_Good hg1 hq3 hovf3f
        cases hr
      · simp only [andThen_pair_ok] at hrun
        have h3 := congrArg Prod.snd hrun
        have h4 := congrArg Prod.fst hrun
        simp only at h3 h4
        subst h3
        obtain ⟨_, _, _, _, E2, hg2, hmt2⟩ := flush_Good hg1 hq3 hovf
        refine ⟨h4.symm, E2, hg2, ?_⟩
        refine entriesMatch_trans ?_ hmt2
        unfold entriesMatch
        simp only [List.map_append, List.map_cons]
        rw [hname]
        exact List.perm_middle

theorem range_map_getD {α : Type} [Inhabited α] {n k : Nat} (g : Nat → α) (hk : k < n) :
    ((List.range n).map g).getD k default = g k := by
  have hlen : k < ((List.range n).map g).length := by
    simp only [List.length_map, List.length_range]
    exact hk
  rw [List.getD_eq_getElem _ _ hlen]
  simp

/-- The fresh server state with an empty client carries no live file. -/
theorem fresh_Good (h ck : Nat) (init : Nat → Nat → Nat) :
    Good h ck [] (freshSt h init) := by
  have hb : ∀ k, k < numNodes h → getBucket (freshSt h init) k = freshBucket h k init := by
    intro k hk
    unfold getBucket freshSt
    exact range_map_getD _ hk
  have ha : ∀ k j, j < Zsize h →
      (freshBucket h k init).array.getD j default
      = { bid := k * Zsize h + j, leafId := PyVal.int (init k j),
          data := PyVal.str EMPTY_DATA } := by
    intro k j hj
    unfold freshBucket
    exact range_map_getD _ hj
  refine ⟨?_, ?_, ?_, ?_, ?_, ?_, List.Pairwise.nil, List.Pairwise.nil⟩
  · unfold freshSt
    simp
  · intro k hk
    rw [hb k hk]
    unfold freshBucket
    simp [Zsize]
  · intro k hk j hj
    rw [hb k hk, ha k j hj]
    exact Or.inl ⟨EMPTY_DATA, init k j, rfl, rfl⟩
  · intro k hk j hj
    rw [hb k hk, ha k j hj]
  · intro e he
    cases he
  · intro k hk j hj _
    rw [hb k hk, ha k j hj]
    rfl

theorem runPairs_ovf_mono {h ck : Nat} {draws : Nat → Nat} {fc : Nat → FlushChoice}
    {L : List (PyStr × PyStr)} : ∀ {st : St}, st.ovf = true →
    (runPairs h ck draws fc L st).2.ovf = true := by
  induction L with
  | nil =>
    intro st hst
    exact hst
  | cons p rest ih =>
    intro st hst
    rcases p with ⟨f, d⟩
    unfold runPairs
    apply andThen_snd_pres (P := fun s => s.ovf = true)
    · exact writeOp_ovf_mono hst
    · intro a s hs
      apply andThen_snd_pres (P := fun s2 => s2.ovf = true)
      · exact readOp_ovf_mono hs
      · intro b s2 h2
        apply andThen_snd_pres (P := fun s3 => s3.ovf = true)
        · exact ih h2
        · intro l s3 h3
          exact h3

/-- The write-then-read sequence under the invariant with no overflow:
every read returns the value just written, and the live files grow by
exactly the processed pairs. -/
theorem runPairs_Good {h ck : Nat} {draws : Nat → Nat} {fc : Nat → FlushChoice}
    {L : List (PyStr × PyStr)} :
    ∀ {E : List Entry} {st : St} {res : Except Err (List (Option PyStr))} {stf : St},
    Good h ck E st → (∀ n, isLeafKey h (draws n)) →
    (∀ p, p ∈ L → nameOK p.1) →
    L.Pairwise (fun p q => p.1 ≠ q.1) →
    (∀ p, p ∈ L → ∀ e, e ∈ E → e.name ≠ p.1) →
    runPairs h ck draws fc L st = (res, stf) → stf.ovf = false →
    res = Except.ok (L.map (fun p => some p.2)) ∧
    ∃ E4, Good h ck E4 stf ∧
      entriesMatch (L.map (fun q => Entry.mk q.1 q.2 0 0 0) ++ E) E4 := by
  induction L with
  | nil =>
    intro E st res stf hg _ _ _ _ hrun hovf
    unfold runPairs at hrun
    have h3 := congrArg Prod.snd hrun
    have h4 := congrArg Prod.fst hrun
    simp only at h3 h4
    subst h3
    exact ⟨h4.symm, E, hg, by simp [entriesMatch]⟩
  | cons p rest ih =>
    intro E st res stf hg hdraws hnokL hdist hfresh hrun hovf
    rcases p with ⟨f, d⟩
    have hnokf : nameOK f := hnokL (f, d) (by simp)
    have hnewf : ∀ e, e ∈ E → e.name ≠ f := fun e he => hfresh (f, d) (by simp) e he
    unfold runPairs at hrun
    rcases hq1 : writeOp h ck draws fc f d st with ⟨r1, st1⟩
    rw [hq1] at hrun
    rcases r1 with er1 | r1
    · rw [andThen_pair_error] at hrun
      have h3 := congrArg Prod.snd hrun
      simp only at h3
      have hovf1 : st1.ovf = false := by rw [h3]; exact hovf
      obtain ⟨hr, _⟩ := writeOp_Good hg hdraws hnokf hnewf hq1 hovf1
      cases hr
    · simp only [andThen_pair_ok] at hrun
      rcases hq2 : readOp h ck draws fc f false st1 with ⟨r2, st2⟩
      rw [hq2] at hrun
      rcases r2 with er2 | r2
      · rw [andThen_pair_error] at hrun
        have h3 := congrArg Prod.snd hrun
        simp only at h3
        have hovf2 : st2.ovf = false := by rw [h3]; exact hovf
        have hovf1 : st1.ovf = false := by
          cases hcs : st1.ovf
          · rfl
          · exfalso
            have hx : (readOp h ck draws fc f false st1).2.ovf = true :=
              readOp_ovf_mono hcs
            rw [hq2] at hx
            simp only at hx
            rw [hovf2] at hx
            cases hx
        obtain ⟨_, jv, E2m, hgW, hmW⟩ := writeOp_Good hg hdraws hnokf hnewf hq1 hovf1
        obtain ⟨hr, _⟩ := @readOp_Good h ck draws fc f [] E2m
          (Entry.mk f d (draws st.rng) 0 jv) st1 hgW hdraws rfl rfl _ _ hq2 hovf2
        cases hr
      · simp only [andThen_pair_ok] at hrun
        rcases hq3 : runPairs h ck draws fc rest st2 with ⟨r3, st3⟩
        rw [hq3] at hrun
        rcases r3 with er3 | r3
        · rw [andThen_pair_error] at hrun
          have h3 := congrArg Prod.snd hrun
          simp only at h3
          have hovf3b : st3.ovf = false := by rw [h3]; exact hovf
          have hovf2 : st2.ovf = false := by
            cases hcs : st2.ovf
            · rfl
            · exfalso
              have hx : (runPairs h ck draws fc rest st2).2.ovf = true :=
                runPairs_ovf_mono hcs
              rw [hq3] at hx
              simp only at hx
              rw [hovf3b] at hx
              cases hx
          have hovf1 : st1.ovf = false := by
            cases hcs : st1.ovf
            · rfl
            · exfalso
              have hx : (readOp h ck draws fc f false st1).2.ovf = true :=
                readOp_ovf_mono hcs
              rw [hq2] at hx
              simp only at hx
              rw [hovf2] at hx
              cases hx
          obtain ⟨_, jv, E2m, hgW, hmW⟩ := writeOp_Good hg hdraws hnokf hnewf hq1 hovf1
          obtain ⟨_, E3, hgR, hmR⟩ := @readOp_Good h ck draws fc f [] E2m
            (Entry.mk f d (draws st.rng) 0 jv) st1 hgW hdraws rfl rfl _ _ hq2 hovf2
          have hfresh3 : ∀ q, q ∈ rest → ∀ e3, e3 ∈ E3 → e3.name ≠ q.1 := by
            intro q hq e3 he3
            obtain ⟨e1, he1, hn1⟩ := entriesMatch_names hmR e3 he3
            rcases List.mem_cons.mp (by simpa using he1) with hx1 | hx2
            · rw [← hn1, hx1]
              intro hc
              exact (List.rel_of_pairwise_cons hdist hq) hc
            · obtain ⟨e0, he0, hn0⟩ := entriesMatch_names hmW e1 hx2
              rw [← hn1, ← hn0]
              exact hfresh q (by simp [hq]) e0 he0
          obtain ⟨hr3, _⟩ := ih hgR hdraws
            (fun q hq => hnokL q (by simp [hq]))
            (List.Pairwise.of_cons hdist) hfresh3 hq3 hovf3b
          cases hr3
        · simp only [andThen_pair_ok] at hrun
          have h3 := congrArg Prod.snd hrun
          have h4 := congrArg Prod.fst hrun
          simp only at h3 h4
          subst h3
          have hovf2 : st2.ovf = false := by
            cases hcs : st2.ovf
            · rfl
            · exfalso
              have hx : (runPairs h ck draws fc rest st2).2.ovf = true :=
                runPairs_ovf_mono hcs
              rw [hq3] at hx
              simp only at hx
              rw [hovf] at hx
              cases hx
          have hovf1 : st1.ovf = false := by
            cases hcs : st1.ovf
            · rfl
            · exfalso
              have hx : (readOp h ck draws fc f false st1).2.ovf = true :=
                readOp_ovf_mono hcs
              rw [hq2] at hx
              simp only at hx
              rw [hovf2] at hx
              cases hx
          obtain ⟨_, jv, E2m, hgW, hmW⟩ := writeOp_Good hg hdraws hnokf hnewf hq1 hovf1
          obtain ⟨hrR, E3, hgR, hmR⟩ := @readOp_Good h ck draws fc f [] E2m
            (Entry.mk f d (draws st.rng) 0 jv) st1 hgW hdraws rfl rfl _ _ hq2 hovf2
          have hr2d : r2 = some d := Except.ok.inj hrR
          have hfresh3 : ∀ q, q ∈ rest → ∀ e3, e3 ∈ E3 → e3.name ≠ q.1 := by
            intro q hq e3 he3
            obtain ⟨e1, he1, hn1⟩ := entriesMatch_names hmR e3 he3
            rcases List.mem_cons.mp (by simpa using he1) with hx1 | hx2
            · rw [← hn1, hx1]
              intro hc
              exact (List.rel_of_pairwise_cons hdist hq) hc
            · obtain ⟨e0, he0, hn0⟩ := entriesMatch_names hmW e1 hx2
              rw [← hn1, ← hn0]
              exact hfresh q (by simp [hq]) e0 he0
          obtain ⟨hr3, E4, hg4, hm4⟩ := ih hgR hdraws
            (fun q hq => hnokL q (by simp [hq]))
            (List.Pairwise.of_cons hdist) hfresh3 hq3 hovf
          have hr3d := Except.ok.inj hr3
          refine ⟨?_, E4, hg4, ?_⟩
          · rw [← h4, hr2d, hr3d]
            simp
          · refine entriesMatch_trans ?_ hm4
            unfold entriesMatch at hmW hmR ⊢
            simp only [List.nil_append, List.map_cons, List.map_append,
              List.cons_append] at hmW hmR ⊢
            refine List.Perm.trans ?_ (List.Perm.append_left _ hmR)
            refine List.Perm.trans ?_ List.perm_middle.symm
            exact List.Perm.cons _ (List.Perm.append_left _ hmW)

/-- **C1** (amended): on a fresh server, running `write(fᵢ, dᵢ)` immediately
followed by `read(fᵢ)` for a sequence of pairwise-distinct filenames that
contain no `';'` and are not the string `"0"`, with every leaf draw in
range, has every read return the just-written data, whenever no
bucket-overflow discard occurs anywhere in the run (no `write_data` call
finds its bucket without a vacant block, i.e. the ghost overflow flag of
the final state is clear). -/
theorem c1_round_trip {h ck : Nat} {draws : Nat → Nat} {fc : Nat → FlushChoice}
    {init : Nat → Nat → Nat} {ops : List (PyStr × PyStr)}
    {res : Except Err (List (Option PyStr))} {stf : St}
    (hdraws : ∀ n, isLeafKey h (draws n))
    (hnok : ∀ p, p ∈ ops → nameOK p.1)
    (hdist : ops.Pairwise (fun p q => p.1 ≠ q.1))
    (hrun : runPairs h ck draws fc ops (freshSt h init) = (res, stf))
    (hovf : stf.ovf = false) :
    res = Except.ok (ops.map (fun p => some p.2)) :=
  (runPairs_Good (fresh_Good h ck init) hdraws hnok hdist
    (fun p _ e he => nomatch he) hrun hovf).1

/-- Concrete instance of the amended C1 round trip: a two-leaf tree, one
write-read pair, every hypothesis checked by evaluation. -/
theorem c1_round_trip_witness :
    (∀ n : Nat, isLeafKey 1 ((fun _ => 1) n)) ∧
    (∀ p, p ∈ [((['a'], ['X']) : PyStr × PyStr)] → nameOK p.1) ∧
    ([((['a'], ['X']) : PyStr × PyStr)].Pairwise (fun p q => p.1 ≠ q.1)) ∧
    (runPairs 1 0 (fun _ => 1) (fun _ => ⟨0, 0, 0, 0⟩) [(['a'], ['X'])]
        (freshSt 1 (fun _ _ => 1))).2.ovf = false ∧
    (runPairs 1 0 (fun _ => 1) (fun _ => ⟨0, 0, 0, 0⟩) [(['a'], ['X'])]
        (freshSt 1 (fun _ _ => 1))).1 = Except.ok [some ['X']] :=
  ⟨fun _ => (by decide : isLeafKey 1 1),
   by
     intro p hp
     simp only [List.mem_singleton] at hp
     subst hp
     exact ⟨by decide, by decide⟩,
   by simp,
   by decide,
   c1_round_trip (fun _ => (by decide : isLeafKey 1 1))
     (by
       intro p hp
       simp only [List.mem_singleton] at hp
       subst hp
       exact ⟨by decide, by decide⟩)
     (by simp) rfl (by decide)⟩

end Oram
